import Mathlib

/-!
# carp: a command-line argument parser

A shallow embedding of `src/carp.c` and `src/carp_argument_vector.c`.

* A C string is a `List Char` (the characters before the terminating NUL).
* The `int` fields of the source are natural numbers or integers without wrap-around.
* `carp_backend_search`, the option table, is a parameter
  `search : List Char → Option CarpOptionSpec`: the name is the `len` characters at `name`.
* Handlers are opaque function pointers; the calls the parser makes to the option table and
  to the handlers are recorded, in order, in the `trace` field of the parser state.
* `exit` and the dereference of a missing `argv` entry end the run: see `Outcome`.
-/

namespace CarpParser

/-- A token of the argument vector: a C string. -/
abbrev Token := List Char

/-- The `enum CarpTokenType` of `carp.c`. -/
inductive CarpTokenType where
  | TOKEN_SHORT_OPTION
  | TOKEN_LONG_OPTION
  | TOKEN_SEPARATOR
  | TOKEN_ARGUMENT
  deriving DecidableEq, Repr

/-- The `enum CarpError` of `carp.c` (without the `ERROR_COUNT` bound). -/
inductive CarpError where
  | ERROR_NOT_ENOUGH_ARGUMENTS
  | ERROR_UNKNOWN_OPTION
  | ERROR_LONG_OPTION_ARGUMENT_COUNT
  deriving DecidableEq, Repr

open CarpTokenType CarpError

/-- Whether `strncmp(s, p, n)` is zero: the first `n` characters of the two strings agree
(a string shorter than `n` has to agree as a whole). -/
def strncmp_eq (s p : List Char) (n : Nat) : Bool :=
  s.take n == p.take n

/-- The `strlen` of a C string. -/
def strlen (s : List Char) : Nat :=
  s.length

/-- The offset of the pointer that `strchr(s, ch)` returns: the first occurrence of `ch`,
`none` for the null pointer. -/
def strchr : List Char → Char → Option Nat
  | [], _ => none
  | x :: xs, ch => if x = ch then some 0 else (strchr xs ch).map (· + 1)

/-- The function `carp_classify_token` of `carp.c`. -/
def carp_classify_token (token : Token) : CarpTokenType :=
  if strncmp_eq token ['-', '-'] 2 && strlen token == 2 then
    TOKEN_SEPARATOR
  else if strncmp_eq token ['-', '-'] 2 then
    TOKEN_LONG_OPTION
  else if strncmp_eq token ['-'] 1 then
    TOKEN_SHORT_OPTION
  else
    TOKEN_ARGUMENT

/-! ## The growable buffer of `carp_argument_vector.c` -/

/-- The `struct CarpArgumentVector`. `buf` lists the slots of the allocation that have been
written, from index 0; the items of the vector are the first `size` of them. -/
structure CarpArgumentVector where
  buf : List Token
  capacity : Nat
  size : Nat
  deriving DecidableEq, Repr

/-- The items a reader of the vector sees: `buf[0 .. size)`. -/
def CarpArgumentVector.items (vec : CarpArgumentVector) : List Token :=
  vec.buf.take vec.size

/-- The static function `resize`, for a `realloc` that succeeds: the slots below the new
capacity are kept. -/
def resize (vec : CarpArgumentVector) (capacity : Nat) : CarpArgumentVector :=
  { vec with buf := vec.buf.take capacity, capacity := capacity }

/-- The function `carp_vector_init`, for a `malloc` that succeeds. -/
def carp_vector_init (capacity : Nat) : CarpArgumentVector :=
  { buf := [], capacity := capacity, size := 0 }

/-- The function `carp_vector_cleanup`. -/
def carp_vector_cleanup (_vec : CarpArgumentVector) : CarpArgumentVector :=
  { buf := [], capacity := 0, size := 0 }

/-- The assignment `buf[i] = elem`. -/
def store (buf : List Token) (i : Nat) (elem : Token) : List Token :=
  if i < buf.length then buf.set i elem else buf ++ [elem]

/-- The function `carp_vector_push`. -/
def carp_vector_push (vec : CarpArgumentVector) (elem : Token) : CarpArgumentVector :=
  let vec := if vec.size = vec.capacity then resize vec (vec.capacity * 2) else vec
  { vec with buf := store vec.buf vec.size elem, size := vec.size + 1 }

/-- What a read of the buffer gives.
* `item elem`: the item stored at the index.
* `null`: no read is made, the function returns `NULL`.
* `invalid index`: `buf[index]` is read although no item was stored there (an index before
  the buffer, or a slot that was never written): the behaviour is undefined. -/
inductive VectorRead where
  | item (elem : Token)
  | null
  | invalid (index : Int)
  deriving DecidableEq, Repr

/-- The read `buf[index]`. -/
def load (buf : List Token) (index : Int) : VectorRead :=
  match index with
  | Int.ofNat i =>
    match buf[i]? with
    | some elem => .item elem
    | none => .invalid index
  | Int.negSucc _ => .invalid index

/-- The function `carp_vector_pop`, for a `realloc` that succeeds. -/
def carp_vector_pop (vec : CarpArgumentVector) : CarpArgumentVector × VectorRead :=
  if vec.size = 0 then
    (vec, .null)
  else
    let vec := { vec with size := vec.size - 1 }
    let elem := load vec.buf vec.size
    let vec := if vec.size ≤ vec.capacity / 4 then resize vec (vec.capacity / 2) else vec
    (vec, elem)

/-- The function `carp_vector_at`; `index` is an `int`. -/
def carp_vector_at (vec : CarpArgumentVector) (index : Int) : VectorRead :=
  if index < vec.size then
    load vec.buf index
  else
    .null

/-- The function `carp_vector_get_size`. -/
def carp_vector_get_size (vec : CarpArgumentVector) : Nat :=
  vec.size

/-- A call that changes a vector: `carp_vector_push(vec, elem)` or `carp_vector_pop(vec)`. -/
inductive VectorCall where
  | push (elem : Token)
  | pop
  deriving DecidableEq, Repr

/-- The vector after the call. -/
def VectorCall.run (call : VectorCall) (vec : CarpArgumentVector) : CarpArgumentVector :=
  match call with
  | .push elem => carp_vector_push vec elem
  | .pop => (carp_vector_pop vec).1

/-- The vector after a sequence of calls, made one after the other. -/
def run_calls (vec : CarpArgumentVector) (calls : List VectorCall) : CarpArgumentVector :=
  calls.foldl (fun v call => call.run v) vec

/-- The function `resize` with both branches. `realloc n` tells whether the C library
returns memory for a request of `n` items, which are `n * sizeof(char*)` bytes. With memory
the capacity is set and 0 returned; on `NULL` the vector is left as it is and 1 is
returned. -/
def resize_with (realloc : Nat → Bool) (vec : CarpArgumentVector) (capacity : Nat) :
    CarpArgumentVector × Nat :=
  if realloc capacity then (resize vec capacity, 0) else (vec, 1)

/-- The function `carp_vector_push` on that library; the value `resize` returns is not
looked at. -/
def carp_vector_push_with (realloc : Nat → Bool) (vec : CarpArgumentVector) (elem : Token) :
    CarpArgumentVector :=
  let vec :=
    if vec.size = vec.capacity then (resize_with realloc vec (vec.capacity * 2)).1 else vec
  { vec with buf := store vec.buf vec.size elem, size := vec.size + 1 }

/-- The function `carp_vector_pop` on that library; the value `resize` returns is not
looked at. -/
def carp_vector_pop_with (realloc : Nat → Bool) (vec : CarpArgumentVector) :
    CarpArgumentVector × VectorRead :=
  if vec.size = 0 then
    (vec, .null)
  else
    let vec := { vec with size := vec.size - 1 }
    let elem := load vec.buf vec.size
    let vec :=
      if vec.size ≤ vec.capacity / 4 then (resize_with realloc vec (vec.capacity / 2)).1
      else vec
    (vec, elem)

/-- The vector after the call, on that library. -/
def VectorCall.run_with (realloc : Nat → Bool) (call : VectorCall)
    (vec : CarpArgumentVector) : CarpArgumentVector :=
  match call with
  | .push elem => carp_vector_push_with realloc vec elem
  | .pop => (carp_vector_pop_with realloc vec).1

/-- The vector after a sequence of calls, made one after the other, on that library. -/
def run_calls_with (realloc : Nat → Bool) (vec : CarpArgumentVector)
    (calls : List VectorCall) : CarpArgumentVector :=
  calls.foldl (fun v call => call.run_with realloc v) vec

/-- A handler: the function pointer `CARP_CALLBACK`, known by a number. -/
abbrev Callback := Nat

/-- The `struct CarpOptionSpec`: `arguments` is the arity (`-1` for any number), `callback`
is `none` for a null pointer. -/
structure CarpOptionSpec where
  arguments : Int
  callback : Option Callback
  deriving DecidableEq, Repr

/-- A call that leaves the parser: `search` is `carp_backend_search(name, len)`, `call` is
a handler called with `argv[0 .. argc)`. `head` is `c->state.head` at the time of the call:
the index of the token being parsed. -/
inductive Event where
  | search (head : Nat) (name : List Char)
  | call (head : Nat) (cb : Callback) (argv : List Token) (argc : Nat)
  deriving DecidableEq, Repr

/-- The index of the token during whose parsing the call was made. -/
def Event.head : Event → Nat
  | .search head _ => head
  | .call head _ _ _ => head

/-- The `struct CarpPrivate`, its `state` fields inlined, without the opaque
`callback_param`. `token` is `none` for a null pointer. `trace` is not in the source: it
lists the calls to the option table and to the handlers made so far. -/
structure CarpPrivate where
  argv : List Token
  callback_args : CarpArgumentVector
  command_args : CarpArgumentVector
  head : Nat
  tail : Nat
  token : Option Token
  trace : List Event
  deriving DecidableEq, Repr

/-- How a function of the parser ends.
* `ok a`: it returns `a`.
* `exit error c`: it calls `carp_exit_with_error(c, error)`, which ends the process.
* `invalid_read index c`: it passes `argv[index]` to `carp_classify_token` although the
  argument vector has no token there (`argv[argc]` is a null pointer, the entries after it do
  not exist), so `strncmp` dereferences an invalid pointer: the behaviour is undefined. The
  same stands for a read through `state.token` while it is null.
* `out_of_fuel`: the loop was cut off before its condition became false. -/
inductive Outcome (α : Type) where
  | ok (a : α)
  | exit (error : CarpError) (c : CarpPrivate)
  | invalid_read (index : Nat) (c : CarpPrivate)
  | out_of_fuel
  deriving DecidableEq, Repr

/-- The calls `carp_callback_wrapper` makes: the handler is called with `argv[0 .. argc)`,
unless it is the null pointer. -/
def callback_events (head : Nat) (cb : Option Callback) (argv : List Token) (argc : Nat) :
    List Event :=
  match cb with
  | some f => [Event.call head f (argv.take argc) argc]
  | none => []

/-- The function `carp_callback_wrapper`. -/
def carp_callback_wrapper (c : CarpPrivate) (cb : Option Callback) (argv : List Token)
    (argc : Nat) : CarpPrivate :=
  { c with trace := c.trace ++ callback_events c.head cb argv argc }

/-- The call `carp_backend_search(name, len)`, recorded in the trace. -/
def carp_backend_search (search : List Char → Option CarpOptionSpec) (c : CarpPrivate)
    (name : List Char) : CarpPrivate × Option CarpOptionSpec :=
  ({ c with trace := c.trace ++ [Event.search c.head name] }, search name)

/-- Sequencing: what follows runs only after a return. -/
def Outcome.bind {α β : Type} (x : Outcome α) (f : α → Outcome β) : Outcome β :=
  match x with
  | .ok a => f a
  | .exit error c => .exit error c
  | .invalid_read index c => .invalid_read index c
  | .out_of_fuel => .out_of_fuel

/-! ## The arity resolver -/

/-- The loop of `carp_option_argument_handler` for `required_arguments == -1`.
`argument_list` is the pointer into `argv`: the tokens from index `head` on. The token is
classified before `head < c->state.tail` is tested. -/
def variadic_loop : List Token → Nat → Nat → CarpPrivate → Outcome (CarpPrivate × Nat)
  | [], head, _, c => .invalid_read head c
  | tok :: argument_list, head, head_increment, c =>
    if carp_classify_token tok = TOKEN_ARGUMENT ∧ head < c.tail then
      variadic_loop argument_list (head + 1) (head_increment + 1)
        { c with callback_args := carp_vector_push c.callback_args tok }
    else
      .ok (c, head_increment)

/-- The loop `while (args_remaining > 0)` of `carp_option_argument_handler`; its first
argument is `args_remaining`, when positive. -/
def fixed_loop : Nat → List Token → Nat → Nat → CarpPrivate → Outcome (CarpPrivate × Nat)
  | 0, _, _, head_increment, c => .ok (c, head_increment)
  | _ + 1, [], head, _, c => .invalid_read head c
  | args_remaining + 1, tok :: argument_list, head, head_increment, c =>
    if carp_classify_token tok = TOKEN_ARGUMENT ∧ head < c.tail then
      fixed_loop args_remaining argument_list (head + 1) (head_increment + 1)
        { c with callback_args := carp_vector_push c.callback_args tok }
    else
      .exit ERROR_NOT_ENOUGH_ARGUMENTS c

/-- The function `carp_option_argument_handler`; `immediate` is `none` for `NULL`. It
returns `head_increment`. -/
def carp_option_argument_handler (c : CarpPrivate) (required_arguments : Int)
    (immediate : Option (List Char)) : Outcome (CarpPrivate × Nat) :=
  let head_increment := 1
  let head := c.head + 1
  let argument_list := c.argv.drop head
  let (c, args_remaining) := match immediate with
    | some (ch :: s) =>
      ({ c with callback_args := carp_vector_push c.callback_args (ch :: s) },
        required_arguments - 1)
    | _ => (c, required_arguments)
  if required_arguments = -1 then
    variadic_loop argument_list head head_increment c
  else
    fixed_loop args_remaining.toNat argument_list head head_increment c

/-! ## The option parsers -/

/-- The dispatch of an option that takes arguments: the handler is called with the callback
buffer, then the buffer is emptied (`size = 0`). -/
def dispatch (spec : CarpOptionSpec) (c : CarpPrivate) : CarpPrivate :=
  let c := carp_callback_wrapper c spec.callback c.callback_args.buf c.callback_args.size
  { c with callback_args := { c.callback_args with size := 0 } }

/-- The `for` loop of `carp_parse_short_option` over the characters `opt` still to scan; it
returns `head_increment`. -/
def carp_parse_short_option_loop (search : List Char → Option CarpOptionSpec) :
    List Char → CarpPrivate → Outcome (CarpPrivate × Nat)
  | [], c => .ok (c, 1)
  | ch :: rest, c =>
    match carp_backend_search search c [ch] with
    | (c, some spec) =>
      if spec.arguments = 0 then
        carp_parse_short_option_loop search rest (carp_callback_wrapper c spec.callback [] 0)
      else
        (carp_option_argument_handler c spec.arguments (some rest)).bind
          fun (c, head_increment) => .ok (dispatch spec c, head_increment)
    | (c, none) => .exit ERROR_UNKNOWN_OPTION c

/-- The function `carp_parse_short_option`. -/
def carp_parse_short_option (search : List Char → Option CarpOptionSpec) (c : CarpPrivate) :
    Outcome CarpPrivate :=
  match c.token with
  | none => .invalid_read c.head c
  | some tok =>
    (carp_parse_short_option_loop search (tok.drop 1) c).bind
      fun (c, head_increment) => .ok { c with head := c.head + head_increment }

/-- The function `carp_parse_long_option`. -/
def carp_parse_long_option (search : List Char → Option CarpOptionSpec) (c : CarpPrivate) :
    Outcome CarpPrivate :=
  match c.token with
  | none => .invalid_read c.head c
  | some tok =>
    let opt := tok.drop 2
    let optlen := strlen opt
    match strchr opt '=' with
    | some diff =>
      if (diff : Int) = (optlen : Int) - 1 then
        .exit ERROR_NOT_ENOUGH_ARGUMENTS c
      else
        match carp_backend_search search c (opt.take diff) with
        | (c, some spec) =>
          if spec.arguments = -1 ∨ spec.arguments ≠ 1 then
            .exit ERROR_LONG_OPTION_ARGUMENT_COUNT c
          else
            (carp_option_argument_handler c spec.arguments (some (opt.drop (diff + 1)))).bind
              fun (c, head_increment) =>
                .ok { dispatch spec c with head := c.head + head_increment }
        | (c, none) => .exit ERROR_UNKNOWN_OPTION c
    | none =>
      match carp_backend_search search c (opt.take optlen) with
      | (c, some spec) =>
        if spec.arguments = -1 ∨ spec.arguments > 0 then
          (carp_option_argument_handler c spec.arguments none).bind
            fun (c, head_increment) =>
              .ok { dispatch spec c with head := c.head + head_increment }
        else
          .ok { carp_callback_wrapper c spec.callback [] 0 with head := c.head + 1 }
      | (c, none) => .exit ERROR_UNKNOWN_OPTION c

/-! ## The driver -/

/-- The loop of `carp_parse_arguments_after_separator`, run for at most `fuel` rounds. -/
def carp_parse_arguments_after_separator_loop : Nat → CarpPrivate → Outcome CarpPrivate
  | 0, c => if c.head < c.tail then .out_of_fuel else .ok c
  | fuel + 1, c =>
    if c.head < c.tail then
      match c.argv[c.head]? with
      | none => .invalid_read c.head c
      | some tok =>
        carp_parse_arguments_after_separator_loop fuel
          { c with token := some tok, head := c.head + 1,
                   command_args := carp_vector_push c.command_args tok }
    else
      .ok c

/-- The function `carp_parse_arguments_after_separator`: every round moves `head` by one,
so `tail - head` rounds are all its loop can make. -/
def carp_parse_arguments_after_separator (c : CarpPrivate) : Outcome CarpPrivate :=
  carp_parse_arguments_after_separator_loop (c.tail - c.head) c

/-- The `switch` of `carp_parse` on the token at `head`. -/
def carp_parse_step (search : List Char → Option CarpOptionSpec) (c : CarpPrivate)
    (tok : Token) : Outcome CarpPrivate :=
  let c := { c with token := some tok }
  match carp_classify_token tok with
  | TOKEN_SHORT_OPTION => carp_parse_short_option search c
  | TOKEN_LONG_OPTION => carp_parse_long_option search c
  | TOKEN_SEPARATOR => carp_parse_arguments_after_separator { c with head := c.head + 1 }
  | TOKEN_ARGUMENT =>
    .ok { c with command_args := carp_vector_push c.command_args tok, head := c.head + 1 }

/-- The `while (c.state.head < c.state.tail)` loop of `carp_parse`, run for at most `fuel`
rounds. -/
def carp_parse_loop (search : List Char → Option CarpOptionSpec) :
    Nat → CarpPrivate → Outcome CarpPrivate
  | 0, c => if c.head < c.tail then .out_of_fuel else .ok c
  | fuel + 1, c =>
    if c.head < c.tail then
      match c.argv[c.head]? with
      | none => .invalid_read c.head c
      | some tok => (carp_parse_step search c tok).bind (carp_parse_loop search fuel)
    else
      .ok c

/-- The `struct Carp` that `carp_parse` fills in: the residual arguments. -/
structure Carp where
  argv : List Token
  argc : Nat
  deriving DecidableEq, Repr

/-- The constant `CARP_VECTOR_INIT_CAP`. -/
def CARP_VECTOR_INIT_CAP : Nat := 25

/-- The parser state that `carp_parse` starts from; `argc` is the length of `argv`. -/
def carp_parse_init (argv : List Token) : CarpPrivate :=
  { argv := argv
    callback_args := carp_vector_init CARP_VECTOR_INIT_CAP
    command_args := carp_vector_init CARP_VECTOR_INIT_CAP
    head := 1
    tail := argv.length
    token := none
    trace := [] }

/-- The function `carp_parse` on an argument vector of `argc = argv.length` tokens, both
allocations succeeding. It returns what it stores in `*carp`, and with it the calls made.
A round of the loop moves `head` forward, so `argc` rounds are enough. -/
def carp_parse (search : List Char → Option CarpOptionSpec) (argv : List Token) :
    Outcome (Carp × List Event) :=
  (carp_parse_loop search argv.length (carp_parse_init argv)).bind fun c =>
    let c := { c with callback_args := carp_vector_cleanup c.callback_args }
    .ok ({ argv := c.command_args.buf, argc := c.command_args.size }, c.trace)

/-! ## The option table of the test suite -/

/-- The `struct CarpTable` of `test/carp_test_all.cpp`. -/
structure CarpTable where
  option : List Char
  spec : CarpOptionSpec
  deriving DecidableEq, Repr

/-- The `carp_backend_search` of `test/carp_test_all.cpp`: the first entry of `g_table`
whose name is the `len` characters at `name`. -/
def test_backend_search (g_table : List CarpTable) (name : List Char) :
    Option CarpOptionSpec :=
  match g_table.find? (fun t => name == t.option) with
  | some t => some t.spec
  | none => none

/-- The handler `carp_callback_override` of the test suite. -/
def carp_callback_override : Callback := 0

/-- An argument vector, written as strings. -/
def tokens (args : List String) : List Token :=
  args.map String.toList

/-- The option table of the test `test carp_parse()`. -/
def g_table_parse : List CarpTable :=
  [ ⟨['a'], ⟨0, some carp_callback_override⟩⟩,
    ⟨['b'], ⟨0, some carp_callback_override⟩⟩,
    ⟨['c'], ⟨0, some carp_callback_override⟩⟩,
    ⟨['f', 'o', 'o'], ⟨1, some carp_callback_override⟩⟩,
    ⟨['x'], ⟨3, some carp_callback_override⟩⟩ ]

/-- The fixture of the unit tests: the `CarpPrivate` that the test constructor builds for
`argv` (both vectors initialised with capacity 25, `tail = argc`), with `state.head` set to
`head` and `state.token` to `argv[head]` as the test sections do. -/
def test_private (argv : List Token) (head : Nat) : CarpPrivate :=
  { argv := argv
    callback_args := carp_vector_init 25
    command_args := carp_vector_init 25
    head := head
    tail := argv.length
    token := argv[head]?
    trace := [] }

/-- The argument vector of the test `test carp_parse_short_option()`. -/
def argv_short : List Token :=
  tokens ["./a.out", "-v", "-afile1", "file2", "file3", "-b", "out1", "out2", "--long", "-xfv",
    "argument", "-z"]

/-- The argument vector of the test `test carp_parse_long_option()`. -/
def argv_long : List Token :=
  tokens ["./a.out", "--long=argument", "--long", "arg1", "arg2", "arg3", "--long="]

/-- The argument vector of the test `test carp_option_argument_handler() no errors`. -/
def argv_handler : List Token :=
  tokens ["./a.out", "-ainput.txt", "-binput1", "input2", "-o", "file1.out", "file2.out",
    "file3.out", "--long=argument"]

/-- An option table with the single entry `name`, of arity `arguments`, handled by
`carp_callback_override`, as the test sections set it up. -/
def g_table_one (name : String) (arguments : Int) : List CarpTable :=
  [⟨name.toList, ⟨arguments, some carp_callback_override⟩⟩]

/-- The option table of the test section `short option grouping`. -/
def g_table_group : List CarpTable :=
  [ ⟨['x'], ⟨0, some carp_callback_override⟩⟩,
    ⟨['f'], ⟨2, some carp_callback_override⟩⟩ ]

/-! ## Notions used in the statements -/

/-- The items written are at most the slots written. -/
def CarpArgumentVector.Valid (vec : CarpArgumentVector) : Prop :=
  vec.size ≤ vec.buf.length

instance (vec : CarpArgumentVector) : Decidable vec.Valid :=
  inferInstanceAs (Decidable (vec.size ≤ vec.buf.length))

/-- The vector after pushing the tokens of a list, one after the other. -/
def push_all (vec : CarpArgumentVector) (args : List Token) : CarpArgumentVector :=
  args.foldl carp_vector_push vec

/-- The argument that a non-empty immediate value contributes. -/
def immediate_args (immediate : Option (List Char)) : List Token :=
  match immediate with
  | some (ch :: s) => [ch :: s]
  | _ => []

/-- The calls made for a run of options without arguments, each given with its handler: a
lookup, then the handler with no argument. -/
def flag_events (head : Nat) (fs : List (Char × Option Callback)) : List Event :=
  fs.flatMap fun p => Event.search head [p.1] :: callback_events head p.2 [] 0

/-- What a return of an option parser tells about the state `c1` it leaves, `c` being the
state it started from: only the cursor, the callback buffer and the trace change; the cursor
moves forward, over plain-argument tokens only and not past `tail`; the calls made carry
the index of the option token. -/
def OptionStep (c c1 : CarpPrivate) : Prop :=
  c1.argv = c.argv ∧ c1.tail = c.tail ∧ c1.command_args = c.command_args ∧
  c1.token = c.token ∧ c.head < c1.head ∧
  (c1.head = c.head + 1 ∨ c1.head ≤ c.tail) ∧
  (∀ j, c.head < j → j < c1.head →
    ∃ t, c.argv[j]? = some t ∧ carp_classify_token t = TOKEN_ARGUMENT) ∧
  ∃ evs, c1.trace = c.trace ++ evs ∧ ∀ e ∈ evs, e.head = c.head

/-- Whether the event is the call of a handler. -/
def Event.isCall : Event → Bool
  | .search _ _ => false
  | .call _ _ _ _ => true

/-- The handler calls of a trace, in order. -/
def handler_calls (trace : List Event) : List Event :=
  trace.filter Event.isCall

/-- The event, when it is a handler call made while the token `tok` at index `head` is
parsed, hands over only arguments resolved for that option: at most one immediate value,
which is a non-empty end of the token, then plain-argument tokens that stand right after
the token in `argv`; the count is the length of the list. -/
def ResolvedCall (argv : List Token) (head : Nat) (tok : List Char) : Event → Prop
  | .search _ _ => True
  | .call h _ args argc =>
    h = head ∧ argc = args.length ∧
    ∃ imm following : List Token, args = imm ++ following ∧ imm.length ≤ 1 ∧
      (∀ s ∈ imm, s ≠ [] ∧ s <:+ tok) ∧
      following <+: argv.drop (head + 1) ∧
      ∀ t ∈ following, carp_classify_token t = TOKEN_ARGUMENT

/-- The states of the parser at the top of the loop of `carp_parse` on `argv`: the state it
starts from, and the state each round that returns leaves. -/
inductive Reachable (search : List Char → Option CarpOptionSpec) (argv : List Token) :
    CarpPrivate → Prop where
  | init : Reachable search argv (carp_parse_init argv)
  | step (c c1 : CarpPrivate) (tok : Token) :
    Reachable search argv c → c.head < c.tail → c.argv[c.head]? = some tok →
    carp_parse_step search c tok = .ok c1 → Reachable search argv c1

/-- The rounds of the loop of `carp_parse` that lead from the state `c` at the top of the
loop to the state `a` at the top of the loop, each round returning. -/
inductive RunFrom (search : List Char → Option CarpOptionSpec) :
    CarpPrivate → CarpPrivate → Prop where
  | refl (c : CarpPrivate) : RunFrom search c c
  | step (c c1 a : CarpPrivate) (tok : Token) :
    c.head < c.tail → c.argv[c.head]? = some tok →
    carp_parse_step search c tok = .ok c1 → RunFrom search c1 a → RunFrom search c a

/-- The round of the loop of `carp_parse` in state `a` parses an option token and returns,
and its cursor passes over the index `j`: `head` is below `j` before the round and above
it after. The tokens passed over are the ones `carp_option_argument_handler` pushed to the
callback buffer as following tokens, which the handler of the option receives. -/
def TakenIn (search : List Char → Option CarpOptionSpec) (a : CarpPrivate) (j : Nat) :
    Prop :=
  ∃ (a1 : CarpPrivate) (tok : Token), a.head < a.tail ∧ a.argv[a.head]? = some tok ∧
    (carp_classify_token tok = TOKEN_SHORT_OPTION ∨
      carp_classify_token tok = TOKEN_LONG_OPTION) ∧
    carp_parse_step search a tok = .ok a1 ∧ a.head < j ∧ j < a1.head

/-- The token at index `j` is taken by an option in a round that follows the state `c`. -/
def TakenFrom (search : List Char → Option CarpOptionSpec) (c : CarpPrivate) (j : Nat) :
    Prop :=
  ∃ a, RunFrom search c a ∧ TakenIn search a j

/-- The token at index `j` of `argv` is taken by an option as a following-token argument,
in some round of `carp_parse` on `argv`. -/
def Taken (search : List Char → Option CarpOptionSpec) (argv : List Token) (j : Nat) :
    Prop :=
  ∃ a, Reachable search argv a ∧ TakenIn search a j

/-- The event, when it is a handler call, was made in the round that parses the option
token `tok` at index `head` and moves the cursor to `head1`, and the arguments handed over
are: at most one immediate value, which is a non-empty end of the token, then the
following tokens `argv[head + 1] ..`, one after the other; unless the call has no argument
at all, the following tokens are all the tokens the cursor passes over in the round. -/
def HandedCall (argv : List Token) (head head1 : Nat) (tok : List Char) : Event → Prop
  | .search _ _ => True
  | .call h _ args argc =>
    h = head ∧ argc = args.length ∧
    ∃ imm following : List Token, args = imm ++ following ∧ imm.length ≤ 1 ∧
      (∀ s ∈ imm, s ≠ [] ∧ s <:+ tok) ∧
      following = (argv.drop (head + 1)).take following.length ∧
      (args = [] ∨ head + 1 + following.length = head1)

/-! ## The buffer: pushing keeps the items -/

theorem set_take (buf : List Token) (i : Nat) (elem : Token) (h : i < buf.length) :
    (buf.set i elem).take (i + 1) = buf.take i ++ [elem] := by
  induction buf generalizing i with
  | nil => simp at h
  | cons b buf ih =>
    cases i with
    | zero => simp
    | succ i =>
      simp only [List.length_cons, Nat.add_lt_add_iff_right] at h
      simp [ih i h]

theorem store_take (buf : List Token) (i : Nat) (elem : Token) (h : i ≤ buf.length) :
    (store buf i elem).take (i + 1) = buf.take i ++ [elem] := by
  unfold store
  split
  · next hlt => exact set_take buf i elem hlt
  · next hge =>
    have hlen : i = buf.length := by omega
    subst hlen
    simp

theorem store_length (buf : List Token) (i : Nat) (elem : Token) (h : i ≤ buf.length) :
    i + 1 ≤ (store buf i elem).length := by
  unfold store
  split <;> simp <;> omega

theorem carp_vector_push_size (vec : CarpArgumentVector) (elem : Token) :
    (carp_vector_push vec elem).size = vec.size + 1 := by
  unfold carp_vector_push
  split <;> simp [resize]

theorem carp_vector_push_valid (vec : CarpArgumentVector) (elem : Token) (h : vec.Valid) :
    (carp_vector_push vec elem).Valid := by
  unfold CarpArgumentVector.Valid at *
  unfold carp_vector_push
  split
  · next heq =>
    simp only [resize]
    apply store_length
    simp only [List.length_take]
    omega
  · exact store_length _ _ _ h

theorem carp_vector_push_items (vec : CarpArgumentVector) (elem : Token) (h : vec.Valid) :
    (carp_vector_push vec elem).items = vec.items ++ [elem] := by
  unfold CarpArgumentVector.Valid at h
  unfold carp_vector_push CarpArgumentVector.items
  split
  · next heq =>
    simp only [resize]
    rw [store_take _ _ _ (by simp only [List.length_take]; omega), List.take_take]
    congr 2
    omega
  · exact store_take _ _ _ h

theorem carp_vector_push_buf (vec : CarpArgumentVector) (elem : Token)
    (h : vec.buf.length = vec.size) :
    (carp_vector_push vec elem).buf = vec.buf ++ [elem] := by
  unfold carp_vector_push
  split
  · next heq =>
    simp only [resize, store]
    rw [List.take_of_length_le (by omega)]
    simp [h]
  · simp [store, h]

theorem push_all_size (args : List Token) (vec : CarpArgumentVector) :
    (push_all vec args).size = vec.size + args.length := by
  induction args generalizing vec with
  | nil => simp [push_all]
  | cons a args ih =>
    have := ih (carp_vector_push vec a)
    simp only [push_all, List.foldl_cons, List.length_cons] at this ⊢
    rw [this, carp_vector_push_size]
    omega

theorem push_all_valid (args : List Token) (vec : CarpArgumentVector) (h : vec.Valid) :
    (push_all vec args).Valid := by
  induction args generalizing vec with
  | nil => simpa [push_all] using h
  | cons a args ih => exact ih _ (carp_vector_push_valid vec a h)

theorem push_all_items (args : List Token) (vec : CarpArgumentVector) (h : vec.Valid) :
    (push_all vec args).items = vec.items ++ args := by
  induction args generalizing vec with
  | nil => simp [push_all]
  | cons a args ih =>
    have := ih _ (carp_vector_push_valid vec a h)
    simp only [push_all, List.foldl_cons] at this ⊢
    rw [this, carp_vector_push_items vec a h]
    simp

theorem push_all_append (vec : CarpArgumentVector) (xs ys : List Token) :
    push_all (push_all vec xs) ys = push_all vec (xs ++ ys) := by
  simp [push_all]

/-! ## The arity resolver: what a return tells -/

theorem fixed_loop_ok (n : Nat) (l : List Token) (head inc : Nat) (c c1 : CarpPrivate)
    (inc1 : Nat) (h : fixed_loop n l head inc c = .ok (c1, inc1)) :
    n ≤ l.length ∧ (∀ t ∈ l.take n, carp_classify_token t = TOKEN_ARGUMENT) ∧
    (n = 0 ∨ head + n ≤ c.tail) ∧
    c1 = { c with callback_args := push_all c.callback_args (l.take n) } ∧
    inc1 = inc + n := by
  induction n generalizing l head inc c with
  | zero =>
    simp only [fixed_loop, Outcome.ok.injEq, Prod.mk.injEq] at h
    simp [push_all, h.1.symm, h.2.symm]
  | succ n ih =>
    cases l with
    | nil => simp [fixed_loop] at h
    | cons t l =>
      simp only [fixed_loop] at h
      split at h
      · next hc =>
        obtain ⟨h1, h2, h3, h4, h5⟩ := ih _ _ _ _ h
        refine ⟨by simpa using h1, ?_, ?_, ?_, by omega⟩
        · intro u hu
          simp only [List.take_succ_cons, List.mem_cons] at hu
          rcases hu with rfl | hu
          · exact hc.1
          · exact h2 u hu
        · right
          rcases h3 with h3 | h3
          · subst h3; omega
          · simp only at h3; omega
        · simpa [push_all] using h4
      · simp at h

theorem variadic_loop_ok (l : List Token) (head inc : Nat) (c c1 : CarpPrivate) (inc1 : Nat)
    (h : variadic_loop l head inc c = .ok (c1, inc1)) :
    ∃ m, m < l.length ∧ (∀ t ∈ l.take m, carp_classify_token t = TOKEN_ARGUMENT) ∧
      (m = 0 ∨ head + m ≤ c.tail) ∧
      c1 = { c with callback_args := push_all c.callback_args (l.take m) } ∧
      inc1 = inc + m ∧
      ∃ t, l[m]? = some t ∧
        ¬ (carp_classify_token t = TOKEN_ARGUMENT ∧ head + m < c.tail) := by
  induction l generalizing head inc c with
  | nil => simp [variadic_loop] at h
  | cons t l ih =>
    simp only [variadic_loop] at h
    split at h
    · next hc =>
      obtain ⟨m, h1, h2, h3, h4, h5, u, h6, h7⟩ := ih _ _ _ h
      refine ⟨m + 1, by simpa using h1, ?_, ?_, ?_, by omega, u, by simpa using h6, ?_⟩
      · intro v hv
        simp only [List.take_succ_cons, List.mem_cons] at hv
        rcases hv with rfl | hv
        · exact hc.1
        · exact h2 v hv
      · right
        rcases h3 with h3 | h3
        · subst h3; omega
        · simp only at h3; omega
      · simpa [push_all] using h4
      · simpa [Nat.add_assoc, Nat.add_comm 1 m] using h7
    · next hc =>
      simp only [Outcome.ok.injEq, Prod.mk.injEq] at h
      refine ⟨0, by simp, by simp, Or.inl rfl, by simp [push_all, h.1.symm], by omega, t,
        by simp, by simpa using hc⟩

theorem carp_option_argument_handler_ok (c c1 : CarpPrivate) (n : Int)
    (immediate : Option (List Char)) (inc : Nat)
    (h : carp_option_argument_handler c n immediate = .ok (c1, inc)) :
    ∃ m, inc = m + 1 ∧ m ≤ (c.argv.drop (c.head + 1)).length ∧
      (∀ t ∈ (c.argv.drop (c.head + 1)).take m, carp_classify_token t = TOKEN_ARGUMENT) ∧
      (m = 0 ∨ c.head + 1 + m ≤ c.tail) ∧
      c1 = { c with callback_args := (push_all c.callback_args
              (immediate_args immediate ++ (c.argv.drop (c.head + 1)).take m)) } ∧
      (n ≠ -1 → m = (n - (immediate_args immediate).length).toNat) ∧
      (n = -1 → ∃ t, c.argv[c.head + 1 + m]? = some t ∧
        ¬ (carp_classify_token t = TOKEN_ARGUMENT ∧ c.head + 1 + m < c.tail)) := by
  unfold carp_option_argument_handler at h
  have key : ∀ (c0 : CarpPrivate) (k : Int),
      c0 = { c with callback_args := push_all c.callback_args (immediate_args immediate) } →
      k = n - (immediate_args immediate).length →
      (if n = -1 then variadic_loop (c.argv.drop (c.head + 1)) (c.head + 1) 1 c0
        else fixed_loop k.toNat (c.argv.drop (c.head + 1)) (c.head + 1) 1 c0) = .ok (c1, inc) →
      ∃ m, inc = m + 1 ∧ m ≤ (c.argv.drop (c.head + 1)).length ∧
        (∀ t ∈ (c.argv.drop (c.head + 1)).take m, carp_classify_token t = TOKEN_ARGUMENT) ∧
        (m = 0 ∨ c.head + 1 + m ≤ c.tail) ∧
        c1 = { c with callback_args := (push_all c.callback_args
                (immediate_args immediate ++ (c.argv.drop (c.head + 1)).take m)) } ∧
        (n ≠ -1 → m = (n - (immediate_args immediate).length).toNat) ∧
        (n = -1 → ∃ t, c.argv[c.head + 1 + m]? = some t ∧
          ¬ (carp_classify_token t = TOKEN_ARGUMENT ∧ c.head + 1 + m < c.tail)) := by
    intro c0 k hc0 hk hrun
    split at hrun
    · next hn =>
      obtain ⟨m, h1, h2, h3, h4, h5, t, h6, h7⟩ := variadic_loop_ok _ _ _ _ _ _ hrun
      refine ⟨m, by omega, by omega, h2, ?_, ?_, fun hne => absurd hn hne, fun _ => ⟨t, ?_, ?_⟩⟩
      · rcases h3 with h3 | h3
        · exact Or.inl h3
        · subst hc0; exact Or.inr h3
      · rw [h4, hc0]; simp [push_all_append]
      · simpa [List.getElem?_drop] using h6
      · subst hc0; simpa using h7
    · next hn =>
      obtain ⟨h1, h2, h3, h4, h5⟩ := fixed_loop_ok _ _ _ _ _ _ _ hrun
      refine ⟨k.toNat, by omega, h1, h2, ?_, ?_, fun _ => by rw [hk], fun he => absurd he hn⟩
      · rcases h3 with h3 | h3
        · exact Or.inl h3
        · subst hc0; exact Or.inr h3
      · rw [h4, hc0]; simp [push_all_append]
  rcases immediate with _ | ⟨_ | ⟨ch, s⟩⟩
  · exact key c n (by simp [immediate_args, push_all]) (by simp [immediate_args]) h
  · exact key c n (by simp [immediate_args, push_all]) (by simp [immediate_args]) h
  · exact key _ (n - 1) (by simp [immediate_args, push_all]) (by simp [immediate_args]) h

/-! ## The arity resolver: the three ways the fixed-arity loop ends -/

/-- The loop returns when the `n` tokens it needs are there, before `tail`, and plain. -/
theorem fixed_loop_taken (n : Nat) (l : List Token) (head inc : Nat) (c : CarpPrivate)
    (h1 : n ≤ l.length) (h2 : ∀ t ∈ l.take n, carp_classify_token t = TOKEN_ARGUMENT)
    (h3 : head + n ≤ c.tail) :
    fixed_loop n l head inc c =
      .ok ({ c with callback_args := push_all c.callback_args (l.take n) }, inc + n) := by
  induction n generalizing l head inc c with
  | zero => simp [fixed_loop, push_all]
  | succ n ih =>
    cases l with
    | nil => simp at h1
    | cons t l =>
      have ht : carp_classify_token t = TOKEN_ARGUMENT := h2 t (by simp)
      have hlt : head < c.tail := by omega
      simp only [fixed_loop, ht, hlt, and_self, if_true]
      rw [ih l (head + 1) (inc + 1) _ (by simpa using h1)
        (fun u hu => h2 u (by simp [hu])) (by simp only; omega)]
      simp [push_all, Nat.add_assoc, Nat.add_comm 1 n]

/-- The loop aborts at the first token, of the `n` it needs, that is not a plain argument
or stands at `tail` or after it. -/
theorem fixed_loop_stopped (n : Nat) (l : List Token) (head inc : Nat) (c : CarpPrivate)
    (k : Nat) (t : Token) (hk : k < n) (ht : l[k]? = some t)
    (h2 : ∀ u ∈ l.take k, carp_classify_token u = TOKEN_ARGUMENT)
    (h3 : head + k ≤ c.tail)
    (h4 : ¬ (carp_classify_token t = TOKEN_ARGUMENT ∧ head + k < c.tail)) :
    fixed_loop n l head inc c =
      .exit ERROR_NOT_ENOUGH_ARGUMENTS
        { c with callback_args := push_all c.callback_args (l.take k) } := by
  induction n generalizing l head inc c k with
  | zero => omega
  | succ n ih =>
    cases l with
    | nil => simp at ht
    | cons a l =>
      cases k with
      | zero =>
        simp only [List.getElem?_cons_zero, Option.some.injEq] at ht
        subst ht
        simp only [Nat.add_zero] at h4
        simp [fixed_loop, h4, push_all]
      | succ k =>
        have ha : carp_classify_token a = TOKEN_ARGUMENT := h2 a (by simp)
        have hlt : head < c.tail := by omega
        simp only [fixed_loop, ha, hlt, and_self, if_true]
        rw [ih l (head + 1) (inc + 1) _ k (by omega) (by simpa using ht)
          (fun u hu => h2 u (by simp [hu])) (by simp only; omega)
          (by simpa [Nat.add_assoc, Nat.add_comm 1 k] using h4)]
        simp [push_all]

/-- The loop classifies the entry after the last token of `argv` when the tokens run out:
all the tokens left are plain and before `tail`, and they are fewer than the `n` needed. -/
theorem fixed_loop_runs_out (n : Nat) (l : List Token) (head inc : Nat) (c : CarpPrivate)
    (h1 : l.length < n) (h2 : ∀ t ∈ l, carp_classify_token t = TOKEN_ARGUMENT)
    (h3 : head + l.length ≤ c.tail) :
    fixed_loop n l head inc c =
      .invalid_read (head + l.length)
        { c with callback_args := push_all c.callback_args l } := by
  induction n generalizing l head inc c with
  | zero => omega
  | succ n ih =>
    cases l with
    | nil => simp [fixed_loop, push_all]
    | cons a l =>
      have ha : carp_classify_token a = TOKEN_ARGUMENT := h2 a (by simp)
      have hlen : head + (l.length + 1) ≤ c.tail := by simpa using h3
      have hlt : head < c.tail := by omega
      simp only [fixed_loop, ha, hlt, and_self, if_true]
      rw [ih l (head + 1) (inc + 1) _ (by simpa using h1)
        (fun u hu => h2 u (by simp [hu])) (by simp only; omega)]
      simp [push_all, Nat.add_assoc, Nat.add_comm 1 l.length]

/-! ## The arity resolver: the two ways the variadic loop ends -/

/-- The loop returns at the first token that is not a plain argument (or stands at `tail`),
having taken the tokens before it. -/
theorem variadic_loop_stopped (l : List Token) (head inc : Nat) (c : CarpPrivate) (k : Nat)
    (t : Token) (ht : l[k]? = some t)
    (h2 : ∀ u ∈ l.take k, carp_classify_token u = TOKEN_ARGUMENT)
    (h3 : head + k ≤ c.tail)
    (h4 : ¬ (carp_classify_token t = TOKEN_ARGUMENT ∧ head + k < c.tail)) :
    variadic_loop l head inc c =
      .ok ({ c with callback_args := push_all c.callback_args (l.take k) }, inc + k) := by
  induction l generalizing head inc c k with
  | nil => simp at ht
  | cons a l ih =>
    cases k with
    | zero =>
      simp only [List.getElem?_cons_zero, Option.some.injEq] at ht
      subst ht
      simp only [Nat.add_zero] at h4
      simp [variadic_loop, h4, push_all]
    | succ k =>
      have ha : carp_classify_token a = TOKEN_ARGUMENT := h2 a (by simp)
      have hlt : head < c.tail := by omega
      simp only [variadic_loop, ha, hlt, and_self, if_true]
      rw [ih (head + 1) (inc + 1) _ k (by simpa using ht)
        (fun u hu => h2 u (by simp [hu])) (by simp only; omega)
        (by simpa [Nat.add_assoc, Nat.add_comm 1 k] using h4)]
      simp [push_all, Nat.add_assoc, Nat.add_comm 1 k]

/-- The loop classifies the entry after the last token of `argv` when every token left is a
plain argument before `tail`. -/
theorem variadic_loop_runs_out (l : List Token) (head inc : Nat) (c : CarpPrivate)
    (h2 : ∀ t ∈ l, carp_classify_token t = TOKEN_ARGUMENT)
    (h3 : head + l.length ≤ c.tail) :
    variadic_loop l head inc c =
      .invalid_read (head + l.length)
        { c with callback_args := push_all c.callback_args l } := by
  induction l generalizing head inc c with
  | nil => simp [variadic_loop, push_all]
  | cons a l ih =>
    have ha : carp_classify_token a = TOKEN_ARGUMENT := h2 a (by simp)
    have hlen : head + (l.length + 1) ≤ c.tail := by simpa using h3
    have hlt : head < c.tail := by omega
    simp only [variadic_loop, ha, hlt, and_self, if_true]
    rw [ih (head + 1) (inc + 1) _ (fun u hu => h2 u (by simp [hu])) (by simp only; omega)]
    simp [push_all, Nat.add_assoc, Nat.add_comm 1 l.length]

/-- The function `carp_option_argument_handler`, its two loops apart. -/
theorem carp_option_argument_handler_eq (c : CarpPrivate) (n : Int)
    (immediate : Option (List Char)) :
    carp_option_argument_handler c n immediate =
      if n = -1 then
        variadic_loop (c.argv.drop (c.head + 1)) (c.head + 1) 1
          { c with callback_args := push_all c.callback_args (immediate_args immediate) }
      else
        fixed_loop (n - (immediate_args immediate).length).toNat (c.argv.drop (c.head + 1))
          (c.head + 1) 1
          { c with callback_args := push_all c.callback_args (immediate_args immediate) } := by
  rcases immediate with _ | ⟨_ | ⟨ch, s⟩⟩ <;>
    simp [carp_option_argument_handler, immediate_args, push_all]

/-- The arity resolver on the variadic arity, `l` being the tokens after the option token.
* When a token of `l` is not a plain argument, the resolver returns: it has appended the
  non-empty immediate value, then the plain arguments before that token, and the amount
  returned is their number plus 1.
* When every token of `l` is a plain argument, the resolver classifies the entry after the
  last token of `argv`: it does not return. -/
theorem carp_option_argument_handler_variadic (c : CarpPrivate)
    (immediate : Option (List Char)) :
    (∀ k t, (c.argv.drop (c.head + 1))[k]? = some t →
      (∀ u ∈ (c.argv.drop (c.head + 1)).take k, carp_classify_token u = TOKEN_ARGUMENT) →
      c.head + 1 + k ≤ c.tail →
      ¬ (carp_classify_token t = TOKEN_ARGUMENT ∧ c.head + 1 + k < c.tail) →
      carp_option_argument_handler c (-1) immediate =
        .ok ({ c with callback_args := (push_all c.callback_args
              (immediate_args immediate ++ (c.argv.drop (c.head + 1)).take k)) }, k + 1)) ∧
    ((∀ t ∈ c.argv.drop (c.head + 1), carp_classify_token t = TOKEN_ARGUMENT) →
      c.head + 1 + (c.argv.drop (c.head + 1)).length ≤ c.tail →
      carp_option_argument_handler c (-1) immediate =
        .invalid_read (c.head + 1 + (c.argv.drop (c.head + 1)).length)
          { c with callback_args := (push_all c.callback_args
              (immediate_args immediate ++ c.argv.drop (c.head + 1))) }) := by
  rw [carp_option_argument_handler_eq]
  simp only [if_true]
  constructor
  · intro k t ht h2 h3 h4
    rw [variadic_loop_stopped _ _ _ _ k t ht h2 (by simp only; omega) (by simpa using h4)]
    simp [push_all_append, Nat.add_comm]
  · intro h2 h3
    rw [variadic_loop_runs_out _ _ _ _ h2 (by simp only; omega)]
    simp [push_all_append]

/-- The arity resolver on a fixed arity `n` without an immediate value (`NULL`, or the empty
string), `l` being the tokens after the option token.
* When the first `n` tokens of `l` are there, before `tail`, and plain, the resolver
  returns: it has appended those tokens, and the amount returned is `n + 1`.
* When one of them is there but is not a plain argument (or stands at `tail`), the resolver
  aborts with `ERROR_NOT_ENOUGH_ARGUMENTS`.
* When the tokens run out before, the resolver classifies the entry after the last token
  of `argv`: it neither returns nor aborts with an error of its own. -/
theorem carp_option_argument_handler_fixed (c : CarpPrivate) (n : Nat)
    (immediate : Option (List Char)) (himm : immediate_args immediate = []) :
    (n ≤ (c.argv.drop (c.head + 1)).length →
      (∀ t ∈ (c.argv.drop (c.head + 1)).take n, carp_classify_token t = TOKEN_ARGUMENT) →
      c.head + 1 + n ≤ c.tail →
      carp_option_argument_handler c n immediate =
        .ok ({ c with callback_args := (push_all c.callback_args
              ((c.argv.drop (c.head + 1)).take n)) }, n + 1)) ∧
    (∀ k t, k < n → (c.argv.drop (c.head + 1))[k]? = some t →
      (∀ u ∈ (c.argv.drop (c.head + 1)).take k, carp_classify_token u = TOKEN_ARGUMENT) →
      c.head + 1 + k ≤ c.tail →
      ¬ (carp_classify_token t = TOKEN_ARGUMENT ∧ c.head + 1 + k < c.tail) →
      carp_option_argument_handler c n immediate =
        .exit ERROR_NOT_ENOUGH_ARGUMENTS
          { c with callback_args := (push_all c.callback_args
              ((c.argv.drop (c.head + 1)).take k)) }) ∧
    ((c.argv.drop (c.head + 1)).length < n →
      (∀ t ∈ c.argv.drop (c.head + 1), carp_classify_token t = TOKEN_ARGUMENT) →
      c.head + 1 + (c.argv.drop (c.head + 1)).length ≤ c.tail →
      carp_option_argument_handler c n immediate =
        .invalid_read (c.head + 1 + (c.argv.drop (c.head + 1)).length)
          { c with callback_args := (push_all c.callback_args
              (c.argv.drop (c.head + 1))) }) := by
  have hn : ¬ ((n : Int) = -1) := by omega
  rw [carp_option_argument_handler_eq]
  simp only [hn, if_false, himm, List.length_nil, Nat.cast_zero, Int.sub_zero, Int.toNat_ofNat]
  have hc : ({ c with callback_args := push_all c.callback_args [] } : CarpPrivate) = c := rfl
  rw [hc]
  refine ⟨?_, ?_, ?_⟩
  · intro h1 h2 h3
    rw [fixed_loop_taken n _ _ _ _ h1 h2 (by omega)]
    simp [Nat.add_comm]
  · intro k t hk ht h2 h3 h4
    rw [fixed_loop_stopped n _ _ _ _ k t hk ht h2 (by omega) (by simpa using h4)]
  · intro h1 h2 h3
    rw [fixed_loop_runs_out n _ _ _ _ h1 h2 (by omega)]

/-! ## The option parsers: shared facts -/

theorem strchr_append (name value : List Char) (ch : Char) (h : ch ∉ name) :
    strchr (name ++ ch :: value) ch = some name.length := by
  induction name with
  | nil => simp [strchr]
  | cons x name ih =>
    simp only [List.mem_cons, not_or] at h
    have hx : ¬ x = ch := fun e => h.1 e.symm
    simp [strchr, hx, ih h.2]

theorem callback_events_take (head : Nat) (cb : Option Callback) (buf : List Token)
    (n : Nat) :
    callback_events head cb buf n = callback_events head cb (buf.take n) n := by
  cases cb <;> simp [callback_events]

theorem dispatch_trace (spec : CarpOptionSpec) (c : CarpPrivate) :
    (dispatch spec c).trace =
      c.trace ++ callback_events c.head spec.callback c.callback_args.items
        c.callback_args.size := by
  simp only [dispatch, carp_callback_wrapper, CarpArgumentVector.items]
  rw [callback_events_take]

/-- What `carp_parse_long_option` does on a token `--name=value`, the name without `=`. -/
theorem carp_parse_long_option_eq (search : List Char → Option CarpOptionSpec)
    (c : CarpPrivate) (name value : List Char) (hname : '=' ∉ name)
    (htok : c.token = some ('-' :: '-' :: (name ++ '=' :: value))) :
    carp_parse_long_option search c =
      if value = [] then .exit ERROR_NOT_ENOUGH_ARGUMENTS c
      else
        match search name with
        | some spec =>
          if spec.arguments = -1 ∨ spec.arguments ≠ 1 then
            .exit ERROR_LONG_OPTION_ARGUMENT_COUNT
              { c with trace := c.trace ++ [Event.search c.head name] }
          else
            (carp_option_argument_handler
              { c with trace := c.trace ++ [Event.search c.head name] } spec.arguments
              (some value)).bind
              fun (c, head_increment) =>
                .ok { dispatch spec c with head := c.head + head_increment }
        | none =>
          .exit ERROR_UNKNOWN_OPTION { c with trace := c.trace ++ [Event.search c.head name] } := by
  have hchr := strchr_append name value '=' hname
  have hlen : (strlen (name ++ '=' :: value) : Int) - 1 = name.length + value.length := by
    simp only [strlen, List.length_append, List.length_cons]
    push_cast
    omega
  have hcond : ((name.length : Int) = (strlen (name ++ '=' :: value) : Int) - 1) ↔
      value = [] := by
    rw [hlen]
    constructor
    · intro h
      have : value.length = 0 := by omega
      exact List.length_eq_zero.mp this
    · rintro rfl
      simp
  have htake : (name ++ '=' :: value).take name.length = name := List.take_left' rfl
  have hdrop : (name ++ '=' :: value).drop (name.length + 1) = value := by
    rw [show name ++ '=' :: value = (name ++ ['=']) ++ value by simp]
    exact List.drop_left' (by simp)
  unfold carp_parse_long_option
  simp only [htok, List.drop_succ_cons, List.drop_zero, hchr, hcond, carp_backend_search,
    htake, hdrop]
  by_cases hv : value = []
  · simp [hv]
  · simp only [hv, if_false]
    cases search name <;> rfl

/-- The scan of a short-option token passes over a run of options of arity 0. -/
theorem carp_parse_short_option_loop_flags (search : List Char → Option CarpOptionSpec)
    (fs : List (Char × Option Callback)) (rest : List Char) (c : CarpPrivate)
    (hfs : ∀ p ∈ fs, search [p.1] = some ⟨0, p.2⟩) :
    carp_parse_short_option_loop search (fs.map Prod.fst ++ rest) c =
      carp_parse_short_option_loop search rest
        { c with trace := c.trace ++ flag_events c.head fs } := by
  induction fs generalizing c with
  | nil => simp [flag_events]
  | cons p fs ih =>
    have hp := hfs p (List.mem_cons_self _ _)
    have hrest : ∀ q ∈ fs, search [q.1] = some ⟨0, q.2⟩ :=
      fun q hq => hfs q (List.mem_cons_of_mem _ hq)
    have hstep : carp_parse_short_option_loop search (p.1 :: (fs.map Prod.fst ++ rest)) c =
        carp_parse_short_option_loop search (fs.map Prod.fst ++ rest)
          (carp_callback_wrapper
            { c with trace := c.trace ++ [Event.search c.head [p.1]] } p.2 [] 0) := by
      simp [carp_parse_short_option_loop, carp_backend_search, hp]
    rw [List.map_cons, List.cons_append, hstep, ih _ hrest]
    simp [carp_callback_wrapper, flag_events, List.flatMap_cons]

/-- What a dispatch after the arity resolver leaves behind, when the callback buffer was
empty before: the handler got the immediate value and the `m` tokens taken. -/
theorem dispatch_after_handler (spec : CarpOptionSpec) (c c2 : CarpPrivate)
    (args : List Token) (hempty : c.callback_args.size = 0)
    (hc2 : c2 = { c with callback_args := push_all c.callback_args args }) :
    (dispatch spec c2).trace =
      c.trace ++ callback_events c.head spec.callback args args.length ∧
    (dispatch spec c2).callback_args.size = 0 ∧
    (dispatch spec c2).command_args = c.command_args ∧
    (dispatch spec c2).argv = c.argv ∧ (dispatch spec c2).tail = c.tail ∧
    (dispatch spec c2).token = c.token ∧ (dispatch spec c2).head = c.head := by
  have hvalid : c.callback_args.Valid := by
    simp [CarpArgumentVector.Valid, hempty]
  have hitems := push_all_items args c.callback_args hvalid
  have hsize := push_all_size args c.callback_args
  simp only [CarpArgumentVector.items, hempty, List.take_zero, List.nil_append,
    Nat.zero_add] at hitems hsize
  refine ⟨?_, ?_, ?_, ?_, ?_, ?_, ?_⟩
  · rw [dispatch_trace, hc2]
    simp only [CarpArgumentVector.items, hsize]
    rw [← hsize, hitems]
  all_goals simp [dispatch, carp_callback_wrapper, hc2]

/-- The scan of a short-option token at an option that takes arguments. -/
theorem carp_parse_short_option_loop_arity (search : List Char → Option CarpOptionSpec)
    (g : Char) (rest : List Char) (c : CarpPrivate) (gspec : CarpOptionSpec)
    (hg : search [g] = some gspec) (harity : gspec.arguments ≠ 0) :
    carp_parse_short_option_loop search (g :: rest) c =
      (carp_option_argument_handler { c with trace := c.trace ++ [Event.search c.head [g]] }
        gspec.arguments (some rest)).bind
        fun (c, head_increment) => .ok (dispatch gspec c, head_increment) := by
  simp [carp_parse_short_option_loop, carp_backend_search, hg, harity]

/-- The function `carp_parse_short_option` on a state whose token is set. -/
theorem carp_parse_short_option_eq (search : List Char → Option CarpOptionSpec)
    (c : CarpPrivate) (tok : Token) (htok : c.token = some tok) :
    carp_parse_short_option search c =
      (carp_parse_short_option_loop search (tok.drop 1) c).bind
        fun (c, head_increment) => .ok { c with head := c.head + head_increment } := by
  simp [carp_parse_short_option, htok]

/-- The arity resolver on a fixed arity and a non-empty immediate value. -/
theorem carp_option_argument_handler_fixed_immediate (c : CarpPrivate) (n : Int)
    (immediate : List Char) (hn : n ≠ -1) (himm : immediate ≠ []) :
    carp_option_argument_handler c n (some immediate) =
      fixed_loop (n - 1).toNat (c.argv.drop (c.head + 1)) (c.head + 1) 1
        { c with callback_args := carp_vector_push c.callback_args immediate } := by
  cases immediate with
  | nil => exact absurd rfl himm
  | cons ch s => simp [carp_option_argument_handler, hn]

/-- A short option `-c imm` with a non-empty immediate value `imm` and a fixed arity
`n ≥ 1`, parsed with an empty callback buffer; `l` are the tokens after the option token.
* When the `n - 1` tokens still needed are there, before `tail`, and plain, the handler is
  called once with `imm` and those tokens (count `n`), and the cursor moves by `n`.
* When one of them is there but is not a plain argument (or stands at `tail`), the parser
  aborts with `ERROR_NOT_ENOUGH_ARGUMENTS` without calling the handler.
* When the tokens run out before, the parser classifies the entry after the last token:
  it neither calls the handler nor aborts with an error of its own. -/
theorem carp_parse_short_option_immediate_fixed (search : List Char → Option CarpOptionSpec)
    (c : CarpPrivate) (ch : Char) (imm : List Char) (spec : CarpOptionSpec) (n : Nat)
    (htok : c.token = some ('-' :: ch :: imm)) (himm : imm ≠ [])
    (hspec : search [ch] = some spec) (harity : spec.arguments = (n : Int) + 1)
    (hempty : c.callback_args.size = 0) :
    (n ≤ (c.argv.drop (c.head + 1)).length →
      (∀ t ∈ (c.argv.drop (c.head + 1)).take n, carp_classify_token t = TOKEN_ARGUMENT) →
      c.head + 1 + n ≤ c.tail →
      ∃ c1, carp_parse_short_option search c = .ok c1 ∧
        c1.head = c.head + (n + 1) ∧
        c1.trace = c.trace ++ Event.search c.head [ch] ::
          callback_events c.head spec.callback (imm :: (c.argv.drop (c.head + 1)).take n)
            (n + 1) ∧
        c1.callback_args.size = 0 ∧ c1.command_args = c.command_args) ∧
    (∀ k t, k < n → (c.argv.drop (c.head + 1))[k]? = some t →
      (∀ u ∈ (c.argv.drop (c.head + 1)).take k, carp_classify_token u = TOKEN_ARGUMENT) →
      c.head + 1 + k ≤ c.tail →
      ¬ (carp_classify_token t = TOKEN_ARGUMENT ∧ c.head + 1 + k < c.tail) →
      ∃ c1, carp_parse_short_option search c = .exit ERROR_NOT_ENOUGH_ARGUMENTS c1 ∧
        c1.trace = c.trace ++ [Event.search c.head [ch]]) ∧
    ((c.argv.drop (c.head + 1)).length < n →
      (∀ t ∈ c.argv.drop (c.head + 1), carp_classify_token t = TOKEN_ARGUMENT) →
      c.head + 1 + (c.argv.drop (c.head + 1)).length ≤ c.tail →
      ∃ c1, carp_parse_short_option search c =
          .invalid_read (c.head + 1 + (c.argv.drop (c.head + 1)).length) c1 ∧
        c1.trace = c.trace ++ [Event.search c.head [ch]]) := by
  have ha0 : spec.arguments ≠ 0 := by omega
  have ha1 : spec.arguments ≠ -1 := by omega
  have hn : (spec.arguments - 1).toNat = n := by omega
  have hrun : carp_parse_short_option search c =
      ((fixed_loop n (c.argv.drop (c.head + 1)) (c.head + 1) 1
        { c with trace := c.trace ++ [Event.search c.head [ch]],
                 callback_args := carp_vector_push c.callback_args imm }).bind
        fun (c, head_increment) => .ok (dispatch spec c, head_increment)).bind
        fun (c, head_increment) => .ok { c with head := c.head + head_increment } := by
    rw [carp_parse_short_option_eq search c _ htok, List.drop_succ_cons, List.drop_zero,
      carp_parse_short_option_loop_arity search ch imm c spec hspec ha0,
      carp_option_argument_handler_fixed_immediate _ _ imm ha1 himm, hn]
  refine ⟨?_, ?_, ?_⟩
  · intro h1 h2 h3
    rw [hrun, fixed_loop_taken n _ _ _ _ h1 h2 (by simp only; omega)]
    simp only [Outcome.bind]
    obtain ⟨d1, d2, d3, -, -, -, d7⟩ := dispatch_after_handler spec
      { c with trace := c.trace ++ [Event.search c.head [ch]] }
      { c with trace := c.trace ++ [Event.search c.head [ch]],
               callback_args := push_all (carp_vector_push c.callback_args imm)
                 ((c.argv.drop (c.head + 1)).take n) }
      (imm :: (c.argv.drop (c.head + 1)).take n) hempty (by simp [push_all])
    refine ⟨_, rfl, ?_, ?_, d2, d3⟩
    · simp only [d7]; omega
    · simp only [d1, List.length_cons, List.length_take, Nat.min_eq_left h1,
        List.append_assoc, List.singleton_append]
  · intro k t hk ht h2 h3 h4
    rw [hrun, fixed_loop_stopped n _ _ _ _ k t hk ht h2 (by simp only; omega)
      (by simpa using h4)]
    exact ⟨_, rfl, rfl⟩
  · intro h1 h2 h3
    rw [hrun, fixed_loop_runs_out n _ _ _ _ h1 h2 (by simp only; omega)]
    exact ⟨_, rfl, rfl⟩

/-! ## One round of the driver -/

theorem callback_events_head (head : Nat) (cb : Option Callback) (argv : List Token)
    (argc : Nat) : ∀ e ∈ callback_events head cb argv argc, e.head = head := by
  cases cb <;> simp [callback_events, Event.head]

/-- The tokens that the arity resolver took are the plain arguments right after the option
token. -/
theorem taken_tokens (argv : List Token) (h m : Nat) (P : Token → Prop)
    (hm : m ≤ (argv.drop (h + 1)).length) (hp : ∀ t ∈ (argv.drop (h + 1)).take m, P t) :
    ∀ j, h < j → j < h + 1 + m → ∃ t, argv[j]? = some t ∧ P t := by
  intro j hj1 hj2
  have hk : j - (h + 1) < m := by omega
  have hlt : j - (h + 1) < ((argv.drop (h + 1)).take m).length := by
    rw [List.length_take]; omega
  have hget : ((argv.drop (h + 1)).take m)[j - (h + 1)]? = argv[j]? := by
    rw [List.getElem?_take_of_lt hk, List.getElem?_drop]
    congr 1
    omega
  refine ⟨((argv.drop (h + 1)).take m)[j - (h + 1)], ?_, hp _ (List.getElem_mem hlt)⟩
  rw [← hget, List.getElem?_eq_getElem hlt]

/-- A return of the arity resolver followed by the dispatch, for a state `c0` that differs
from `c` in its trace only. -/
theorem handler_dispatch_step (spec : CarpOptionSpec) (c c0 c2 : CarpPrivate)
    (immediate : Option (List Char)) (inc : Nat) (evs : List Event)
    (hc0 : c0 = { c with trace := c.trace ++ evs }) (hevs : ∀ e ∈ evs, e.head = c.head)
    (hrun : carp_option_argument_handler c0 spec.arguments immediate = .ok (c2, inc)) :
    OptionStep c { dispatch spec c2 with head := c2.head + inc } := by
  obtain ⟨m, h1, h2, h3, h4, h5, -, -⟩ :=
    carp_option_argument_handler_ok c0 c2 spec.arguments immediate inc hrun
  have hargv : c0.argv = c.argv := by rw [hc0]
  have hhead : c0.head = c.head := by rw [hc0]
  have htail : c0.tail = c.tail := by rw [hc0]
  rw [hargv, hhead] at h2 h3
  rw [hhead, htail] at h4
  have e1 : c2.argv = c.argv := by rw [h5, hc0]
  have e2 : c2.tail = c.tail := by rw [h5, hc0]
  have e3 : c2.command_args = c.command_args := by rw [h5, hc0]
  have e4 : c2.token = c.token := by rw [h5, hc0]
  have e5 : c2.head = c.head := by rw [h5, hc0]
  have e6 : c2.trace = c.trace ++ evs := by rw [h5, hc0]
  refine ⟨?_, ?_, ?_, ?_, ?_, ?_, ?_, ?_⟩
  · simpa [dispatch, carp_callback_wrapper] using e1
  · simpa [dispatch, carp_callback_wrapper] using e2
  · simpa [dispatch, carp_callback_wrapper] using e3
  · simpa [dispatch, carp_callback_wrapper] using e4
  · simp only [e5]; omega
  · simp only [e5]
    rcases h4 with h4 | h4
    · left; omega
    · right; omega
  · intro j hj1 hj2
    simp only [e5] at hj2
    exact taken_tokens c.argv c.head m _ h2 h3 j hj1 (by omega)
  · refine ⟨evs ++ callback_events c2.head spec.callback c2.callback_args.items
      c2.callback_args.size, ?_, ?_⟩
    · simp only [dispatch_trace, e6, List.append_assoc]
    · intro e he
      rcases List.mem_append.mp he with he | he
      · exact hevs e he
      · rw [← e5]; exact callback_events_head _ _ _ _ e he

theorem carp_parse_short_option_loop_step (search : List Char → Option CarpOptionSpec)
    (opt : List Char) (c c0 c1 : CarpPrivate) (inc : Nat) (evs : List Event)
    (hc0 : c0 = { c with trace := c.trace ++ evs }) (hevs : ∀ e ∈ evs, e.head = c.head)
    (h : carp_parse_short_option_loop search opt c0 = .ok (c1, inc)) :
    OptionStep c { c1 with head := c1.head + inc } := by
  induction opt generalizing c0 evs with
  | nil =>
    simp only [carp_parse_short_option_loop, Outcome.ok.injEq, Prod.mk.injEq] at h
    obtain ⟨rfl, rfl⟩ := h
    subst hc0
    exact ⟨rfl, rfl, rfl, rfl, by simp, Or.inl rfl, fun j h1 h2 => by simp at h2; omega,
      evs, rfl, hevs⟩
  | cons ch rest ih =>
    have hhead : c0.head = c.head := by rw [hc0]
    cases hs : search [ch] with
    | none => simp [carp_parse_short_option_loop, carp_backend_search, hs] at h
    | some spec =>
      by_cases ha : spec.arguments = 0
      · simp only [carp_parse_short_option_loop, carp_backend_search, hs, ha, if_true] at h
        refine ih _ (evs ++ Event.search c.head [ch] ::
          callback_events c.head spec.callback [] 0) ?_ ?_ h
        · simp [carp_callback_wrapper, hc0]
        · intro e he
          rcases List.mem_append.mp he with he | he
          · exact hevs e he
          · rcases List.mem_cons.mp he with rfl | he
            · rfl
            · exact callback_events_head _ _ _ _ e he
      · rw [carp_parse_short_option_loop_arity search ch rest c0 spec hs ha] at h
        cases hrun : carp_option_argument_handler
            { c0 with trace := c0.trace ++ [Event.search c0.head [ch]] } spec.arguments
            (some rest) with
        | ok r =>
          obtain ⟨c2, inc2⟩ := r
          rw [hrun] at h
          simp only [Outcome.bind, Outcome.ok.injEq, Prod.mk.injEq] at h
          obtain ⟨rfl, rfl⟩ := h
          have hstep := handler_dispatch_step spec c _ c2 (some rest) inc2
            (evs ++ [Event.search c.head [ch]]) (by simp [hc0]) (by
              intro e he
              rcases List.mem_append.mp he with he | he
              · exact hevs e he
              · simp only [List.mem_singleton] at he; subst he; rfl) hrun
          have hd : (dispatch spec c2).head = c2.head := by
            simp [dispatch, carp_callback_wrapper]
          simpa [hd] using hstep
        | exit e c2 => rw [hrun] at h; simp [Outcome.bind] at h
        | invalid_read i c2 => rw [hrun] at h; simp [Outcome.bind] at h
        | out_of_fuel => rw [hrun] at h; simp [Outcome.bind] at h

theorem carp_parse_short_option_step (search : List Char → Option CarpOptionSpec)
    (c c1 : CarpPrivate) (h : carp_parse_short_option search c = .ok c1) :
    OptionStep c c1 := by
  cases htok : c.token with
  | none => simp [carp_parse_short_option, htok] at h
  | some tok =>
    rw [carp_parse_short_option_eq search c tok htok] at h
    cases hrun : carp_parse_short_option_loop search (tok.drop 1) c with
    | ok r =>
      obtain ⟨c2, inc⟩ := r
      rw [hrun] at h
      simp only [Outcome.bind, Outcome.ok.injEq] at h
      rw [← h]
      exact carp_parse_short_option_loop_step search _ c c c2 inc [] (by simp) (by simp) hrun
    | exit e c2 => rw [hrun] at h; simp [Outcome.bind] at h
    | invalid_read i c2 => rw [hrun] at h; simp [Outcome.bind] at h
    | out_of_fuel => rw [hrun] at h; simp [Outcome.bind] at h

/-- A return of the arity resolver, followed by the dispatch and the move of the cursor, as
the long-option parser does them. -/
theorem handler_bind_step (spec : CarpOptionSpec) (c c0 c1 : CarpPrivate)
    (immediate : Option (List Char)) (evs : List Event)
    (hc0 : c0 = { c with trace := c.trace ++ evs }) (hevs : ∀ e ∈ evs, e.head = c.head)
    (h : (carp_option_argument_handler c0 spec.arguments immediate).bind
      (fun (r : CarpPrivate × Nat) =>
        Outcome.ok { dispatch spec r.1 with head := r.1.head + r.2 }) = .ok c1) :
    OptionStep c c1 := by
  cases hrun : carp_option_argument_handler c0 spec.arguments immediate with
  | ok r =>
    obtain ⟨c2, inc⟩ := r
    rw [hrun] at h
    simp only [Outcome.bind, Outcome.ok.injEq] at h
    rw [← h]
    exact handler_dispatch_step spec c c0 c2 immediate inc evs hc0 hevs hrun
  | exit e c2 => rw [hrun] at h; simp [Outcome.bind] at h
  | invalid_read i c2 => rw [hrun] at h; simp [Outcome.bind] at h
  | out_of_fuel => rw [hrun] at h; simp [Outcome.bind] at h

theorem carp_parse_long_option_step (search : List Char → Option CarpOptionSpec)
    (c c1 : CarpPrivate) (h : carp_parse_long_option search c = .ok c1) :
    OptionStep c c1 := by
  cases htok : c.token with
  | none => simp [carp_parse_long_option, htok] at h
  | some tok =>
    simp only [carp_parse_long_option, htok, carp_backend_search] at h
    have hsearch : ∀ name : List Char, ∀ e ∈ [Event.search c.head name], e.head = c.head := by
      intro name e he
      simp only [List.mem_singleton] at he
      subst he
      rfl
    split at h
    · next diff hchr =>
      split at h
      · simp at h
      · split at h
        · next c2 spec heq =>
          simp only [Prod.mk.injEq] at heq
          obtain ⟨rfl, hspec⟩ := heq
          split at h
          · simp at h
          · exact handler_bind_step spec c _ c1 _ _ (by rw [htok]) (hsearch _) h
        · simp at h
    · split at h
      · next c2 spec heq =>
        simp only [Prod.mk.injEq] at heq
        obtain ⟨rfl, hspec⟩ := heq
        split at h
        · exact handler_bind_step spec c _ c1 _ _ (by rw [htok]) (hsearch _) h
        · simp only [Outcome.ok.injEq] at h
          rw [← h]
          refine ⟨rfl, rfl, rfl, by simp [carp_callback_wrapper, htok],
            by simp [carp_callback_wrapper], Or.inl (by simp [carp_callback_wrapper]),
            fun j h1 h2 => by simp at h2; omega,
            [Event.search c.head ((tok.drop 2).take (strlen (tok.drop 2)))] ++
              callback_events c.head spec.callback [] 0, ?_, ?_⟩
          · simp only [carp_callback_wrapper, List.append_assoc]
          · intro e he
            rcases List.mem_append.mp he with he | he
            · exact hsearch _ e he
            · exact callback_events_head _ _ _ _ e he
      · simp at h

/-! ## The driver loop -/

theorem Outcome.bind_eq_ok {α β : Type} (x : Outcome α) (f : α → Outcome β) (b : β)
    (h : x.bind f = .ok b) : ∃ a, x = .ok a ∧ f a = .ok b := by
  cases x with
  | ok a => exact ⟨a, rfl, h⟩
  | exit e c => simp [Outcome.bind] at h
  | invalid_read i c => simp [Outcome.bind] at h
  | out_of_fuel => simp [Outcome.bind] at h

/-- Once the cursor is at the end, the loop of `carp_parse` returns at once. -/
theorem carp_parse_loop_done (search : List Char → Option CarpOptionSpec) (fuel : Nat)
    (c : CarpPrivate) (h : ¬ c.head < c.tail) : carp_parse_loop search fuel c = .ok c := by
  cases fuel <;> simp [carp_parse_loop, h]

/-- After the separator every remaining token goes to the residual buffer, in order, and
nothing else changes but the cursor and the current token. -/
theorem carp_parse_arguments_after_separator_loop_ok (fuel : Nat) (c : CarpPrivate)
    (hfuel : c.tail - c.head ≤ fuel) (htail : c.tail = c.argv.length)
    (hbuf : c.command_args.buf.length = c.command_args.size) :
    ∃ c1, carp_parse_arguments_after_separator_loop fuel c = .ok c1 ∧
      c1.argv = c.argv ∧ c1.tail = c.tail ∧ ¬ c1.head < c1.tail ∧
      (c.head ≤ c.tail → c1.head = c.tail) ∧
      c1.trace = c.trace ∧ c1.callback_args = c.callback_args ∧
      c1.command_args.buf = c.command_args.buf ++ c.argv.drop c.head ∧
      c1.command_args.buf.length = c1.command_args.size := by
  induction fuel generalizing c with
  | zero =>
    have hge : ¬ c.head < c.tail := by omega
    refine ⟨c, by simp [carp_parse_arguments_after_separator_loop, hge], rfl, rfl, hge,
      fun h => by omega, rfl, rfl, ?_, hbuf⟩
    rw [List.drop_of_length_le (by omega)]
    simp
  | succ fuel ih =>
    by_cases hlt : c.head < c.tail
    · have hin : c.head < c.argv.length := by omega
      have hget : c.argv[c.head]? = some c.argv[c.head] := List.getElem?_eq_getElem hin
      simp only [carp_parse_arguments_after_separator_loop, hlt, if_true, hget]
      obtain ⟨c1, h1, h2, h3, h4, h5, h6, h7, h8, h9⟩ := ih
        { c with token := some c.argv[c.head], head := c.head + 1,
                 command_args := carp_vector_push c.command_args c.argv[c.head] }
        (by simp only; omega) htail
        (by simp only [carp_vector_push_buf _ _ hbuf, carp_vector_push_size]; simp [hbuf])
      refine ⟨c1, h1, h2, h3, h4, fun _ => h5 (by simp only; omega), h6, h7, ?_, h9⟩
      rw [h8]
      simp only [carp_vector_push_buf _ _ hbuf, List.append_assoc, List.singleton_append]
      rw [← List.drop_eq_getElem_cons hin]
    · refine ⟨c, by simp [carp_parse_arguments_after_separator_loop, hlt], rfl, rfl, hlt,
        fun h => by omega, rfl, rfl, ?_, hbuf⟩
      rw [List.drop_of_length_le (by omega)]
      simp

/-- When only plain arguments remain, the loop of `carp_parse` moves them all to the
residual buffer and makes no call. -/
theorem carp_parse_loop_plain (search : List Char → Option CarpOptionSpec) (fuel : Nat)
    (c : CarpPrivate) (hfuel : c.tail - c.head ≤ fuel) (htail : c.tail = c.argv.length)
    (hbuf : c.command_args.buf.length = c.command_args.size)
    (hplain : ∀ t ∈ c.argv.drop c.head, carp_classify_token t = TOKEN_ARGUMENT) :
    ∃ c1, carp_parse_loop search fuel c = .ok c1 ∧ ¬ c1.head < c1.tail ∧
      c1.trace = c.trace ∧ c1.callback_args = c.callback_args ∧
      c1.command_args.buf = c.command_args.buf ++ c.argv.drop c.head ∧
      c1.command_args.buf.length = c1.command_args.size := by
  induction fuel generalizing c with
  | zero =>
    have hge : ¬ c.head < c.tail := by omega
    refine ⟨c, by simp [carp_parse_loop, hge], hge, rfl, rfl, ?_, hbuf⟩
    rw [List.drop_of_length_le (by omega)]
    simp
  | succ fuel ih =>
    by_cases hlt : c.head < c.tail
    · have hin : c.head < c.argv.length := by omega
      have hget : c.argv[c.head]? = some c.argv[c.head] := List.getElem?_eq_getElem hin
      have hdrop := List.drop_eq_getElem_cons hin
      have hcls : carp_classify_token c.argv[c.head] = TOKEN_ARGUMENT :=
        hplain _ (by rw [hdrop]; exact List.mem_cons_self _ _)
      simp only [carp_parse_loop, hlt, if_true, hget, carp_parse_step, hcls, Outcome.bind]
      obtain ⟨c1, h1, h2, h3, h4, h5, h6⟩ := ih
        { c with token := some c.argv[c.head],
                 command_args := carp_vector_push c.command_args c.argv[c.head],
                 head := c.head + 1 }
        (by simp only; omega) htail
        (by simp only [carp_vector_push_buf _ _ hbuf, carp_vector_push_size]; simp [hbuf])
        (by
          intro t ht
          apply hplain t
          rw [hdrop]
          exact List.mem_cons_of_mem _ ht)
      refine ⟨c1, h1, h2, h3, h4, ?_, h6⟩
      rw [h5]
      simp only [carp_vector_push_buf _ _ hbuf, List.append_assoc, List.singleton_append]
      rw [← hdrop]
    · refine ⟨c, carp_parse_loop_done search _ c hlt, hlt, rfl, rfl, ?_, hbuf⟩
      rw [List.drop_of_length_le (by omega)]
      simp

theorem carp_classify_token_separator :
    carp_classify_token ['-', '-'] = TOKEN_SEPARATOR := by
  decide

theorem eq_of_classify_separator (token : Token)
    (h : carp_classify_token token = TOKEN_SEPARATOR) : token = ['-', '-'] := by
  rcases token with _ | ⟨a, _ | ⟨b, _ | ⟨d, rest⟩⟩⟩ <;>
    simp [carp_classify_token, strncmp_eq, strlen] at h ⊢
  · split at h <;> simp at h
  · by_cases ha : a = '-' <;> by_cases hb : b = '-' <;> simp_all
  · by_cases ha : a = '-' <;> by_cases hb : b = '-' <;> simp_all

/-- An option parser that returns has not moved the cursor past a separator. -/
theorem OptionStep.head_le (c c1 : CarpPrivate) (i : Nat) (h : OptionStep c c1)
    (hsep : c.argv[i]? = some ['-', '-']) (hi : c.head < i) : c1.head ≤ i := by
  by_contra hgt
  obtain ⟨t, ht, hcls⟩ := h.2.2.2.2.2.2.1 i hi (by omega)
  rw [hsep] at ht
  cases ht
  rw [carp_classify_token_separator] at hcls
  cases hcls

/-- The loop of `carp_parse` from a cursor at or before the first separator, at index `i`:
up to the separator the residual buffer gains plain arguments `pre` that stand before it,
in order, and every call carries an index below `i`; from the separator on, the remaining
tokens are appended as they are. -/
theorem carp_parse_loop_separator (search : List Char → Option CarpOptionSpec) (i : Nat)
    (fuel : Nat) (c c1 : CarpPrivate) (hsep : c.argv[i]? = some ['-', '-'])
    (hfirst : ∀ j, c.head ≤ j → j < i → c.argv[j]? ≠ some ['-', '-'])
    (hhead : c.head ≤ i) (htail : c.tail = c.argv.length)
    (hbuf : c.command_args.buf.length = c.command_args.size)
    (hrun : carp_parse_loop search fuel c = .ok c1) :
    ∃ pre evs, c1.command_args.buf = c.command_args.buf ++ pre ++ c.argv.drop (i + 1) ∧
      c1.command_args.buf.length = c1.command_args.size ∧
      pre.Sublist ((c.argv.take i).drop c.head) ∧
      (∀ t ∈ pre, carp_classify_token t = TOKEN_ARGUMENT) ∧
      c1.trace = c.trace ++ evs ∧ (∀ e ∈ evs, c.head ≤ e.head ∧ e.head < i) ∧
      c1.head = c.tail := by
  have hi : i < c.argv.length := by
    by_contra hge
    rw [List.getElem?_eq_none (by omega)] at hsep
    cases hsep
  induction fuel generalizing c with
  | zero =>
    have hlt : c.head < c.tail := by omega
    simp [carp_parse_loop, hlt] at hrun
  | succ fuel ih =>
    have hlt : c.head < c.tail := by omega
    have hin : c.head < c.argv.length := by omega
    have hget : c.argv[c.head]? = some c.argv[c.head] := List.getElem?_eq_getElem hin
    simp only [carp_parse_loop, hlt, if_true, hget] at hrun
    obtain ⟨c2, hstep, hrest⟩ := Outcome.bind_eq_ok _ _ _ hrun
    rcases Nat.lt_or_ge c.head i with hci | hci
    · -- a token before the separator
      have hne : c.argv[c.head] ≠ ['-', '-'] := by
        intro he
        exact hfirst c.head (Nat.le_refl _) hci (by rw [hget, he])
      have hdrop : (c.argv.take i).drop c.head =
          c.argv[c.head] :: (c.argv.take i).drop (c.head + 1) := by
        have hin2 : c.head < (c.argv.take i).length := by
          rw [List.length_take]; omega
        rw [List.drop_eq_getElem_cons hin2, List.getElem_take]
      -- the state after this round
      have hnext : ∃ pre0 evs0, c2.argv = c.argv ∧ c2.tail = c.tail ∧
          c.head < c2.head ∧ c2.head ≤ i ∧
          c2.command_args.buf = c.command_args.buf ++ pre0 ∧
          c2.command_args.buf.length = c2.command_args.size ∧
          pre0.Sublist ((c.argv.take i).drop c.head) ∧
          (∀ t ∈ pre0, carp_classify_token t = TOKEN_ARGUMENT) ∧
          (∀ q : List Token, q.Sublist ((c.argv.take i).drop c2.head) →
            (pre0 ++ q).Sublist ((c.argv.take i).drop c.head)) ∧
          c2.trace = c.trace ++ evs0 ∧ (∀ e ∈ evs0, e.head = c.head) := by
        simp only [carp_parse_step] at hstep
        split at hstep
        · next hcls =>
          have hs := carp_parse_short_option_step search _ c2 hstep
          obtain ⟨s1, s2, s3, s4, s5, s6, s7, evs0, s8, s9⟩ := hs
          have hle := OptionStep.head_le _ c2 i ⟨s1, s2, s3, s4, s5, s6, s7, evs0, s8, s9⟩
            hsep hci
          simp only at s1 s2 s3 s5 s8 s9 hle
          refine ⟨[], evs0, s1, s2, s5, hle, by simp [s3], by rw [s3]; exact hbuf,
            List.nil_sublist _, by simp, ?_, s8, s9⟩
          intro q hq
          exact hq.trans (List.drop_sublist_drop_left _ (by omega))
        · next hcls =>
          have hs := carp_parse_long_option_step search _ c2 hstep
          obtain ⟨s1, s2, s3, s4, s5, s6, s7, evs0, s8, s9⟩ := hs
          have hle := OptionStep.head_le _ c2 i ⟨s1, s2, s3, s4, s5, s6, s7, evs0, s8, s9⟩
            hsep hci
          simp only at s1 s2 s3 s5 s8 s9 hle
          refine ⟨[], evs0, s1, s2, s5, hle, by simp [s3], by rw [s3]; exact hbuf,
            List.nil_sublist _, by simp, ?_, s8, s9⟩
          intro q hq
          exact hq.trans (List.drop_sublist_drop_left _ (by omega))
        · next hcls =>
          exact absurd (eq_of_classify_separator _ hcls) hne
        · next hcls =>
          simp only [Outcome.ok.injEq] at hstep
          subst hstep
          refine ⟨[c.argv[c.head]], [], rfl, rfl, by simp, by simp only; omega,
            by simp [carp_vector_push_buf _ _ hbuf],
            by simp [carp_vector_push_buf _ _ hbuf, carp_vector_push_size, hbuf],
            ?_, by simpa using hcls, ?_, by simp, by simp⟩
          · rw [hdrop]
            exact List.Sublist.cons₂ _ (List.nil_sublist _)
          · intro q hq
            rw [hdrop]
            exact List.Sublist.cons₂ c.argv[c.head] hq
      obtain ⟨pre0, evs0, n1, n2, n3, n4, n5, n6, n7, n8, n9, n10, n11⟩ := hnext
      obtain ⟨pre, evs, r1, r2, r3, r4, r5, r6, r7⟩ := ih c2 (by rw [n1]; exact hsep)
        (by
          intro j hj1 hj2
          rw [n1]
          exact hfirst j (by omega) hj2)
        n4 (by rw [n2, n1]; exact htail) n6 hrest (by rw [n1]; exact hi)
      rw [n1] at r1 r3
      refine ⟨pre0 ++ pre, evs0 ++ evs, ?_, r2, n9 pre r3, ?_, ?_, ?_, by rw [r7, n2]⟩
      · rw [r1, n5]; simp
      · intro t ht
        rcases List.mem_append.mp ht with ht | ht
        · exact n8 t ht
        · exact r4 t ht
      · rw [r5, n10]; simp
      · intro e he
        rcases List.mem_append.mp he with he | he
        · rw [n11 e he]; exact ⟨Nat.le_refl _, hci⟩
        · have := r6 e he
          exact ⟨by omega, this.2⟩
    · -- the separator itself
      have hci2 : c.head = i := by omega
      have htok : c.argv[c.head] = ['-', '-'] := by
        have hsep2 : c.argv[c.head]? = some ['-', '-'] := by rw [hci2]; exact hsep
        exact Option.some.inj (hget.symm.trans hsep2)
      simp only [carp_parse_step, htok, carp_classify_token_separator,
        carp_parse_arguments_after_separator] at hstep
      obtain ⟨c3, a1, a2, a3, a4, a5, a6, a7, a8, a9⟩ :=
        carp_parse_arguments_after_separator_loop_ok (c.tail - (c.head + 1))
          { c with token := some ['-', '-'], head := c.head + 1 } (by simp) htail hbuf
      rw [a1] at hstep
      simp only [Outcome.ok.injEq] at hstep
      subst hstep
      rw [carp_parse_loop_done search fuel c3 a4] at hrest
      simp only [Outcome.ok.injEq] at hrest
      subst hrest
      refine ⟨[], [], ?_, a9, List.nil_sublist _, by simp, by simpa using a6, by simp, ?_⟩
      · rw [a8, hci2]; simp
      · exact a5 (by simp only; omega)

/-! ## Lookups that fail -/

theorem strchr_none (s : List Char) (ch : Char) (h : ch ∉ s) : strchr s ch = none := by
  induction s with
  | nil => rfl
  | cons x s ih =>
    simp only [List.mem_cons, not_or] at h
    have hx : ¬ x = ch := fun e => h.1 e.symm
    simp [strchr, hx, ih h.2]

/-- What `carp_parse_long_option` does on a token `--name`, the name without `=`. -/
theorem carp_parse_long_option_plain_eq (search : List Char → Option CarpOptionSpec)
    (c : CarpPrivate) (name : List Char) (hname : '=' ∉ name)
    (htok : c.token = some ('-' :: '-' :: name)) :
    carp_parse_long_option search c =
      match search name with
      | some spec =>
        if spec.arguments = -1 ∨ spec.arguments > 0 then
          (carp_option_argument_handler
            { c with trace := c.trace ++ [Event.search c.head name] } spec.arguments none).bind
            fun (c, head_increment) =>
              .ok { dispatch spec c with head := c.head + head_increment }
        else
          .ok { carp_callback_wrapper { c with trace := c.trace ++ [Event.search c.head name] }
                  spec.callback [] 0 with head := c.head + 1 }
      | none =>
        .exit ERROR_UNKNOWN_OPTION { c with trace := c.trace ++ [Event.search c.head name] } := by
  have hchr := strchr_none name '=' hname
  unfold carp_parse_long_option
  simp only [htok, List.drop_succ_cons, List.drop_zero, hchr, carp_backend_search, strlen,
    List.take_length]
  cases search name <;> rfl

theorem carp_parse_long_option_unknown (search : List Char → Option CarpOptionSpec)
    (c : CarpPrivate) (name : List Char) (hname : '=' ∉ name)
    (htok : c.token = some ('-' :: '-' :: name)) (hnone : search name = none) :
    carp_parse_long_option search c =
      .exit ERROR_UNKNOWN_OPTION { c with trace := c.trace ++ [Event.search c.head name] } := by
  rw [carp_parse_long_option_plain_eq search c name hname htok, hnone]

theorem carp_parse_long_option_immediate_unknown
    (search : List Char → Option CarpOptionSpec) (c : CarpPrivate) (name value : List Char)
    (hname : '=' ∉ name) (hvalue : value ≠ [])
    (htok : c.token = some ('-' :: '-' :: (name ++ '=' :: value)))
    (hnone : search name = none) :
    carp_parse_long_option search c =
      .exit ERROR_UNKNOWN_OPTION { c with trace := c.trace ++ [Event.search c.head name] } := by
  rw [carp_parse_long_option_eq search c name value hname htok, hnone]
  simp [hvalue]

theorem carp_parse_short_option_unknown (search : List Char → Option CarpOptionSpec)
    (c : CarpPrivate) (fs : List (Char × Option Callback)) (z : Char) (rest : List Char)
    (htok : c.token = some ('-' :: (fs.map Prod.fst ++ z :: rest)))
    (hfs : ∀ p ∈ fs, search [p.1] = some ⟨0, p.2⟩) (hnone : search [z] = none) :
    carp_parse_short_option search c =
      .exit ERROR_UNKNOWN_OPTION
        { c with trace := c.trace ++ flag_events c.head fs ++ [Event.search c.head [z]] } := by
  rw [carp_parse_short_option_eq search c _ htok, List.drop_succ_cons, List.drop_zero,
    carp_parse_short_option_loop_flags search fs (z :: rest) c hfs]
  simp [carp_parse_short_option_loop, carp_backend_search, hnone, Outcome.bind]

theorem handler_calls_append (xs ys : List Event) :
    handler_calls (xs ++ ys) = handler_calls xs ++ handler_calls ys := by
  simp [handler_calls]

theorem handler_calls_callback_events (head : Nat) (cb : Option Callback)
    (argv : List Token) (argc : Nat) :
    handler_calls (callback_events head cb argv argc) = callback_events head cb argv argc := by
  cases cb <;> simp [handler_calls, callback_events, Event.isCall]

theorem handler_calls_flag_events (head : Nat) (fs : List (Char × Option Callback)) :
    handler_calls (flag_events head fs) =
      fs.flatMap fun p => callback_events head p.2 [] 0 := by
  induction fs with
  | nil => simp [flag_events, handler_calls]
  | cons p fs ih =>
    have hcons : flag_events head (p :: fs) =
        Event.search head [p.1] :: callback_events head p.2 [] 0 ++ flag_events head fs := by
      simp [flag_events, List.flatMap_cons]
    have hhead : handler_calls
        (Event.search head [p.1] :: callback_events head p.2 [] 0 ++ flag_events head fs) =
        handler_calls (callback_events head p.2 [] 0 ++ flag_events head fs) := rfl
    rw [hcons, List.flatMap_cons, ← ih, hhead, handler_calls_append,
      handler_calls_callback_events]

/-! ## The callback buffer between two dispatches -/

theorem resolved_call_flag (argv : List Token) (head : Nat) (tok : List Char)
    (cb : Option Callback) : ∀ e ∈ callback_events head cb [] 0, ResolvedCall argv head tok e := by
  cases cb with
  | none => simp [callback_events]
  | some f =>
    intro e he
    simp only [callback_events, List.take_nil, List.mem_singleton] at he
    subst he
    exact ⟨rfl, rfl, [], [], rfl, by simp, by simp, List.nil_prefix, by simp⟩

theorem resolved_call_args (argv : List Token) (head : Nat) (tok : List Char)
    (cb : Option Callback) (immediate : Option (List Char)) (m : Nat)
    (himm : ∀ s, immediate = some s → s <:+ tok)
    (hplain : ∀ t ∈ (argv.drop (head + 1)).take m, carp_classify_token t = TOKEN_ARGUMENT) :
    ∀ e ∈ callback_events head cb (immediate_args immediate ++ (argv.drop (head + 1)).take m)
      (immediate_args immediate ++ (argv.drop (head + 1)).take m).length,
      ResolvedCall argv head tok e := by
  cases cb with
  | none => simp [callback_events]
  | some f =>
    intro e he
    simp only [callback_events, List.take_length, List.mem_singleton] at he
    subst he
    refine ⟨rfl, rfl, immediate_args immediate, (argv.drop (head + 1)).take m, rfl, ?_, ?_,
      List.take_prefix _ _, hplain⟩
    · rcases immediate with _ | ⟨_ | ⟨ch, s⟩⟩ <;> simp [immediate_args]
    · intro s hs
      rcases immediate with _ | ⟨_ | ⟨ch, r⟩⟩
      · simp [immediate_args] at hs
      · simp [immediate_args] at hs
      · simp only [immediate_args, List.mem_singleton] at hs
        subst hs
        exact ⟨by simp, himm _ rfl⟩

/-- A return of the arity resolver followed by the dispatch, started with an empty callback
buffer: the buffer is empty again and the handler got only what was resolved. -/
theorem handler_dispatch_clean (spec : CarpOptionSpec) (c0 c2 : CarpPrivate)
    (immediate : Option (List Char)) (inc : Nat) (tok : List Char)
    (hempty : c0.callback_args.size = 0) (himm : ∀ s, immediate = some s → s <:+ tok)
    (hrun : carp_option_argument_handler c0 spec.arguments immediate = .ok (c2, inc)) :
    (dispatch spec c2).callback_args.size = 0 ∧
    ∃ evs, (dispatch spec c2).trace = c0.trace ++ evs ∧
      ∀ e ∈ evs, ResolvedCall c0.argv c0.head tok e := by
  obtain ⟨m, -, -, h3, -, h5, -, -⟩ :=
    carp_option_argument_handler_ok c0 c2 spec.arguments immediate inc hrun
  obtain ⟨d1, d2, -⟩ := dispatch_after_handler spec c0 c2 _ hempty h5
  exact ⟨d2, _, d1, resolved_call_args c0.argv c0.head tok spec.callback immediate m himm h3⟩

theorem carp_parse_short_option_loop_clean (search : List Char → Option CarpOptionSpec)
    (opt : List Char) (c0 c1 : CarpPrivate) (inc : Nat) (tok : List Char)
    (hempty : c0.callback_args.size = 0) (hopt : opt <:+ tok)
    (h : carp_parse_short_option_loop search opt c0 = .ok (c1, inc)) :
    c1.callback_args.size = 0 ∧
    ∃ evs, c1.trace = c0.trace ++ evs ∧ ∀ e ∈ evs, ResolvedCall c0.argv c0.head tok e := by
  induction opt generalizing c0 with
  | nil =>
    simp only [carp_parse_short_option_loop, Outcome.ok.injEq, Prod.mk.injEq] at h
    obtain ⟨rfl, -⟩ := h
    exact ⟨hempty, [], by simp, by simp⟩
  | cons ch rest ih =>
    have hrest : rest <:+ tok := (List.suffix_cons ch rest).trans hopt
    cases hs : search [ch] with
    | none => simp [carp_parse_short_option_loop, carp_backend_search, hs] at h
    | some spec =>
      by_cases ha : spec.arguments = 0
      · simp only [carp_parse_short_option_loop, carp_backend_search, hs, ha, if_true] at h
        obtain ⟨i1, evs, i2, i3⟩ := ih _ (by simpa [carp_callback_wrapper] using hempty) hrest h
        refine ⟨i1, Event.search c0.head [ch] :: callback_events c0.head spec.callback [] 0 ++
          evs, ?_, ?_⟩
        · rw [i2]; simp [carp_callback_wrapper]
        · intro e he
          simp only [List.cons_append, List.mem_cons, List.mem_append] at he
          rcases he with rfl | he | he
          · trivial
          · exact resolved_call_flag _ _ _ _ e he
          · simpa [carp_callback_wrapper] using i3 e he
      · rw [carp_parse_short_option_loop_arity search ch rest c0 spec hs ha] at h
        obtain ⟨⟨c2, inc2⟩, hrun, hout⟩ := Outcome.bind_eq_ok _ _ _ h
        simp only [Outcome.ok.injEq, Prod.mk.injEq] at hout
        obtain ⟨rfl, -⟩ := hout
        obtain ⟨j1, evs, j2, j3⟩ := handler_dispatch_clean spec _ c2 (some rest) inc2 tok
          (by simpa using hempty) (by
            intro s hs2
            simp only [Option.some.injEq] at hs2
            subst hs2
            exact hrest) hrun
        refine ⟨j1, Event.search c0.head [ch] :: evs, ?_, ?_⟩
        · rw [j2]; simp
        · intro e he
          rcases List.mem_cons.mp he with rfl | he
          · trivial
          · exact j3 e he

theorem carp_parse_short_option_clean (search : List Char → Option CarpOptionSpec)
    (c c1 : CarpPrivate) (tok : List Char) (hempty : c.callback_args.size = 0)
    (htok : c.token = some tok) (h : carp_parse_short_option search c = .ok c1) :
    c1.callback_args.size = 0 ∧
    ∃ evs, c1.trace = c.trace ++ evs ∧ ∀ e ∈ evs, ResolvedCall c.argv c.head tok e := by
  rw [carp_parse_short_option_eq search c tok htok] at h
  obtain ⟨⟨c2, inc⟩, hrun, hout⟩ := Outcome.bind_eq_ok _ _ _ h
  simp only [Outcome.ok.injEq] at hout
  obtain ⟨h1, evs, h2, h3⟩ := carp_parse_short_option_loop_clean search _ c c2 inc tok hempty
    (List.drop_suffix 1 tok) hrun
  rw [← hout]
  exact ⟨h1, evs, h2, h3⟩

theorem carp_parse_long_option_clean (search : List Char → Option CarpOptionSpec)
    (c c1 : CarpPrivate) (tok : List Char) (hempty : c.callback_args.size = 0)
    (htok : c.token = some tok) (h : carp_parse_long_option search c = .ok c1) :
    c1.callback_args.size = 0 ∧
    ∃ evs, c1.trace = c.trace ++ evs ∧ ∀ e ∈ evs, ResolvedCall c.argv c.head tok e := by
  simp only [carp_parse_long_option, htok, carp_backend_search] at h
  have hsfx : ∀ k, (tok.drop 2).drop k <:+ tok :=
    fun k => (List.drop_suffix k _).trans (List.drop_suffix 2 tok)
  have hfinish : ∀ (spec : CarpOptionSpec) (name : List Char) (immediate : Option (List Char)),
      (∀ s, immediate = some s → s <:+ tok) →
      (carp_option_argument_handler
        { c with token := some tok, trace := c.trace ++ [Event.search c.head name] }
        spec.arguments immediate).bind
        (fun (r : CarpPrivate × Nat) =>
          Outcome.ok { dispatch spec r.1 with head := r.1.head + r.2 }) = .ok c1 →
      c1.callback_args.size = 0 ∧
      ∃ evs, c1.trace = c.trace ++ evs ∧ ∀ e ∈ evs, ResolvedCall c.argv c.head tok e := by
    intro spec name immediate himm hb
    obtain ⟨⟨c2, inc⟩, hrun, hout⟩ := Outcome.bind_eq_ok _ _ _ hb
    simp only [Outcome.ok.injEq] at hout
    obtain ⟨j1, evs, j2, j3⟩ := handler_dispatch_clean spec _ c2 immediate inc tok
      (by simpa using hempty) himm hrun
    rw [← hout]
    refine ⟨j1, Event.search c.head name :: evs, ?_, ?_⟩
    · simp only [j2]; simp
    · intro e he
      rcases List.mem_cons.mp he with rfl | he
      · trivial
      · exact j3 e he
  split at h
  · next diff hchr =>
    split at h
    · simp at h
    · split at h
      · next c2 spec heq =>
        simp only [Prod.mk.injEq] at heq
        obtain ⟨rfl, hspec⟩ := heq
        split at h
        · simp at h
        · exact hfinish spec _ _ (by
            intro s hs
            simp only [Option.some.injEq] at hs
            subst hs
            exact hsfx _) h
      · simp at h
  · split at h
    · next c2 spec heq =>
      simp only [Prod.mk.injEq] at heq
      obtain ⟨rfl, hspec⟩ := heq
      split at h
      · exact hfinish spec _ none (by intro s hs; cases hs) h
      · simp only [Outcome.ok.injEq] at h
        rw [← h]
        refine ⟨by simpa [carp_callback_wrapper] using hempty,
          Event.search c.head ((tok.drop 2).take (strlen (tok.drop 2))) ::
            callback_events c.head spec.callback [] 0, by simp [carp_callback_wrapper], ?_⟩
        intro e he
        rcases List.mem_cons.mp he with rfl | he
        · trivial
        · exact resolved_call_flag _ _ _ _ e he
    · simp at h

/-! ## The rounds of the driver -/

/-- What a return of the loop after the separator tells, for every state: only the cursor,
the current token and the residual buffer change, and the cursor ends at `tail`. -/
theorem carp_parse_arguments_after_separator_loop_inv (fuel : Nat) (c c1 : CarpPrivate)
    (h : carp_parse_arguments_after_separator_loop fuel c = .ok c1) :
    c1.argv = c.argv ∧ c1.tail = c.tail ∧ c1.callback_args = c.callback_args ∧
    c1.trace = c.trace ∧ c.head ≤ c1.head ∧ ¬ c1.head < c1.tail ∧
    (c.head ≤ c.tail → c1.head = c.tail) := by
  induction fuel generalizing c with
  | zero =>
    simp only [carp_parse_arguments_after_separator_loop] at h
    split at h
    · simp at h
    · next hge =>
      simp only [Outcome.ok.injEq] at h
      subst h
      exact ⟨rfl, rfl, rfl, rfl, Nat.le_refl _, hge, fun hle => by omega⟩
  | succ fuel ih =>
    simp only [carp_parse_arguments_after_separator_loop] at h
    split at h
    · next hlt =>
      split at h
      · simp at h
      · next tok hget =>
        obtain ⟨h1, h2, h3, h4, h5, h6, h7⟩ := ih _ h
        simp only at h1 h2 h3 h4 h5 h7
        exact ⟨h1, h2, h3, h4, by omega, h6, fun _ => h7 (by omega)⟩
    · next hge =>
      simp only [Outcome.ok.injEq] at h
      subst h
      exact ⟨rfl, rfl, rfl, rfl, Nat.le_refl _, hge, fun hle => by omega⟩

/-- The loop after the separator is not cut off when it may make `tail - head` rounds. -/
theorem carp_parse_arguments_after_separator_loop_ends (fuel : Nat) (c : CarpPrivate)
    (hfuel : c.tail - c.head ≤ fuel) :
    carp_parse_arguments_after_separator_loop fuel c ≠ .out_of_fuel := by
  induction fuel generalizing c with
  | zero =>
    have hge : ¬ c.head < c.tail := by omega
    simp [carp_parse_arguments_after_separator_loop, hge]
  | succ fuel ih =>
    simp only [carp_parse_arguments_after_separator_loop]
    split
    · split
      · simp
      · exact ih _ (by simp only; omega)
    · simp

/-- A round of the driver that returns, started before `tail`: the cursor has moved
forward, not past `tail`; `argv` and `tail` are as before. -/
theorem carp_parse_step_ok (search : List Char → Option CarpOptionSpec)
    (c c1 : CarpPrivate) (tok : Token) (hlt : c.head < c.tail)
    (h : carp_parse_step search c tok = .ok c1) :
    c1.argv = c.argv ∧ c1.tail = c.tail ∧ c.head < c1.head ∧ c1.head ≤ c.tail := by
  simp only [carp_parse_step] at h
  split at h
  · obtain ⟨s1, s2, -, -, s5, s6, -, -⟩ := carp_parse_short_option_step search _ c1 h
    simp only at s1 s2 s5 s6
    exact ⟨s1, s2, s5, by omega⟩
  · obtain ⟨s1, s2, -, -, s5, s6, -, -⟩ := carp_parse_long_option_step search _ c1 h
    simp only at s1 s2 s5 s6
    exact ⟨s1, s2, s5, by omega⟩
  · obtain ⟨h1, h2, -, -, h5, -, h7⟩ :=
      carp_parse_arguments_after_separator_loop_inv _ _ c1 h
    simp only at h1 h2 h5 h7
    exact ⟨h1, h2, by omega, by rw [h7 (by omega)]⟩
  · simp only [Outcome.ok.injEq] at h
    subst h
    exact ⟨rfl, rfl, by simp, by simp only; omega⟩

/-- A round of the driver keeps an empty callback buffer empty. -/
theorem carp_parse_step_clean (search : List Char → Option CarpOptionSpec)
    (c c1 : CarpPrivate) (tok : Token) (hempty : c.callback_args.size = 0)
    (h : carp_parse_step search c tok = .ok c1) : c1.callback_args.size = 0 := by
  simp only [carp_parse_step] at h
  split at h
  · exact (carp_parse_short_option_clean search { c with token := some tok } c1 tok hempty
      rfl h).1
  · exact (carp_parse_long_option_clean search { c with token := some tok } c1 tok hempty
      rfl h).1
  · obtain ⟨-, -, h3, -⟩ := carp_parse_arguments_after_separator_loop_inv _ _ c1 h
    rw [h3]
    exact hempty
  · simp only [Outcome.ok.injEq] at h
    subst h
    exact hempty

/-- The state in which the loop of `carp_parse` returns is one of the states at the top of
the loop. -/
theorem carp_parse_loop_reachable (search : List Char → Option CarpOptionSpec)
    (argv : List Token) (fuel : Nat) (c c1 : CarpPrivate) (hc : Reachable search argv c)
    (h : carp_parse_loop search fuel c = .ok c1) : Reachable search argv c1 := by
  induction fuel generalizing c with
  | zero =>
    simp only [carp_parse_loop] at h
    split at h
    · simp at h
    · simp only [Outcome.ok.injEq] at h
      exact h ▸ hc
  | succ fuel ih =>
    simp only [carp_parse_loop] at h
    split at h
    · next hlt =>
      split at h
      · simp at h
      · next tok hget =>
        obtain ⟨c2, hstep, hrest⟩ := Outcome.bind_eq_ok _ _ _ h
        exact ih c2 (Reachable.step c c2 tok hc hlt hget hstep) hrest
    · simp only [Outcome.ok.injEq] at h
      exact h ▸ hc

theorem reachable_clean (search : List Char → Option CarpOptionSpec) (argv : List Token)
    (c : CarpPrivate) (hc : Reachable search argv c) : c.callback_args.size = 0 := by
  induction hc with
  | init => rfl
  | step c c1 tok _ _ _ hstep ih => exact carp_parse_step_clean search c c1 tok ih hstep

theorem reachable_bounds (search : List Char → Option CarpOptionSpec) (argv : List Token)
    (c : CarpPrivate) (hargc : 1 ≤ argv.length) (hc : Reachable search argv c) :
    c.argv = argv ∧ c.tail = argv.length ∧ 1 ≤ c.head ∧ c.head ≤ c.tail := by
  induction hc with
  | init => exact ⟨rfl, rfl, Nat.le_refl _, hargc⟩
  | step c c1 tok _ hlt _ hstep ih =>
    obtain ⟨h1, h2, h3, h4⟩ := carp_parse_step_ok search c c1 tok hlt hstep
    obtain ⟨i1, i2, i3, _⟩ := ih
    exact ⟨by rw [h1, i1], by rw [h2, i2], by omega, by omega⟩

/-! ## The loops are not cut off -/

theorem Outcome.bind_ends {α β : Type} (x : Outcome α) (f : α → Outcome β)
    (hx : x ≠ .out_of_fuel) (hf : ∀ a, f a ≠ .out_of_fuel) : x.bind f ≠ .out_of_fuel := by
  cases x with
  | ok a => exact hf a
  | exit e c => simp [Outcome.bind]
  | invalid_read i c => simp [Outcome.bind]
  | out_of_fuel => exact absurd rfl hx

theorem fixed_loop_ends (n : Nat) (l : List Token) (head inc : Nat) (c : CarpPrivate) :
    fixed_loop n l head inc c ≠ .out_of_fuel := by
  induction n generalizing l head inc c with
  | zero => simp [fixed_loop]
  | succ n ih =>
    cases l with
    | nil => simp [fixed_loop]
    | cons t l =>
      simp only [fixed_loop]
      split
      · exact ih _ _ _ _
      · simp

theorem variadic_loop_ends (l : List Token) (head inc : Nat) (c : CarpPrivate) :
    variadic_loop l head inc c ≠ .out_of_fuel := by
  induction l generalizing head inc c with
  | nil => simp [variadic_loop]
  | cons t l ih =>
    simp only [variadic_loop]
    split
    · exact ih _ _ _
    · simp

theorem carp_option_argument_handler_ends (c : CarpPrivate) (n : Int)
    (immediate : Option (List Char)) :
    carp_option_argument_handler c n immediate ≠ .out_of_fuel := by
  rw [carp_option_argument_handler_eq]
  split
  · exact variadic_loop_ends _ _ _ _
  · exact fixed_loop_ends _ _ _ _ _

theorem carp_parse_short_option_loop_ends (search : List Char → Option CarpOptionSpec)
    (opt : List Char) (c : CarpPrivate) :
    carp_parse_short_option_loop search opt c ≠ .out_of_fuel := by
  induction opt generalizing c with
  | nil => simp [carp_parse_short_option_loop]
  | cons ch rest ih =>
    cases hs : search [ch] with
    | none => simp [carp_parse_short_option_loop, carp_backend_search, hs]
    | some spec =>
      by_cases ha : spec.arguments = 0
      · simp only [carp_parse_short_option_loop, carp_backend_search, hs, ha, if_true]
        exact ih _
      · rw [carp_parse_short_option_loop_arity search ch rest c spec hs ha]
        exact Outcome.bind_ends _ _ (carp_option_argument_handler_ends _ _ _)
          (fun a => by simp)

theorem carp_parse_short_option_ends (search : List Char → Option CarpOptionSpec)
    (c : CarpPrivate) : carp_parse_short_option search c ≠ .out_of_fuel := by
  unfold carp_parse_short_option
  split
  · simp
  · exact Outcome.bind_ends _ _ (carp_parse_short_option_loop_ends search _ c)
      (fun a => by simp)

theorem carp_parse_long_option_ends (search : List Char → Option CarpOptionSpec)
    (c : CarpPrivate) : carp_parse_long_option search c ≠ .out_of_fuel := by
  unfold carp_parse_long_option
  simp only [carp_backend_search]
  split
  · simp
  · split
    · split
      · simp
      · split
        · split
          · simp
          · exact Outcome.bind_ends _ _ (carp_option_argument_handler_ends _ _ _)
              (fun a => by simp)
        · simp
    · split
      · split
        · exact Outcome.bind_ends _ _ (carp_option_argument_handler_ends _ _ _)
            (fun a => by simp)
        · simp
      · simp

/-- A round of the driver returns, aborts, or stops at an invalid read. -/
theorem carp_parse_step_ends (search : List Char → Option CarpOptionSpec) (c : CarpPrivate)
    (tok : Token) : carp_parse_step search c tok ≠ .out_of_fuel := by
  simp only [carp_parse_step]
  split
  · exact carp_parse_short_option_ends search _
  · exact carp_parse_long_option_ends search _
  · exact carp_parse_arguments_after_separator_loop_ends _ _ (Nat.le_refl _)
  · simp

/-- The loop of `carp_parse` is not cut off when it may make `tail - head` rounds. -/
theorem carp_parse_loop_ends (search : List Char → Option CarpOptionSpec) (fuel : Nat)
    (c : CarpPrivate) (hfuel : c.tail - c.head ≤ fuel) :
    carp_parse_loop search fuel c ≠ .out_of_fuel := by
  induction fuel generalizing c with
  | zero =>
    have hge : ¬ c.head < c.tail := by omega
    simp [carp_parse_loop, hge]
  | succ fuel ih =>
    simp only [carp_parse_loop]
    split
    · next hlt =>
      split
      · simp
      · next tok hget =>
        cases hstep : carp_parse_step search c tok with
        | ok c1 =>
          obtain ⟨-, h2, h3, -⟩ := carp_parse_step_ok search c c1 tok hlt hstep
          simp only [Outcome.bind]
          exact ih c1 (by omega)
        | exit e c1 => simp [Outcome.bind]
        | invalid_read i c1 => simp [Outcome.bind]
        | out_of_fuel => exact absurd hstep (carp_parse_step_ends search c tok)
    · simp

/-- More rounds than `tail - head` change nothing. -/
theorem carp_parse_loop_fuel (search : List Char → Option CarpOptionSpec) (f1 f2 : Nat)
    (c : CarpPrivate) (h1 : c.tail - c.head ≤ f1) (h2 : c.tail - c.head ≤ f2) :
    carp_parse_loop search f1 c = carp_parse_loop search f2 c := by
  induction f1 generalizing f2 c with
  | zero =>
    have hge : ¬ c.head < c.tail := by omega
    rw [carp_parse_loop_done search 0 c hge, carp_parse_loop_done search f2 c hge]
  | succ f1 ih =>
    by_cases hlt : c.head < c.tail
    · cases f2 with
      | zero => omega
      | succ f2 =>
        simp only [carp_parse_loop, hlt, if_true]
        split
        · rfl
        · next tok hget =>
          cases hstep : carp_parse_step search c tok with
          | ok c1 =>
            obtain ⟨-, e2, e3, -⟩ := carp_parse_step_ok search c c1 tok hlt hstep
            simp only [Outcome.bind]
            exact ih f2 c1 (by omega) (by omega)
          | exit e c1 => simp [Outcome.bind]
          | invalid_read i c1 => simp [Outcome.bind]
          | out_of_fuel => simp [Outcome.bind]
    · rw [carp_parse_loop_done search _ c hlt, carp_parse_loop_done search f2 c hlt]

/-- The loop of `carp_parse` returns with the cursor at `tail`. -/
theorem carp_parse_loop_final (search : List Char → Option CarpOptionSpec) (fuel : Nat)
    (c c1 : CarpPrivate) (hle : c.head ≤ c.tail)
    (h : carp_parse_loop search fuel c = .ok c1) : c1.tail = c.tail ∧ c1.head = c.tail := by
  induction fuel generalizing c with
  | zero =>
    simp only [carp_parse_loop] at h
    split at h
    · simp at h
    · simp only [Outcome.ok.injEq] at h
      subst h
      exact ⟨rfl, by omega⟩
  | succ fuel ih =>
    simp only [carp_parse_loop] at h
    split at h
    · next hlt =>
      split at h
      · simp at h
      · next tok hget =>
        obtain ⟨c2, hstep, hrest⟩ := Outcome.bind_eq_ok _ _ _ h
        obtain ⟨-, e2, e3, e4⟩ := carp_parse_step_ok search c c2 tok hlt hstep
        obtain ⟨i1, i2⟩ := ih c2 (by omega) hrest
        exact ⟨by rw [i1, e2], by rw [i2, e2]⟩
    · simp only [Outcome.ok.injEq] at h
      subst h
      exact ⟨rfl, by omega⟩

/-! ## The buffer: reads by index -/

/-- The function `carp_vector_at` on an index that is not negative: the item stored there
when the index is below `size`, `NULL` without a read of the buffer otherwise. -/
theorem carp_vector_at_natural (vec : CarpArgumentVector) (h : vec.Valid) (i : Nat) :
    (i < vec.size → ∃ elem, vec.items[i]? = some elem ∧
      carp_vector_at vec (i : Int) = .item elem) ∧
    (vec.size ≤ i → carp_vector_at vec (i : Int) = .null) := by
  have hv : vec.size ≤ vec.buf.length := h
  constructor
  · intro hi
    have hlt : i < vec.buf.length := by omega
    have hc : (i : Int) < (vec.size : Int) := by exact_mod_cast hi
    refine ⟨vec.buf[i], ?_, ?_⟩
    · rw [CarpArgumentVector.items, List.getElem?_take_of_lt hi, List.getElem?_eq_getElem hlt]
    · have hl : load vec.buf (i : Int) = .item vec.buf[i] := by
        show load vec.buf (Int.ofNat i) = _
        simp [load, List.getElem?_eq_getElem hlt]
      simp [carp_vector_at, hc, hl]
  · intro hi
    have hc : ¬ (i : Int) < (vec.size : Int) := by
      intro hlt
      have : i < vec.size := by exact_mod_cast hlt
      omega
    simp [carp_vector_at, hc]

/-! ## The arity resolver at the end of the input -/

/-- The arity resolver, called on an option token that is followed by plain arguments only,
up to the end of `argv`, and that needs more than there are (the variadic arity always
does): it classifies the entry at index `tail`, after the last token. -/
theorem carp_option_argument_handler_end_of_input (c : CarpPrivate) (n : Int)
    (immediate : Option (List Char)) (htail : c.tail = c.argv.length)
    (hhead : c.head < c.tail)
    (hplain : ∀ t ∈ c.argv.drop (c.head + 1), carp_classify_token t = TOKEN_ARGUMENT)
    (hneed : n = -1 ∨
      ((c.argv.drop (c.head + 1)).length : Int) < n - (immediate_args immediate).length) :
    ∃ c1, carp_option_argument_handler c n immediate = .invalid_read c.tail c1 := by
  have hlen : c.head + 1 + (c.argv.drop (c.head + 1)).length = c.tail := by
    rw [List.length_drop]; omega
  rw [carp_option_argument_handler_eq]
  by_cases hn : n = -1
  · rw [if_pos hn, variadic_loop_runs_out _ _ _ _ hplain (by simp only; omega), hlen]
    exact ⟨_, rfl⟩
  · have hlt : (c.argv.drop (c.head + 1)).length <
        (n - (immediate_args immediate).length).toNat := by
      rcases hneed with h | h
      · exact absurd h hn
      · omega
    rw [if_neg hn, fixed_loop_runs_out _ _ _ _ _ hlt hplain (by simp only; omega), hlen]
    exact ⟨_, rfl⟩

/-! ## The buffer: size and capacity -/

/-- A push on a vector with `size ≤ capacity` and a capacity of 1 at least keeps both, and
stores the item at an index below the capacity. -/
theorem carp_vector_push_bounds (vec : CarpArgumentVector) (elem : Token)
    (hcap : 1 ≤ vec.capacity) (hsize : vec.size ≤ vec.capacity) :
    1 ≤ (carp_vector_push vec elem).capacity ∧
    vec.size < (carp_vector_push vec elem).capacity ∧
    (carp_vector_push vec elem).size ≤ (carp_vector_push vec elem).capacity := by
  have hs := carp_vector_push_size vec elem
  by_cases he : vec.size = vec.capacity
  · have hc : (carp_vector_push vec elem).capacity = vec.capacity * 2 := by
      simp [carp_vector_push, he, resize]
    omega
  · have hc : (carp_vector_push vec elem).capacity = vec.capacity := by
      simp [carp_vector_push, he]
    omega

/-- A pop keeps `size ≤ capacity`; the capacity it leaves may be 0. -/
theorem carp_vector_pop_bounds (vec : CarpArgumentVector)
    (hsize : vec.size ≤ vec.capacity) :
    (carp_vector_pop vec).1.size ≤ (carp_vector_pop vec).1.capacity := by
  by_cases h0 : vec.size = 0
  · simp [carp_vector_pop, h0]
  · simp only [carp_vector_pop, h0, if_false]
    split
    · next hq =>
      simp only [resize]
      omega
    · simp only
      omega

/-- Pushes alone, as the parser makes them on a vector of capacity 25, keep
`size ≤ capacity`. -/
theorem push_all_bounds (args : List Token) (vec : CarpArgumentVector)
    (hcap : 1 ≤ vec.capacity) (hsize : vec.size ≤ vec.capacity) :
    1 ≤ (push_all vec args).capacity ∧
    (push_all vec args).size ≤ (push_all vec args).capacity := by
  induction args generalizing vec with
  | nil => exact ⟨hcap, hsize⟩
  | cons a args ih =>
    obtain ⟨h1, -, h3⟩ := carp_vector_push_bounds vec a hcap hsize
    exact ih (carp_vector_push vec a) h1 h3

/-- With a `realloc` that returns memory for every request the two models of the vector
agree. -/
theorem run_calls_with_memory (vec : CarpArgumentVector) (calls : List VectorCall) :
    run_calls_with (fun _ => true) vec calls = run_calls vec calls := by
  induction calls generalizing vec with
  | nil => rfl
  | cons call calls ih =>
    have h : call.run_with (fun _ => true) vec = call.run vec := by
      cases call <;>
        simp [VectorCall.run_with, VectorCall.run, carp_vector_push_with, carp_vector_push,
          carp_vector_pop_with, carp_vector_pop, resize_with]
    simp only [run_calls_with, run_calls, List.foldl_cons, h]
    exact ih _

/-- On a C library whose `realloc` returns memory for a request of 0 bytes, `size ≤ capacity`
does not hold after every call: on a vector of capacity 1, a push and a pop leave the
capacity 0, and the next push doubles it to 0 and stores its item at index 0; the size is
then 1. From capacity 25 five pushes, each followed by a pop, lead to the same state. -/
theorem carp_vector_size_above_capacity :
    run_calls (carp_vector_init 1) [.push ['a'], .pop] = ⟨[], 0, 0⟩ ∧
    run_calls (carp_vector_init 1) [.push ['a'], .pop, .push ['b']] = ⟨[['b']], 0, 1⟩ ∧
    ¬ (run_calls (carp_vector_init 1) [.push ['a'], .pop, .push ['b']]).size ≤
        (run_calls (carp_vector_init 1) [.push ['a'], .pop, .push ['b']]).capacity ∧
    run_calls (carp_vector_init 25)
        [.push ['a'], .pop, .push ['a'], .pop, .push ['a'], .pop, .push ['a'], .pop,
          .push ['a'], .pop] = ⟨[], 0, 0⟩ ∧
    run_calls (carp_vector_init 25)
        [.push ['a'], .pop, .push ['a'], .pop, .push ['a'], .pop, .push ['a'], .pop,
          .push ['a'], .pop, .push ['b']] = ⟨[['b']], 0, 1⟩ := by
  refine ⟨?_, ?_, ?_, ?_, ?_⟩ <;> decide

theorem handed_call_flag (argv : List Token) (head head1 : Nat) (tok : List Char)
    (cb : Option Callback) :
    ∀ e ∈ callback_events head cb [] 0, HandedCall argv head head1 tok e := by
  cases cb with
  | none => simp [callback_events]
  | some f =>
    intro e he
    simp only [callback_events, List.take_nil, List.mem_singleton] at he
    subst he
    exact ⟨rfl, rfl, [], [], rfl, by simp, by simp, by simp, Or.inl rfl⟩

theorem handed_call_args (argv : List Token) (head : Nat) (tok : List Char)
    (cb : Option Callback) (immediate : Option (List Char)) (m : Nat)
    (himm : ∀ s, immediate = some s → s <:+ tok)
    (hm : m ≤ (argv.drop (head + 1)).length) :
    ∀ e ∈ callback_events head cb (immediate_args immediate ++ (argv.drop (head + 1)).take m)
      (immediate_args immediate ++ (argv.drop (head + 1)).take m).length,
      HandedCall argv head (head + (m + 1)) tok e := by
  cases cb with
  | none => simp [callback_events]
  | some f =>
    intro e he
    simp only [callback_events, List.take_length, List.mem_singleton] at he
    subst he
    have hlen : ((argv.drop (head + 1)).take m).length = m := by
      rw [List.length_take]
      exact Nat.min_eq_left hm
    refine ⟨rfl, rfl, immediate_args immediate, (argv.drop (head + 1)).take m, rfl, ?_, ?_,
      ?_, Or.inr ?_⟩
    · rcases immediate with _ | ⟨_ | ⟨ch, s⟩⟩ <;> simp [immediate_args]
    · intro s hs
      rcases immediate with _ | ⟨_ | ⟨ch, r⟩⟩
      · simp [immediate_args] at hs
      · simp [immediate_args] at hs
      · simp only [immediate_args, List.mem_singleton] at hs
        subst hs
        exact ⟨by simp, himm _ rfl⟩
    · rw [hlen]
    · rw [hlen]
      omega

/-- A return of the arity resolver followed by the dispatch, started with an empty callback
buffer: the handler gets the immediate value and the tokens counted in `head_increment`. -/
theorem handler_dispatch_handed (spec : CarpOptionSpec) (c0 c2 : CarpPrivate)
    (immediate : Option (List Char)) (inc : Nat) (tok : List Char)
    (hempty : c0.callback_args.size = 0) (himm : ∀ s, immediate = some s → s <:+ tok)
    (hrun : carp_option_argument_handler c0 spec.arguments immediate = .ok (c2, inc)) :
    c2.head = c0.head ∧ (dispatch spec c2).head = c0.head ∧
    ∃ evs, (dispatch spec c2).trace = c0.trace ++ evs ∧
      ∀ e ∈ evs, HandedCall c0.argv c0.head (c0.head + inc) tok e := by
  obtain ⟨m, h1, h2, -, -, h5, -, -⟩ :=
    carp_option_argument_handler_ok c0 c2 spec.arguments immediate inc hrun
  obtain ⟨d1, -, -, -, -, -, d7⟩ := dispatch_after_handler spec c0 c2 _ hempty h5
  subst h1
  exact ⟨by rw [h5], d7, _, d1,
    handed_call_args c0.argv c0.head tok spec.callback immediate m himm h2⟩

theorem carp_parse_short_option_loop_handed (search : List Char → Option CarpOptionSpec)
    (opt : List Char) (c0 c1 : CarpPrivate) (inc : Nat) (tok : List Char)
    (hempty : c0.callback_args.size = 0) (hopt : opt <:+ tok)
    (h : carp_parse_short_option_loop search opt c0 = .ok (c1, inc)) :
    c1.head = c0.head ∧
    ∃ evs, c1.trace = c0.trace ++ evs ∧
      ∀ e ∈ evs, HandedCall c0.argv c0.head (c0.head + inc) tok e := by
  induction opt generalizing c0 with
  | nil =>
    simp only [carp_parse_short_option_loop, Outcome.ok.injEq, Prod.mk.injEq] at h
    obtain ⟨rfl, -⟩ := h
    exact ⟨rfl, [], by simp, by simp⟩
  | cons ch rest ih =>
    have hrest : rest <:+ tok := (List.suffix_cons ch rest).trans hopt
    cases hs : search [ch] with
    | none => simp [carp_parse_short_option_loop, carp_backend_search, hs] at h
    | some spec =>
      by_cases ha : spec.arguments = 0
      · simp only [carp_parse_short_option_loop, carp_backend_search, hs, ha, if_true] at h
        obtain ⟨i1, evs, i2, i3⟩ := ih _ (by simpa [carp_callback_wrapper] using hempty) hrest h
        refine ⟨by simpa [carp_callback_wrapper] using i1,
          Event.search c0.head [ch] :: callback_events c0.head spec.callback [] 0 ++ evs,
          ?_, ?_⟩
        · rw [i2]; simp [carp_callback_wrapper]
        · intro e he
          simp only [List.cons_append, List.mem_cons, List.mem_append] at he
          rcases he with rfl | he | he
          · trivial
          · exact handed_call_flag _ _ _ _ _ e he
          · simpa [carp_callback_wrapper] using i3 e he
      · rw [carp_parse_short_option_loop_arity search ch rest c0 spec hs ha] at h
        obtain ⟨⟨c2, inc2⟩, hrun, hout⟩ := Outcome.bind_eq_ok _ _ _ h
        simp only [Outcome.ok.injEq, Prod.mk.injEq] at hout
        obtain ⟨rfl, rfl⟩ := hout
        obtain ⟨-, j0, evs, j2, j3⟩ := handler_dispatch_handed spec _ c2 (some rest) inc2 tok
          (by simpa using hempty) (by
            intro s hs2
            simp only [Option.some.injEq] at hs2
            subst hs2
            exact hrest) hrun
        refine ⟨j0, Event.search c0.head [ch] :: evs, ?_, ?_⟩
        · rw [j2]; simp
        · intro e he
          rcases List.mem_cons.mp he with rfl | he
          · trivial
          · exact j3 e he

theorem carp_parse_short_option_handed (search : List Char → Option CarpOptionSpec)
    (c c1 : CarpPrivate) (tok : List Char) (hempty : c.callback_args.size = 0)
    (htok : c.token = some tok) (h : carp_parse_short_option search c = .ok c1) :
    ∃ evs, c1.trace = c.trace ++ evs ∧
      ∀ e ∈ evs, HandedCall c.argv c.head c1.head tok e := by
  rw [carp_parse_short_option_eq search c tok htok] at h
  obtain ⟨⟨c2, inc⟩, hrun, hout⟩ := Outcome.bind_eq_ok _ _ _ h
  simp only [Outcome.ok.injEq] at hout
  obtain ⟨h1, evs, h2, h3⟩ := carp_parse_short_option_loop_handed search _ c c2 inc tok
    hempty (List.drop_suffix 1 tok) hrun
  rw [← hout]
  simp only [h1]
  exact ⟨evs, h2, h3⟩

theorem carp_parse_long_option_handed (search : List Char → Option CarpOptionSpec)
    (c c1 : CarpPrivate) (tok : List Char) (hempty : c.callback_args.size = 0)
    (htok : c.token = some tok) (h : carp_parse_long_option search c = .ok c1) :
    ∃ evs, c1.trace = c.trace ++ evs ∧
      ∀ e ∈ evs, HandedCall c.argv c.head c1.head tok e := by
  simp only [carp_parse_long_option, htok, carp_backend_search] at h
  have hsfx : ∀ k, (tok.drop 2).drop k <:+ tok :=
    fun k => (List.drop_suffix k _).trans (List.drop_suffix 2 tok)
  have hfinish : ∀ (spec : CarpOptionSpec) (name : List Char) (immediate : Option (List Char)),
      (∀ s, immediate = some s → s <:+ tok) →
      (carp_option_argument_handler
        { c with token := some tok, trace := c.trace ++ [Event.search c.head name] }
        spec.arguments immediate).bind
        (fun (r : CarpPrivate × Nat) =>
          Outcome.ok { dispatch spec r.1 with head := r.1.head + r.2 }) = .ok c1 →
      ∃ evs, c1.trace = c.trace ++ evs ∧
        ∀ e ∈ evs, HandedCall c.argv c.head c1.head tok e := by
    intro spec name immediate himm hb
    obtain ⟨⟨c2, inc⟩, hrun, hout⟩ := Outcome.bind_eq_ok _ _ _ hb
    simp only [Outcome.ok.injEq] at hout
    obtain ⟨j0, -, evs, j2, j3⟩ := handler_dispatch_handed spec _ c2 immediate inc tok
      (by simpa using hempty) himm hrun
    simp only at j0 j3
    rw [← hout]
    simp only [j0]
    refine ⟨Event.search c.head name :: evs, ?_, ?_⟩
    · simp only [j2]; simp
    · intro e he
      rcases List.mem_cons.mp he with rfl | he
      · trivial
      · exact j3 e he
  split at h
  · next diff hchr =>
    split at h
    · simp at h
    · split at h
      · next c2 spec heq =>
        simp only [Prod.mk.injEq] at heq
        obtain ⟨rfl, hspec⟩ := heq
        split at h
        · simp at h
        · exact hfinish spec _ _ (by
            intro s hs
            simp only [Option.some.injEq] at hs
            subst hs
            exact hsfx _) h
      · simp at h
  · split at h
    · next c2 spec heq =>
      simp only [Prod.mk.injEq] at heq
      obtain ⟨rfl, hspec⟩ := heq
      split at h
      · exact hfinish spec _ none (by intro s hs; cases hs) h
      · simp only [Outcome.ok.injEq] at h
        rw [← h]
        refine ⟨Event.search c.head ((tok.drop 2).take (strlen (tok.drop 2))) ::
            callback_events c.head spec.callback [] 0, by simp [carp_callback_wrapper], ?_⟩
        intro e he
        rcases List.mem_cons.mp he with rfl | he
        · trivial
        · exact handed_call_flag _ _ _ _ _ e he
    · simp at h

/-- One round of the loop of `carp_parse`, started with an empty callback buffer: every
event it adds to the trace belongs to an option token, and a handler call among them hands
over the immediate value and the tokens the cursor passes over. -/
theorem carp_parse_step_handed (search : List Char → Option CarpOptionSpec)
    (c c1 : CarpPrivate) (tok : Token) (hempty : c.callback_args.size = 0)
    (h : carp_parse_step search c tok = .ok c1) :
    ∃ evs, c1.trace = c.trace ++ evs ∧
      ∀ e ∈ evs, (carp_classify_token tok = TOKEN_SHORT_OPTION ∨
          carp_classify_token tok = TOKEN_LONG_OPTION) ∧
        HandedCall c.argv c.head c1.head tok e := by
  simp only [carp_parse_step] at h
  split at h
  · next hcls =>
    obtain ⟨evs, h1, h2⟩ := carp_parse_short_option_handed search
      { c with token := some tok } c1 tok hempty rfl h
    exact ⟨evs, h1, fun e he => ⟨Or.inl hcls, h2 e he⟩⟩
  · next hcls =>
    obtain ⟨evs, h1, h2⟩ := carp_parse_long_option_handed search
      { c with token := some tok } c1 tok hempty rfl h
    exact ⟨evs, h1, fun e he => ⟨Or.inr hcls, h2 e he⟩⟩
  · obtain ⟨-, -, -, h4, -⟩ := carp_parse_arguments_after_separator_loop_inv _ _ c1 h
    exact ⟨[], by simpa using h4, by simp⟩
  · simp only [Outcome.ok.injEq] at h
    subst h
    exact ⟨[], by simp, by simp⟩

/-- The loop of `carp_parse`, started with an empty callback buffer: every handler call it
adds to the trace is made in one of its rounds on an option token, with the immediate
value and the tokens the cursor passes over in that round. -/
theorem carp_parse_loop_handed (search : List Char → Option CarpOptionSpec) (fuel : Nat)
    (c c1 : CarpPrivate) (hempty : c.callback_args.size = 0)
    (h : carp_parse_loop search fuel c = .ok c1) :
    ∃ evs, c1.trace = c.trace ++ evs ∧
      ∀ e ∈ evs, ∃ (a a1 : CarpPrivate) (tok : Token), RunFrom search c a ∧
        a.head < a.tail ∧ a.argv[a.head]? = some tok ∧
        (carp_classify_token tok = TOKEN_SHORT_OPTION ∨
          carp_classify_token tok = TOKEN_LONG_OPTION) ∧
        carp_parse_step search a tok = .ok a1 ∧ HandedCall a.argv a.head a1.head tok e := by
  induction fuel generalizing c with
  | zero =>
    simp only [carp_parse_loop] at h
    split at h
    · simp at h
    · simp only [Outcome.ok.injEq] at h
      subst h
      exact ⟨[], by simp, by simp⟩
  | succ fuel ih =>
    simp only [carp_parse_loop] at h
    split at h
    · next hlt =>
      split at h
      · simp at h
      · next tok hget =>
        obtain ⟨c2, hstep, hrest⟩ := Outcome.bind_eq_ok _ _ _ h
        obtain ⟨evs0, s1, s2⟩ := carp_parse_step_handed search c c2 tok hempty hstep
        obtain ⟨evs2, i1, i2⟩ :=
          ih c2 (carp_parse_step_clean search c c2 tok hempty hstep) hrest
        refine ⟨evs0 ++ evs2, by rw [i1, s1, List.append_assoc], ?_⟩
        intro e he
        rcases List.mem_append.mp he with he | he
        · exact ⟨c, c2, tok, RunFrom.refl c, hlt, hget, (s2 e he).1, hstep, (s2 e he).2⟩
        · obtain ⟨a, a1, tok1, r1, r2, r3, r4, r5, r6⟩ := i2 e he
          exact ⟨a, a1, tok1, RunFrom.step c c2 a tok hlt hget hstep r1, r2, r3, r4, r5, r6⟩
    · simp only [Outcome.ok.injEq] at h
      subst h
      exact ⟨[], by simp, by simp⟩

/-! ## The residual list as a selection of indices -/

theorem RunFrom.snoc (search : List Char → Option CarpOptionSpec) (c a a1 : CarpPrivate)
    (tok : Token) (hrun : RunFrom search c a) (hlt : a.head < a.tail)
    (hget : a.argv[a.head]? = some tok) (hstep : carp_parse_step search a tok = .ok a1) :
    RunFrom search c a1 := by
  induction hrun with
  | refl c => exact RunFrom.step c a1 a1 tok hlt hget hstep (RunFrom.refl a1)
  | step c c1 a tok1 h1 h2 h3 _ ih => exact RunFrom.step c c1 a1 tok1 h1 h2 h3 (ih hlt hget hstep)

theorem reachable_runFrom (search : List Char → Option CarpOptionSpec) (argv : List Token)
    (a : CarpPrivate) (h : Reachable search argv a) :
    RunFrom search (carp_parse_init argv) a := by
  induction h with
  | init => exact RunFrom.refl _
  | step c c1 tok _ hlt hget hstep ih => exact RunFrom.snoc search _ c c1 tok ih hlt hget hstep

theorem runFrom_reachable (search : List Char → Option CarpOptionSpec) (argv : List Token)
    (c a : CarpPrivate) (hc : Reachable search argv c) (h : RunFrom search c a) :
    Reachable search argv a := by
  induction h with
  | refl c => exact hc
  | step c c1 a tok hlt hget hstep _ ih =>
    exact ih (Reachable.step c c1 tok hc hlt hget hstep)

theorem taken_iff_takenFrom (search : List Char → Option CarpOptionSpec) (argv : List Token)
    (j : Nat) : Taken search argv j ↔ TakenFrom search (carp_parse_init argv) j := by
  constructor
  · rintro ⟨a, ha, ht⟩
    exact ⟨a, reachable_runFrom search argv a ha, ht⟩
  · rintro ⟨a, ha, ht⟩
    exact ⟨a, runFrom_reachable search argv _ a Reachable.init ha, ht⟩

/-- The rounds keep `argv` and `tail`, and never move the cursor back. -/
theorem RunFrom.bounds (search : List Char → Option CarpOptionSpec) (c a : CarpPrivate)
    (h : RunFrom search c a) : a.argv = c.argv ∧ a.tail = c.tail ∧ c.head ≤ a.head := by
  induction h with
  | refl c => exact ⟨rfl, rfl, Nat.le_refl _⟩
  | step c c1 a tok hlt hget hstep _ ih =>
    obtain ⟨h1, h2, h3, -⟩ := carp_parse_step_ok search c c1 tok hlt hstep
    obtain ⟨i1, i2, i3⟩ := ih
    exact ⟨by rw [i1, h1], by rw [i2, h2], by omega⟩

/-- The tokens from index `a` on, read one index after the other. -/
theorem range_map_getElem (l : List Token) (a : Nat) :
    (List.range' a (l.length - a)).map (fun i => l[i]?) = (l.drop a).map some := by
  apply List.ext_getElem?
  intro n
  simp only [List.getElem?_map, List.getElem?_range', List.getElem?_drop]
  by_cases hn : n < l.length - a
  · have hlt : a + n < l.length := by omega
    simp [hn, List.getElem?_eq_getElem hlt]
  · have hge : l.length ≤ a + n := by omega
    simp [hn, List.getElem?_eq_none hge]
    omega

/-- One round of the loop of `carp_parse`: the indices `here` of the tokens it appends to
the residual buffer. A plain argument appends itself, an option appends nothing, the
separator appends every token after it. -/
theorem carp_parse_step_indices (search : List Char → Option CarpOptionSpec)
    (c c2 : CarpPrivate) (tok : Token) (htail : c.tail = c.argv.length)
    (hlt : c.head < c.tail) (hget : c.argv[c.head]? = some tok)
    (hbuf : c.command_args.buf.length = c.command_args.size)
    (hstep : carp_parse_step search c tok = .ok c2) :
    ∃ here : List Nat,
      c2.command_args.buf.map some =
        c.command_args.buf.map some ++ here.map (fun i => c.argv[i]?) ∧
      c2.command_args.buf.length = c2.command_args.size ∧
      here.Pairwise (· < ·) ∧ (∀ i ∈ here, c.head ≤ i ∧ i < c2.head) ∧
      (carp_classify_token tok = TOKEN_SHORT_OPTION ∨
        carp_classify_token tok = TOKEN_LONG_OPTION → here = []) ∧
      (carp_classify_token tok = TOKEN_ARGUMENT → here = [c.head]) := by
  simp only [carp_parse_step] at hstep
  split at hstep
  · next hcls =>
    obtain ⟨-, -, s3, -⟩ := carp_parse_short_option_step search _ c2 hstep
    simp only at s3
    exact ⟨[], by simp [s3], by rw [s3]; exact hbuf, List.Pairwise.nil, by simp,
      fun _ => rfl, fun h => by rw [hcls] at h; cases h⟩
  · next hcls =>
    obtain ⟨-, -, s3, -⟩ := carp_parse_long_option_step search _ c2 hstep
    simp only at s3
    exact ⟨[], by simp [s3], by rw [s3]; exact hbuf, List.Pairwise.nil, by simp,
      fun _ => rfl, fun h => by rw [hcls] at h; cases h⟩
  · next hcls =>
    obtain ⟨c3, h0, -, -, -, h5, -, -, h8, h9⟩ :=
      carp_parse_arguments_after_separator_loop_ok
        (({ c with token := some tok, head := c.head + 1 } : CarpPrivate).tail -
          ({ c with token := some tok, head := c.head + 1 } : CarpPrivate).head)
        { c with token := some tok, head := c.head + 1 } (Nat.le_refl _) htail hbuf
    have he : c3 = c2 := by
      unfold carp_parse_arguments_after_separator at hstep
      rw [h0] at hstep
      exact Outcome.ok.inj hstep
    subst he
    simp only at h5 h8
    have hhead : c3.head = c.tail := h5 (by omega)
    refine ⟨List.range' (c.head + 1) (c.argv.length - (c.head + 1)), ?_, h9,
      List.pairwise_lt_range' _ _, ?_, ?_, fun h => by rw [hcls] at h; cases h⟩
    · rw [h8, List.map_append, range_map_getElem]
    · intro i hi
      rw [List.mem_range'_1] at hi
      omega
    · intro h
      rcases h with h | h <;> rw [hcls] at h <;> cases h
  · next hcls =>
    simp only [Outcome.ok.injEq] at hstep
    subst hstep
    refine ⟨[c.head], ?_, ?_, List.pairwise_singleton _ _, ?_, ?_, fun _ => rfl⟩
    · simp only [carp_vector_push_buf _ _ hbuf, List.map_append, List.map_cons, List.map_nil,
        hget]
    · simp only [carp_vector_push_buf _ _ hbuf, carp_vector_push_size]
      simp [hbuf]
    · intro i hi
      simp only [List.mem_singleton] at hi
      subst hi
      exact ⟨Nat.le_refl _, Nat.lt_succ_self _⟩
    · intro h
      rcases h with h | h <;> rw [hcls] at h <;> cases h

/-- The loop of `carp_parse` from a state at the top of the loop: the indices of the
tokens it appends to the residual buffer. -/
theorem carp_parse_loop_indices (search : List Char → Option CarpOptionSpec)
    (argv : List Token) (fuel : Nat) (c c1 : CarpPrivate)
    (hargv : c.argv = argv) (htail : c.tail = argv.length)
    (hbuf : c.command_args.buf.length = c.command_args.size)
    (h : carp_parse_loop search fuel c = .ok c1) :
    ∃ idx : List Nat, idx.Pairwise (· < ·) ∧
      (∀ i ∈ idx, c.head ≤ i ∧ i < argv.length) ∧
      c1.command_args.buf.map some =
        c.command_args.buf.map some ++ idx.map (fun i => argv[i]?) ∧
      c1.command_args.buf.length = c1.command_args.size ∧
      (∀ j, TakenFrom search c j → j ∉ idx) ∧
      (∀ j, c.head ≤ j → j < argv.length →
        (∃ t, argv[j]? = some t ∧ carp_classify_token t = TOKEN_ARGUMENT) →
        (∀ s, c.head ≤ s → s < j → argv[s]? ≠ some ['-', '-']) →
        ¬ TakenFrom search c j → j ∈ idx) := by
  induction fuel generalizing c with
  | zero =>
    simp only [carp_parse_loop] at h
    split at h
    · simp at h
    · next hge =>
      simp only [Outcome.ok.injEq] at h
      subst h
      exact ⟨[], List.Pairwise.nil, by simp, by simp, hbuf, by simp,
        fun j h1 h2 _ _ _ => by omega⟩
  | succ fuel ih =>
    simp only [carp_parse_loop] at h
    split at h
    · next hlt =>
      split at h
      · simp at h
      · next tok hget =>
        obtain ⟨c2, hstep, hrest⟩ := Outcome.bind_eq_ok _ _ _ h
        obtain ⟨s1, s2, s3, s4⟩ := carp_parse_step_ok search c c2 tok hlt hstep
        obtain ⟨here, r1, r2, r3, r4, r5, r6⟩ :=
          carp_parse_step_indices search c c2 tok (by rw [htail, hargv]) hlt hget hbuf hstep
        obtain ⟨idx2, i1, i2, i3, i4, i5, i6⟩ :=
          ih c2 (by rw [s1, hargv]) (by rw [s2, htail]) r2 hrest
        rw [hargv] at r1 hget
        refine ⟨here ++ idx2, ?_, ?_, ?_, i4, ?_, ?_⟩
        · rw [List.pairwise_append]
          refine ⟨r3, i1, fun a ha b hb => ?_⟩
          have := (r4 a ha).2
          have := (i2 b hb).1
          omega
        · intro i hi
          rcases List.mem_append.mp hi with hi | hi
          · have := r4 i hi
            omega
          · have := i2 i hi
            omega
        · rw [i3, r1, List.map_append, List.append_assoc]
        · rintro j ⟨a, hrun, a1, tok1, t1, t2, t3, t4, t5, t6⟩ hj
          cases hrun with
          | refl =>
            rw [hargv, hget] at t2
            cases t2
            rw [hstep] at t4
            cases t4
            rw [r5 t3] at hj
            rcases List.mem_append.mp hj with hj | hj
            · simp at hj
            · have := (i2 j hj).1
              omega
          | step _ c3 _ tok3 u1 u2 u3 u4 =>
            rw [hargv, hget] at u2
            cases u2
            rw [hstep] at u3
            cases u3
            have hb := (RunFrom.bounds search c2 a u4).2.2
            rcases List.mem_append.mp hj with hj | hj
            · have := (r4 j hj).2
              omega
            · exact i5 j ⟨a, u4, a1, tok1, t1, t2, t3, t4, t5, t6⟩ hj
        · intro j h1 h2 h3 h4 h5
          obtain ⟨t, ht, hcls⟩ := h3
          have hfrom : ¬ TakenFrom search c2 j := by
            rintro ⟨a, hrun, ht⟩
            exact h5 ⟨a, RunFrom.step c c2 a tok hlt (by rw [hargv]; exact hget) hstep hrun,
              ht⟩
          have hnext : c2.head ≤ j → j ∈ here ++ idx2 := fun hle =>
            List.mem_append_right _
              (i6 j hle h2 ⟨t, ht, hcls⟩ (fun s hs1 hs2 => h4 s (by omega) hs2) hfrom)
          cases hc : carp_classify_token tok with
          | TOKEN_ARGUMENT =>
            rw [r6 hc]
            rcases Nat.eq_or_lt_of_le h1 with he | hl
            · simp [he]
            · rw [← r6 hc]
              have hs : c2.head = c.head + 1 := by
                simp only [carp_parse_step, hc, Outcome.ok.injEq] at hstep
                rw [← hstep]
              exact hnext (by omega)
          | TOKEN_SEPARATOR =>
            have hsep := eq_of_classify_separator tok hc
            rcases Nat.eq_or_lt_of_le h1 with he | hl
            · rw [← he, hget] at ht
              cases ht
              rw [hc] at hcls
              cases hcls
            · exact absurd (by rw [hget, hsep]) (h4 c.head (Nat.le_refl _) hl)
          | TOKEN_SHORT_OPTION =>
            rcases Nat.eq_or_lt_of_le h1 with he | hl
            · rw [← he, hget] at ht
              cases ht
              rw [hc] at hcls
              cases hcls
            · rcases Nat.lt_or_ge j c2.head with hjl | hjg
              · exact absurd ⟨c, RunFrom.refl c, c2, tok, hlt, by rw [hargv]; exact hget,
                  Or.inl hc, hstep, hl, hjl⟩ h5
              · exact hnext hjg
          | TOKEN_LONG_OPTION =>
            rcases Nat.eq_or_lt_of_le h1 with he | hl
            · rw [← he, hget] at ht
              cases ht
              rw [hc] at hcls
              cases hcls
            · rcases Nat.lt_or_ge j c2.head with hjl | hjg
              · exact absurd ⟨c, RunFrom.refl c, c2, tok, hlt, by rw [hargv]; exact hget,
                  Or.inr hc, hstep, hl, hjl⟩ h5
              · exact hnext hjg
    · next hge =>
      simp only [Outcome.ok.injEq] at h
      subst h
      exact ⟨[], List.Pairwise.nil, by simp, by simp, hbuf, by simp,
        fun j h1 h2 _ _ _ => by omega⟩

/-- On `prog f1 --foo v f2 -- -a` with `foo` of arity 1, the token `v` at index 3 is taken
by `--foo`: the round at index 2 moves the cursor to 4. -/
theorem taken_following_token :
    Taken (test_backend_search g_table_parse)
      (tokens ["prog", "f1", "--foo", "v", "f2", "--", "-a"]) 3 :=
  ⟨{ carp_parse_init (tokens ["prog", "f1", "--foo", "v", "f2", "--", "-a"]) with
      token := some ['f', '1'], command_args := ⟨tokens ["f1"], 25, 1⟩, head := 2 },
    Reachable.step _ _ ['f', '1'] Reachable.init (by decide) (by decide) (by decide),
    { carp_parse_init (tokens ["prog", "f1", "--foo", "v", "f2", "--", "-a"]) with
      token := some ['-', '-', 'f', 'o', 'o'], command_args := ⟨tokens ["f1"], 25, 1⟩,
      callback_args := ⟨tokens ["v"], 25, 0⟩, head := 4,
      trace := [.search 2 ['f', 'o', 'o'], .call 2 carp_callback_override (tokens ["v"]) 1] },
    ['-', '-', 'f', 'o', 'o'], by decide, by decide, Or.inr (by decide), by decide,
    by decide, by decide⟩

/-! ## The claims -/

/-- C1: `carp_classify_token` is a total function, so every token has exactly one category:
`"--"` itself is the separator, every other token starting with `"--"` (it is longer than two
characters) is a long option, every other token starting with `"-"` (the lone `"-"` among
them) is a short option, and every remaining token (the empty one among them) is a plain
argument. -/
theorem carp_classify_token_spec (token : Token) :
    (carp_classify_token token = TOKEN_SEPARATOR ↔ token = ['-', '-']) ∧
    (carp_classify_token token = TOKEN_LONG_OPTION ↔
      (['-', '-'] <+: token ∧ token ≠ ['-', '-'])) ∧
    (carp_classify_token token = TOKEN_LONG_OPTION → 2 < token.length) ∧
    (carp_classify_token token = TOKEN_SHORT_OPTION ↔
      (['-'] <+: token ∧ ¬ ['-', '-'] <+: token)) ∧
    (carp_classify_token token = TOKEN_ARGUMENT ↔ ¬ ['-'] <+: token) ∧
    carp_classify_token ['-'] = TOKEN_SHORT_OPTION ∧
    carp_classify_token [] = TOKEN_ARGUMENT := by
  refine ⟨?_, ?_, ?_, ?_, ?_, by decide, by decide⟩ <;>
    rcases token with _ | ⟨a, _ | ⟨b, _ | ⟨c, rest⟩⟩⟩ <;>
    simp [carp_classify_token, strncmp_eq, strlen, List.prefix_cons_iff] <;>
    (try by_cases ha : a = '-') <;> (try by_cases hb : b = '-') <;>
    simp_all [eq_comm]

/-- C2: the end-to-end scenario. With `a`, `b`, `c` of arity 0, `foo` of arity 1 and `x` of
arity 3, `carp_parse` completes on the scenario of the specification, on its variant that
writes the `x` option as `-xarg1 arg2 arg3`, and on the argument vector of the test
`test carp_parse()`; each time the residual list is the six `cmd` tokens, in order, with
count 6, and the handlers were called for `a`, `b`, `c`, `foo` and `x`. -/
theorem carp_parse_end_to_end :
    carp_parse (test_backend_search g_table_parse)
        (tokens ["prog", "-abc", "cmd1", "--foo=v1", "cmd2", "-x", "p1", "p2", "p3", "cmd3",
          "cmd4", "--", "cmd5", "cmd6"]) =
      .ok (⟨tokens ["cmd1", "cmd2", "cmd3", "cmd4", "cmd5", "cmd6"], 6⟩,
        [.search 1 ['a'], .call 1 carp_callback_override [] 0,
         .search 1 ['b'], .call 1 carp_callback_override [] 0,
         .search 1 ['c'], .call 1 carp_callback_override [] 0,
         .search 3 ['f', 'o', 'o'], .call 3 carp_callback_override (tokens ["v1"]) 1,
         .search 5 ['x'], .call 5 carp_callback_override (tokens ["p1", "p2", "p3"]) 3]) ∧
    carp_parse (test_backend_search g_table_parse)
        (tokens ["prog", "-abc", "cmd1", "--foo=v1", "cmd2", "-xarg1", "arg2", "arg3", "cmd3",
          "cmd4", "--", "cmd5", "cmd6"]) =
      .ok (⟨tokens ["cmd1", "cmd2", "cmd3", "cmd4", "cmd5", "cmd6"], 6⟩,
        [.search 1 ['a'], .call 1 carp_callback_override [] 0,
         .search 1 ['b'], .call 1 carp_callback_override [] 0,
         .search 1 ['c'], .call 1 carp_callback_override [] 0,
         .search 3 ['f', 'o', 'o'], .call 3 carp_callback_override (tokens ["v1"]) 1,
         .search 5 ['x'],
         .call 5 carp_callback_override (tokens ["arg1", "arg2", "arg3"]) 3]) ∧
    carp_parse (test_backend_search g_table_parse)
        (tokens ["a.out", "-abc", "cmd_arg1", "--foo=argument1", "cmd_arg2", "-xarg1", "arg2",
          "arg3", "cmd_arg3", "cmd_arg4", "--", "cmd_arg5", "cmd_arg6"]) =
      .ok (⟨tokens ["cmd_arg1", "cmd_arg2", "cmd_arg3", "cmd_arg4", "cmd_arg5", "cmd_arg6"], 6⟩,
        [.search 1 ['a'], .call 1 carp_callback_override [] 0,
         .search 1 ['b'], .call 1 carp_callback_override [] 0,
         .search 1 ['c'], .call 1 carp_callback_override [] 0,
         .search 3 ['f', 'o', 'o'], .call 3 carp_callback_override (tokens ["argument1"]) 1,
         .search 5 ['x'],
         .call 5 carp_callback_override (tokens ["arg1", "arg2", "arg3"]) 3]) := by
  refine ⟨?_, ?_, ?_⟩ <;> decide

/-- C3: when `carp_parse` completes and `i ≥ 1` is the least index with `argv[i]` equal to
`"--"`, the residual list is `pre ++ [argv[i+1], ..., argv[argc-1]]`: it ends with exactly
the tokens after the separator, in their order and whatever their leading markers, while
`pre` is made of plain arguments that stand before the separator, in their order, so the
separator token itself is not in the list. Every lookup and every handler call was made
while parsing a token of index below `i`: none for a token after the separator. -/
theorem carp_parse_separator (search : List Char → Option CarpOptionSpec)
    (argv : List Token) (i : Nat) (carp : Carp) (trace : List Event)
    (hi : 1 ≤ i) (hsep : argv[i]? = some ['-', '-'])
    (hfirst : ∀ j, j < i → 1 ≤ j → argv[j]? ≠ some ['-', '-'])
    (hok : carp_parse search argv = .ok (carp, trace)) :
    ∃ pre : List Token,
      carp.argv = pre ++ argv.drop (i + 1) ∧
      carp.argc = pre.length + (argv.length - (i + 1)) ∧
      pre.Sublist ((argv.take i).drop 1) ∧
      (∀ t ∈ pre, carp_classify_token t = TOKEN_ARGUMENT) ∧
      (∀ e ∈ trace, e.head < i) := by
  simp only [carp_parse] at hok
  obtain ⟨c1, hloop, hout⟩ := Outcome.bind_eq_ok _ _ _ hok
  simp only [Outcome.ok.injEq, Prod.mk.injEq] at hout
  obtain ⟨hcarp, htrace⟩ := hout
  obtain ⟨pre, evs, r1, r2, r3, r4, r5, r6, -⟩ := carp_parse_loop_separator search i
    argv.length (carp_parse_init argv) c1 hsep (fun j h1 h2 => hfirst j h2 h1) hi rfl rfl hloop
  simp only [carp_parse_init, carp_vector_init, List.nil_append] at r1 r3 r5 r6
  refine ⟨pre, ?_, ?_, r3, r4, ?_⟩
  · rw [← hcarp]; exact r1
  · rw [← hcarp]
    simp only
    rw [← r2, r1]
    simp
  · intro e he
    rw [← htrace, r5] at he
    exact (r6 e he).2

/-- C3, on an argument vector: the separator is at index 3, the tokens after it, an option
and a second `--` among them, are returned as they are. -/
theorem carp_parse_separator_witness :
    1 ≤ 3 ∧
    (tokens ["prog", "-a", "x", "--", "-b", "--", "--long"])[3]? = some ['-', '-'] ∧
    (∀ j, j < 3 → 1 ≤ j →
      (tokens ["prog", "-a", "x", "--", "-b", "--", "--long"])[j]? ≠ some ['-', '-']) ∧
    carp_parse (test_backend_search (g_table_one "a" 0))
        (tokens ["prog", "-a", "x", "--", "-b", "--", "--long"]) =
      .ok (⟨tokens ["x", "-b", "--", "--long"], 4⟩,
        [.search 1 ['a'], .call 1 carp_callback_override [] 0]) ∧
    ∃ pre : List Token,
      tokens ["x", "-b", "--", "--long"] =
        pre ++ (tokens ["prog", "-a", "x", "--", "-b", "--", "--long"]).drop (3 + 1) ∧
      4 = pre.length + ((tokens ["prog", "-a", "x", "--", "-b", "--", "--long"]).length -
        (3 + 1)) ∧
      pre.Sublist (((tokens ["prog", "-a", "x", "--", "-b", "--", "--long"]).take 3).drop 1) ∧
      (∀ t ∈ pre, carp_classify_token t = TOKEN_ARGUMENT) ∧
      (∀ e ∈ [Event.search 1 ['a'], Event.call 1 carp_callback_override [] 0],
        e.head < 3) :=
  ⟨by decide, by decide, by decide, by decide,
    carp_parse_separator (test_backend_search (g_table_one "a" 0))
      (tokens ["prog", "-a", "x", "--", "-b", "--", "--long"]) 3
      ⟨tokens ["x", "-b", "--", "--long"], 4⟩
      [.search 1 ['a'], .call 1 carp_callback_override [] 0]
      (by decide) (by decide) (by decide) (by decide)⟩

/-- C4: when every token of the argument vector after the program name is a plain argument,
`carp_parse` completes for every option table, makes no lookup and calls no handler, and
returns as residual list the tokens `argv[1], ..., argv[argc-1]` in order, with count
`argc - 1`. -/
theorem carp_parse_all_plain (search : List Char → Option CarpOptionSpec)
    (argv : List Token)
    (hplain : ∀ t ∈ argv.drop 1, carp_classify_token t = TOKEN_ARGUMENT) :
    carp_parse search argv = .ok (⟨argv.drop 1, argv.length - 1⟩, []) := by
  obtain ⟨c1, h1, -, h3, -, h5, h6⟩ := carp_parse_loop_plain search argv.length
    (carp_parse_init argv) (by simp [carp_parse_init]) rfl rfl hplain
  simp only [carp_parse, h1, Outcome.bind, Outcome.ok.injEq, Prod.mk.injEq, Carp.mk.injEq]
  refine ⟨⟨?_, ?_⟩, ?_⟩
  · simpa [carp_parse_init, carp_vector_init] using h5
  · rw [← h6, h5]
    simp [carp_parse_init, carp_vector_init]
  · simpa [carp_parse_init] using h3

/-- C4, on `prog file1 file2` with no option declared: the residual list is
`["file1", "file2"]`. -/
theorem carp_parse_all_plain_witness :
    (∀ t ∈ (tokens ["prog", "file1", "file2"]).drop 1,
      carp_classify_token t = TOKEN_ARGUMENT) ∧
    carp_parse (fun _ => none) (tokens ["prog", "file1", "file2"]) =
      .ok (⟨tokens ["file1", "file2"], 2⟩, []) :=
  ⟨by decide, carp_parse_all_plain (fun _ => none) (tokens ["prog", "file1", "file2"])
    (by decide)⟩

/-- C5: the short option `-afile1` with `a` of fixed arity 2, as the last token. The
immediate value is the first argument; for the second one `carp_option_argument_handler`
classifies `argv[2]`, which is past the last token (`tail = 2`), before it tests
`head < tail`: the run ends in undefined behaviour, not in a call of
`carp_exit_with_error` with `ERROR_NOT_ENOUGH_ARGUMENTS`. When the token that is missing is
followed by another option, the abort is the one expected. -/
theorem carp_parse_short_option_runs_out :
    carp_parse_short_option (test_backend_search (g_table_one "a" 2))
        (test_private (tokens ["prog", "-afile1"]) 1) =
      .invalid_read 2
        { test_private (tokens ["prog", "-afile1"]) 1 with
          callback_args := ⟨tokens ["file1"], 25, 1⟩
          trace := [.search 1 ['a']] } ∧
    carp_parse (test_backend_search (g_table_one "a" 2)) (tokens ["prog", "-afile1"]) =
      .invalid_read 2
        { test_private (tokens ["prog", "-afile1"]) 1 with
          callback_args := ⟨tokens ["file1"], 25, 1⟩
          trace := [.search 1 ['a']] } ∧
    carp_parse (test_backend_search (g_table_one "a" 2)) (tokens ["prog", "-afile1", "-a"]) =
      .exit ERROR_NOT_ENOUGH_ARGUMENTS
        { test_private (tokens ["prog", "-afile1", "-a"]) 1 with
          callback_args := ⟨tokens ["file1"], 25, 1⟩
          trace := [.search 1 ['a']] } := by
  refine ⟨?_, ?_, ?_⟩ <;> decide

/-- C6: a short-option token `-f1...fk g rest` (k ≥ 0) in which every `fi` has arity 0 and
`g` has a non-zero arity, parsed with an empty callback buffer. When
`carp_parse_short_option` returns, the calls it made are, in order: for each `fi` a lookup
and its handler with an empty argument list, then the lookup of `g` and its handler; no
character of `rest` is looked up. The handler of `g` gets `rest`, when non-empty, as its
first argument, then the plain-argument tokens `following` that stand right after the
option token, as many as the arity takes: for a fixed arity the number still required, for
the variadic arity up to a token that is not taken. The cursor moves by 1 plus the number
of those tokens. -/
theorem carp_parse_short_option_group (search : List Char → Option CarpOptionSpec)
    (c c1 : CarpPrivate) (fs : List (Char × Option Callback)) (g : Char) (rest : List Char)
    (gspec : CarpOptionSpec)
    (htok : c.token = some ('-' :: (fs.map Prod.fst ++ g :: rest)))
    (hfs : ∀ p ∈ fs, search [p.1] = some ⟨0, p.2⟩)
    (hg : search [g] = some gspec) (harity : gspec.arguments ≠ 0)
    (hempty : c.callback_args.size = 0)
    (hok : carp_parse_short_option search c = .ok c1) :
    ∃ following : List Token,
      following <+: c.argv.drop (c.head + 1) ∧
      (∀ t ∈ following, carp_classify_token t = TOKEN_ARGUMENT) ∧
      c1.head = c.head + 1 + following.length ∧
      c1.trace = c.trace ++ flag_events c.head fs ++
        Event.search c.head [g] ::
          callback_events c.head gspec.callback (immediate_args (some rest) ++ following)
            ((immediate_args (some rest)).length + following.length) ∧
      (gspec.arguments ≠ -1 →
        following.length = (gspec.arguments - (immediate_args (some rest)).length).toNat) ∧
      (gspec.arguments = -1 →
        ∃ t, c.argv[c.head + 1 + following.length]? = some t ∧
          ¬ (carp_classify_token t = TOKEN_ARGUMENT ∧
              c.head + 1 + following.length < c.tail)) ∧
      c1.callback_args.size = 0 ∧ c1.command_args = c.command_args ∧
      c1.argv = c.argv ∧ c1.tail = c.tail := by
  rw [carp_parse_short_option_eq search c _ htok, List.drop_succ_cons, List.drop_zero,
    carp_parse_short_option_loop_flags search fs (g :: rest) c hfs,
    carp_parse_short_option_loop_arity search g rest _ gspec hg harity] at hok
  dsimp only at hok
  generalize hc0 : CarpPrivate.mk c.argv c.callback_args c.command_args c.head c.tail c.token
    (c.trace ++ flag_events c.head fs ++ [Event.search c.head [g]]) = c0 at hok
  have hc0e : c0.callback_args.size = 0 := by rw [← hc0]; exact hempty
  have hargv : c0.argv = c.argv := by rw [← hc0]
  have hhead : c0.head = c.head := by rw [← hc0]
  have htail : c0.tail = c.tail := by rw [← hc0]
  have hcmd : c0.command_args = c.command_args := by rw [← hc0]
  have htrace : c0.trace = c.trace ++ flag_events c.head fs ++ [Event.search c.head [g]] := by
    rw [← hc0]
  cases hrun : carp_option_argument_handler c0 gspec.arguments (some rest) with
  | ok r =>
    obtain ⟨c2, inc⟩ := r
    rw [hrun] at hok
    simp only [Outcome.bind, Outcome.ok.injEq] at hok
    obtain ⟨m, h1, h2, h3, h4, h5, h6, h7⟩ :=
      carp_option_argument_handler_ok c0 c2 gspec.arguments (some rest) inc hrun
    obtain ⟨d1, d2, d3, d4, d5, d6, d7⟩ := dispatch_after_handler gspec c0 c2 _ hc0e h5
    have hlen : ((c.argv.drop (c.head + 1)).take m).length = m := by
      rw [List.length_take]
      rw [hargv, hhead] at h2
      omega
    rw [hargv, hhead] at h3 h7 d1
    rw [htail] at h7
    refine ⟨(c.argv.drop (c.head + 1)).take m, List.take_prefix _ _, h3, ?_, ?_, ?_, ?_, ?_,
      ?_, ?_, ?_⟩
    · rw [← hok, hlen]; simp only [d7, hhead]; omega
    · rw [← hok]
      simp only [d1, hlen, List.length_append, htrace]
      simp
    · rw [hlen]; exact h6
    · rw [hlen]; exact h7
    · rw [← hok]; exact d2
    · rw [← hok]; simp only [d3, hcmd]
    · rw [← hok]; simp only [d4, hargv]
    · rw [← hok]; simp only [d5, htail]
  | exit e c2 => rw [hrun] at hok; simp [Outcome.bind] at hok
  | invalid_read i c2 => rw [hrun] at hok; simp [Outcome.bind] at hok
  | out_of_fuel => rw [hrun] at hok; simp [Outcome.bind] at hok

/-- C6, on the test section `short option grouping`: `-xfv argument` with `x` of arity 0 and
`f` of arity 2 gives `f` the arguments `["v", "argument"]` and moves the cursor from 9 to
11. -/
theorem carp_parse_short_option_group_witness :
    (test_private argv_short 9).token =
      some ('-' :: ([('x', some carp_callback_override)].map Prod.fst ++ 'f' :: ['v'])) ∧
    (∀ p ∈ [('x', some carp_callback_override)],
      test_backend_search g_table_group [p.1] = some ⟨0, p.2⟩) ∧
    test_backend_search g_table_group ['f'] = some ⟨2, some carp_callback_override⟩ ∧
    (2 : Int) ≠ 0 ∧
    (test_private argv_short 9).callback_args.size = 0 ∧
    carp_parse_short_option (test_backend_search g_table_group) (test_private argv_short 9) =
      .ok { test_private argv_short 9 with
            head := 11
            callback_args := ⟨tokens ["v", "argument"], 25, 0⟩
            trace := [.search 9 ['x'], .call 9 carp_callback_override [] 0,
              .search 9 ['f'], .call 9 carp_callback_override (tokens ["v", "argument"]) 2] } ∧
    ∃ following : List Token,
      following <+: argv_short.drop (9 + 1) ∧
      (∀ t ∈ following, carp_classify_token t = TOKEN_ARGUMENT) ∧
      11 = 9 + 1 + following.length ∧
      [Event.search 9 ['x'], .call 9 carp_callback_override [] 0,
          .search 9 ['f'], .call 9 carp_callback_override (tokens ["v", "argument"]) 2] =
        [] ++ flag_events 9 [('x', some carp_callback_override)] ++
          Event.search 9 ['f'] ::
            callback_events 9 (some carp_callback_override)
              (immediate_args (some ['v']) ++ following)
              ((immediate_args (some ['v'])).length + following.length) ∧
      ((2 : Int) ≠ -1 →
        following.length = ((2 : Int) - (immediate_args (some ['v'])).length).toNat) ∧
      ((2 : Int) = -1 →
        ∃ t, argv_short[9 + 1 + following.length]? = some t ∧
          ¬ (carp_classify_token t = TOKEN_ARGUMENT ∧
              9 + 1 + following.length < argv_short.length)) ∧
      0 = 0 ∧ carp_vector_init 25 = carp_vector_init 25 ∧
      argv_short = argv_short ∧ argv_short.length = argv_short.length :=
  ⟨by decide, by decide, by decide, by decide, by decide, by decide,
    carp_parse_short_option_group (test_backend_search g_table_group)
      (test_private argv_short 9)
      { test_private argv_short 9 with
        head := 11
        callback_args := ⟨tokens ["v", "argument"], 25, 0⟩
        trace := [.search 9 ['x'], .call 9 carp_callback_override [] 0,
          .search 9 ['f'], .call 9 carp_callback_override (tokens ["v", "argument"]) 2] }
      [('x', some carp_callback_override)] 'f' ['v'] ⟨2, some carp_callback_override⟩
      (by decide) (by decide) (by decide) (by decide) (by decide) (by decide)⟩

/-- C7: a short-option token `-f1...fk` whose characters all look up to arity 0:
`carp_parse_short_option` looks up and calls each character's handler once, left to right,
each with an empty argument list (count 0), moves the cursor by exactly 1, and changes
nothing else: no following token is taken, the residual buffer and the callback buffer are
as before. -/
theorem carp_parse_short_option_flags (search : List Char → Option CarpOptionSpec)
    (c : CarpPrivate) (fs : List (Char × Option Callback))
    (htok : c.token = some ('-' :: fs.map Prod.fst))
    (hfs : ∀ p ∈ fs, search [p.1] = some ⟨0, p.2⟩) :
    carp_parse_short_option search c =
      .ok { c with head := c.head + 1, trace := c.trace ++ flag_events c.head fs } := by
  have h := carp_parse_short_option_loop_flags search fs [] c hfs
  rw [List.append_nil] at h
  simp [carp_parse_short_option, htok, h, carp_parse_short_option_loop, Outcome.bind]

/-- C7, on the test section `option with no arguments` (`-v`, `v` of arity 0): the handler
of `v` is called with no argument and the cursor moves from 1 to 2. -/
theorem carp_parse_short_option_flags_witness :
    (test_private argv_short 1).token =
      some ('-' :: [('v', some carp_callback_override)].map Prod.fst) ∧
    (∀ p ∈ [('v', some carp_callback_override)],
      test_backend_search (g_table_one "v" 0) [p.1] = some ⟨0, p.2⟩) ∧
    carp_parse_short_option (test_backend_search (g_table_one "v" 0))
        (test_private argv_short 1) =
      .ok { test_private argv_short 1 with
            head := 1 + 1
            trace := [] ++ flag_events 1 [('v', some carp_callback_override)] } ∧
    flag_events 1 [('v', some carp_callback_override)] =
      [.search 1 ['v'], .call 1 carp_callback_override [] 0] :=
  ⟨by decide, by decide,
    carp_parse_short_option_flags (test_backend_search (g_table_one "v" 0))
      (test_private argv_short 1) [('v', some carp_callback_override)] (by decide)
      (by decide),
    by decide⟩

/-- C8: a long option `--name=value` with a non-empty value, a name without `=` and arity
exactly 1, parsed with an empty callback buffer: `carp_parse_long_option` looks the name
up, calls the handler once with the argument list `[value]` (count 1), the value being
everything after the first `=`, and moves the cursor by exactly 1, whatever the tokens that
follow; the callback buffer is empty again and the residual buffer is unchanged. -/
theorem carp_parse_long_option_immediate (search : List Char → Option CarpOptionSpec)
    (c : CarpPrivate) (name value : List Char) (spec : CarpOptionSpec)
    (hname : '=' ∉ name) (hvalue : value ≠ [])
    (htok : c.token = some ('-' :: '-' :: (name ++ '=' :: value)))
    (hspec : search name = some spec) (harity : spec.arguments = 1)
    (hempty : c.callback_args.size = 0) :
    ∃ c1, carp_parse_long_option search c = .ok c1 ∧
      c1.head = c.head + 1 ∧
      c1.trace = c.trace ++
        Event.search c.head name :: callback_events c.head spec.callback [value] 1 ∧
      c1.callback_args.size = 0 ∧
      c1.command_args = c.command_args ∧
      c1.argv = c.argv ∧ c1.tail = c.tail ∧ c1.token = c.token := by
  obtain ⟨ch, s, rfl⟩ : ∃ ch s, value = ch :: s := by
    cases value with
    | nil => exact absurd rfl hvalue
    | cons ch s => exact ⟨ch, s, rfl⟩
  have hvalid : c.callback_args.Valid := by
    simp [CarpArgumentVector.Valid, hempty]
  have hitems := carp_vector_push_items c.callback_args (ch :: s) hvalid
  have hsize := carp_vector_push_size c.callback_args (ch :: s)
  rw [hempty] at hsize
  simp only [CarpArgumentVector.items, hempty, List.take_zero, List.nil_append, hsize,
    Nat.zero_add] at hitems
  rw [carp_parse_long_option_eq search c name (ch :: s) hname htok, hspec]
  simp only [harity, carp_option_argument_handler, fixed_loop, Outcome.bind]
  refine ⟨_, by simp; rfl, ?_, ?_, ?_, ?_, ?_, ?_, ?_⟩
  · simp [dispatch, carp_callback_wrapper]
  · simp only [dispatch_trace, CarpArgumentVector.items, hsize, hitems]
    simp
  · simp [dispatch, carp_callback_wrapper]
  · simp [dispatch, carp_callback_wrapper]
  · simp [dispatch, carp_callback_wrapper]
  · simp [dispatch, carp_callback_wrapper]
  · simp [dispatch, carp_callback_wrapper]

/-- C8, on the test section `long option with immediate argument`: `--long=argument` with
`long` of arity 1 gives the handler `["argument"]` and moves the cursor from 1 to 2,
although the next token is not an option. -/
theorem carp_parse_long_option_immediate_witness :
    '=' ∉ "long".toList ∧ "argument".toList ≠ [] ∧
    (test_private argv_long 1).token =
      some ('-' :: '-' :: ("long".toList ++ '=' :: "argument".toList)) ∧
    test_backend_search (g_table_one "long" 1) "long".toList =
      some ⟨1, some carp_callback_override⟩ ∧
    (1 : Int) = 1 ∧
    (test_private argv_long 1).callback_args.size = 0 ∧
    ∃ c1, carp_parse_long_option (test_backend_search (g_table_one "long" 1))
        (test_private argv_long 1) = .ok c1 ∧
      c1.head = 1 + 1 ∧
      c1.trace = [] ++ Event.search 1 "long".toList ::
        callback_events 1 (some carp_callback_override) ["argument".toList] 1 ∧
      c1.callback_args.size = 0 ∧
      c1.command_args = carp_vector_init 25 ∧
      c1.argv = argv_long ∧ c1.tail = argv_long.length ∧
      c1.token = (test_private argv_long 1).token :=
  ⟨by decide, by decide, by decide, by decide, by decide, by decide,
    carp_parse_long_option_immediate (test_backend_search (g_table_one "long" 1))
      (test_private argv_long 1) "long".toList "argument".toList
      ⟨1, some carp_callback_override⟩ (by decide) (by decide) (by decide) (by decide)
      (by decide) (by decide)⟩

/-- C9: a long option `--name=value` with a non-empty value, whose name (without `=`) looks
up to a spec of any arity other than 1 (arity 0, a fixed arity above 1, variadic): after the
lookup `carp_parse_long_option` aborts with `ERROR_LONG_OPTION_ARGUMENT_COUNT`, and no
handler has been called. -/
theorem carp_parse_long_option_count_mismatch (search : List Char → Option CarpOptionSpec)
    (c : CarpPrivate) (name value : List Char) (spec : CarpOptionSpec)
    (hname : '=' ∉ name) (hvalue : value ≠ [])
    (htok : c.token = some ('-' :: '-' :: (name ++ '=' :: value)))
    (hspec : search name = some spec) (harity : spec.arguments ≠ 1) :
    carp_parse_long_option search c =
      .exit ERROR_LONG_OPTION_ARGUMENT_COUNT
        { c with trace := c.trace ++ [Event.search c.head name] } := by
  rw [carp_parse_long_option_eq search c name value hname htok, hspec]
  simp [hvalue, harity]

/-- C9, on the test sections `error if long option has immediate argument but the spec
requires multiple arguments`: `--long=argument` with `long` of arity 3 aborts. -/
theorem carp_parse_long_option_count_mismatch_witness :
    '=' ∉ "long".toList ∧ "argument".toList ≠ [] ∧
    (test_private argv_long 1).token =
      some ('-' :: '-' :: ("long".toList ++ '=' :: "argument".toList)) ∧
    test_backend_search (g_table_one "long" 3) "long".toList =
      some ⟨3, some carp_callback_override⟩ ∧
    (3 : Int) ≠ 1 ∧
    carp_parse_long_option (test_backend_search (g_table_one "long" 3))
        (test_private argv_long 1) =
      .exit ERROR_LONG_OPTION_ARGUMENT_COUNT
        { test_private argv_long 1 with trace := [] ++ [Event.search 1 "long".toList] } :=
  ⟨by decide, by decide, by decide, by decide, by decide,
    carp_parse_long_option_count_mismatch (test_backend_search (g_table_one "long" 3))
      (test_private argv_long 1) "long".toList "argument".toList
      ⟨3, some carp_callback_override⟩ (by decide) (by decide) (by decide) (by decide)
      (by decide)⟩

/-- C10: a long option `--name=` with an empty value and a name without `=`:
`carp_parse_long_option` aborts with `ERROR_NOT_ENOUGH_ARGUMENTS` before any lookup, so for
every option table, whether the name is known or not, and no handler has been called. -/
theorem carp_parse_long_option_empty_immediate (search : List Char → Option CarpOptionSpec)
    (c : CarpPrivate) (name : List Char) (hname : '=' ∉ name)
    (htok : c.token = some ('-' :: '-' :: (name ++ ['=']))) :
    carp_parse_long_option search c = .exit ERROR_NOT_ENOUGH_ARGUMENTS c := by
  rw [carp_parse_long_option_eq search c name [] hname htok]
  simp

/-- C10, on the test section `error if long option has empty immediate argument`:
`--long=` aborts with `ERROR_NOT_ENOUGH_ARGUMENTS`. -/
theorem carp_parse_long_option_empty_immediate_witness :
    '=' ∉ "long".toList ∧
    (test_private argv_long 6).token = some ('-' :: '-' :: ("long".toList ++ ['='])) ∧
    carp_parse_long_option (test_backend_search (g_table_one "long" 1))
        (test_private argv_long 6) =
      .exit ERROR_NOT_ENOUGH_ARGUMENTS (test_private argv_long 6) :=
  ⟨by decide, by decide,
    carp_parse_long_option_empty_immediate (test_backend_search (g_table_one "long" 1))
      (test_private argv_long 6) "long".toList (by decide) (by decide)⟩

/-- C11: a lookup that finds no spec ends the parse with `ERROR_UNKNOWN_OPTION`, right after
the lookup: for a long option `--name` without `=` whose whole name is not found, for a long
option `--name=value` with a non-empty value whose name is not found, and for a short-option
token whose scan, after options of arity 0 only, reaches a character that is not found. -/
theorem unknown_option_aborts (search : List Char → Option CarpOptionSpec) (c : CarpPrivate) :
    (∀ name : List Char, '=' ∉ name → c.token = some ('-' :: '-' :: name) →
      search name = none →
      carp_parse_long_option search c =
        .exit ERROR_UNKNOWN_OPTION
          { c with trace := c.trace ++ [Event.search c.head name] }) ∧
    (∀ name value : List Char, '=' ∉ name → value ≠ [] →
      c.token = some ('-' :: '-' :: (name ++ '=' :: value)) → search name = none →
      carp_parse_long_option search c =
        .exit ERROR_UNKNOWN_OPTION
          { c with trace := c.trace ++ [Event.search c.head name] }) ∧
    (∀ (fs : List (Char × Option Callback)) (z : Char) (rest : List Char),
      c.token = some ('-' :: (fs.map Prod.fst ++ z :: rest)) →
      (∀ p ∈ fs, search [p.1] = some ⟨0, p.2⟩) → search [z] = none →
      carp_parse_short_option search c =
        .exit ERROR_UNKNOWN_OPTION
          { c with trace := c.trace ++ flag_events c.head fs ++
              [Event.search c.head [z]] }) :=
  ⟨fun name h1 h2 h3 => carp_parse_long_option_unknown search c name h1 h2 h3,
    fun name value h1 h2 h3 h4 =>
      carp_parse_long_option_immediate_unknown search c name value h1 h2 h3 h4,
    fun fs z rest h1 h2 h3 => carp_parse_short_option_unknown search c fs z rest h1 h2 h3⟩

/-- C11, on the test sections `unknown option error` (`--long`), `unknown option error (with
immediate argument)` (`--long=argument`) and `unknown option` (`-z`), the option table being
empty. -/
theorem unknown_option_aborts_witness :
    ('=' ∉ "long".toList ∧
      (test_private argv_long 2).token = some ('-' :: '-' :: "long".toList) ∧
      test_backend_search [] "long".toList = none ∧
      carp_parse_long_option (test_backend_search []) (test_private argv_long 2) =
        .exit ERROR_UNKNOWN_OPTION
          { test_private argv_long 2 with trace := [] ++ [Event.search 2 "long".toList] }) ∧
    ("argument".toList ≠ [] ∧
      (test_private argv_long 1).token =
        some ('-' :: '-' :: ("long".toList ++ '=' :: "argument".toList)) ∧
      carp_parse_long_option (test_backend_search []) (test_private argv_long 1) =
        .exit ERROR_UNKNOWN_OPTION
          { test_private argv_long 1 with trace := [] ++ [Event.search 1 "long".toList] }) ∧
    ((test_private argv_short 11).token =
        some ('-' :: (([] : List (Char × Option Callback)).map Prod.fst ++ 'z' :: [])) ∧
      test_backend_search [] ['z'] = none ∧
      carp_parse_short_option (test_backend_search []) (test_private argv_short 11) =
        .exit ERROR_UNKNOWN_OPTION
          { test_private argv_short 11 with
            trace := [] ++ flag_events 11 [] ++ [Event.search 11 ['z']] }) :=
  ⟨⟨by decide, by decide, by decide,
      (unknown_option_aborts (test_backend_search []) (test_private argv_long 2)).1
        "long".toList (by decide) (by decide) (by decide)⟩,
    ⟨by decide, by decide,
      (unknown_option_aborts (test_backend_search []) (test_private argv_long 1)).2.1
        "long".toList "argument".toList (by decide) (by decide) (by decide) (by decide)⟩,
    ⟨by decide, by decide,
      (unknown_option_aborts (test_backend_search []) (test_private argv_short 11)).2.2
        [] 'z' [] (by decide) (by decide) (by decide)⟩⟩

/-- C12, as the claim has it, fails on `-az` with `a` of arity 0 and `z` unknown: the token
ends the parse with `ERROR_UNKNOWN_OPTION`, and the handler of `a` has been called while the
token was parsed. -/
theorem unknown_option_after_flag :
    carp_parse_short_option (test_backend_search (g_table_one "a" 0))
        (test_private (tokens ["prog", "-az"]) 1) =
      .exit ERROR_UNKNOWN_OPTION
        { test_private (tokens ["prog", "-az"]) 1 with
          trace := [.search 1 ['a'], .call 1 carp_callback_override [] 0, .search 1 ['z']] } ∧
    carp_parse (test_backend_search (g_table_one "a" 0)) (tokens ["prog", "-az"]) =
      .exit ERROR_UNKNOWN_OPTION
        { test_private (tokens ["prog", "-az"]) 1 with
          trace := [.search 1 ['a'], .call 1 carp_callback_override [] 0, .search 1 ['z']] } ∧
    handler_calls [.search 1 ['a'], .call 1 carp_callback_override [] 0, .search 1 ['z']] ≠
      [] := by
  refine ⟨?_, ?_, ?_⟩ <;> decide

/-- C12, as the code has it: a long option whose lookup fails ends the parse without any
handler call; a short-option token whose scan reaches an unknown character ends the parse
after the handlers of the options of arity 0 that stand before that character have been
called, each once and with no argument; no handler is called for the unknown character or
for a character after it. -/
theorem unknown_option_handler_calls (search : List Char → Option CarpOptionSpec)
    (c : CarpPrivate) :
    (∀ name : List Char, '=' ∉ name → c.token = some ('-' :: '-' :: name) →
      search name = none →
      ∃ c1, carp_parse_long_option search c = .exit ERROR_UNKNOWN_OPTION c1 ∧
        handler_calls c1.trace = handler_calls c.trace) ∧
    (∀ name value : List Char, '=' ∉ name → value ≠ [] →
      c.token = some ('-' :: '-' :: (name ++ '=' :: value)) → search name = none →
      ∃ c1, carp_parse_long_option search c = .exit ERROR_UNKNOWN_OPTION c1 ∧
        handler_calls c1.trace = handler_calls c.trace) ∧
    (∀ (fs : List (Char × Option Callback)) (z : Char) (rest : List Char),
      c.token = some ('-' :: (fs.map Prod.fst ++ z :: rest)) →
      (∀ p ∈ fs, search [p.1] = some ⟨0, p.2⟩) → search [z] = none →
      ∃ c1, carp_parse_short_option search c = .exit ERROR_UNKNOWN_OPTION c1 ∧
        handler_calls c1.trace =
          handler_calls c.trace ++ fs.flatMap fun p => callback_events c.head p.2 [] 0) := by
  refine ⟨?_, ?_, ?_⟩
  · intro name h1 h2 h3
    refine ⟨_, carp_parse_long_option_unknown search c name h1 h2 h3, ?_⟩
    simp [handler_calls, Event.isCall]
  · intro name value h1 h2 h3 h4
    refine ⟨_, carp_parse_long_option_immediate_unknown search c name value h1 h2 h3 h4, ?_⟩
    simp [handler_calls, Event.isCall]
  · intro fs z rest h1 h2 h3
    refine ⟨_, carp_parse_short_option_unknown search c fs z rest h1 h2 h3, ?_⟩
    simp only [handler_calls_append, handler_calls_flag_events]
    simp [handler_calls, Event.isCall]

/-- C12, as the code has it, on `-az` with `a` of arity 0 and `z` unknown: the one handler
call is that of `a`. -/
theorem unknown_option_handler_calls_witness :
    (test_private (tokens ["prog", "-az"]) 1).token =
      some ('-' :: ([('a', some carp_callback_override)].map Prod.fst ++ 'z' :: [])) ∧
    (∀ p ∈ [('a', some carp_callback_override)],
      test_backend_search (g_table_one "a" 0) [p.1] = some ⟨0, p.2⟩) ∧
    test_backend_search (g_table_one "a" 0) ['z'] = none ∧
    ∃ c1, carp_parse_short_option (test_backend_search (g_table_one "a" 0))
        (test_private (tokens ["prog", "-az"]) 1) = .exit ERROR_UNKNOWN_OPTION c1 ∧
      handler_calls c1.trace =
        handler_calls [] ++ [('a', some carp_callback_override)].flatMap
          fun p => callback_events 1 p.2 [] 0 :=
  ⟨by decide, by decide, by decide,
    (unknown_option_handler_calls (test_backend_search (g_table_one "a" 0))
      (test_private (tokens ["prog", "-az"]) 1)).2.2
      [('a', some carp_callback_override)] 'z' [] (by decide) (by decide) (by decide)⟩

/-- C13: a variadic option whose run of plain arguments reaches the end of the input. On
`prog -o a b` with `o` variadic, `carp_option_argument_handler` takes `a` and `b` and then
classifies `argv[4]`, which is past the last token (`tail = 4`), before it tests
`head < tail`: the run ends in undefined behaviour, the resolver does not return 3 and the
handler is not called. So it is on `prog -o`, the run of length zero. When a token that is
not a plain argument ends the run, the resolver returns as expected: on the test section
`unknown number of arguments` it takes the three files and returns 4. -/
theorem carp_option_argument_handler_variadic_end :
    carp_option_argument_handler (test_private (tokens ["prog", "-o", "a", "b"]) 1) (-1)
        (some []) =
      .invalid_read 4
        { test_private (tokens ["prog", "-o", "a", "b"]) 1 with
          callback_args := ⟨tokens ["a", "b"], 25, 2⟩ } ∧
    carp_parse (test_backend_search (g_table_one "o" (-1))) (tokens ["prog", "-o", "a", "b"]) =
      .invalid_read 4
        { test_private (tokens ["prog", "-o", "a", "b"]) 1 with
          callback_args := ⟨tokens ["a", "b"], 25, 2⟩
          trace := [.search 1 ['o']] } ∧
    carp_parse (test_backend_search (g_table_one "o" (-1))) (tokens ["prog", "-o"]) =
      .invalid_read 2
        { test_private (tokens ["prog", "-o"]) 1 with trace := [.search 1 ['o']] } ∧
    carp_option_argument_handler (test_private argv_handler 4) (-1) none =
      .ok ({ test_private argv_handler 4 with
              callback_args := ⟨tokens ["file1.out", "file2.out", "file3.out"], 25, 3⟩ },
            4) := by
  refine ⟨?_, ?_, ?_, ?_⟩ <;> decide

/-- C14: a long option `--name` without `=` whose name is found, parsed with an empty
callback buffer; `l` are the tokens after the option token.
* Arity 0: the handler is called once with an empty argument list and the cursor moves by
  exactly 1.
* A fixed arity `n ≥ 1` or the variadic arity: when the parser returns, the handler has been
  called once with `following`, the plain-argument tokens that the arity resolver took right
  after the option token, in order and without an immediate value (`n` of them for a fixed
  arity, for the variadic arity all up to a token that is not taken), and the cursor has
  moved by 1 plus their number.
* The parser does return for a fixed arity when the `n` tokens are there, before `tail`,
  and plain, and for the variadic arity when a token that is not a plain argument ends the
  run. -/
theorem carp_parse_long_option_plain (search : List Char → Option CarpOptionSpec)
    (c : CarpPrivate) (name : List Char) (spec : CarpOptionSpec)
    (hname : '=' ∉ name) (htok : c.token = some ('-' :: '-' :: name))
    (hspec : search name = some spec) (hempty : c.callback_args.size = 0) :
    (spec.arguments = 0 →
      carp_parse_long_option search c =
        .ok { c with head := c.head + 1,
                     trace := c.trace ++
                       Event.search c.head name :: callback_events c.head spec.callback [] 0 }) ∧
    (spec.arguments = -1 ∨ 1 ≤ spec.arguments →
      ∀ c1, carp_parse_long_option search c = .ok c1 →
      ∃ following : List Token,
        following <+: c.argv.drop (c.head + 1) ∧
        (∀ t ∈ following, carp_classify_token t = TOKEN_ARGUMENT) ∧
        c1.head = c.head + 1 + following.length ∧
        c1.trace = c.trace ++ Event.search c.head name ::
          callback_events c.head spec.callback following following.length ∧
        (spec.arguments ≠ -1 → following.length = spec.arguments.toNat) ∧
        (spec.arguments = -1 →
          ∃ t, c.argv[c.head + 1 + following.length]? = some t ∧
            ¬ (carp_classify_token t = TOKEN_ARGUMENT ∧
                c.head + 1 + following.length < c.tail)) ∧
        c1.callback_args.size = 0 ∧ c1.command_args = c.command_args ∧
        c1.argv = c.argv ∧ c1.tail = c.tail) ∧
    (∀ n : Nat, spec.arguments = (n : Int) + 1 →
      n + 1 ≤ (c.argv.drop (c.head + 1)).length →
      (∀ t ∈ (c.argv.drop (c.head + 1)).take (n + 1),
        carp_classify_token t = TOKEN_ARGUMENT) →
      c.head + 1 + (n + 1) ≤ c.tail →
      ∃ c1, carp_parse_long_option search c = .ok c1) ∧
    (spec.arguments = -1 →
      ∀ k t, (c.argv.drop (c.head + 1))[k]? = some t →
      (∀ u ∈ (c.argv.drop (c.head + 1)).take k, carp_classify_token u = TOKEN_ARGUMENT) →
      c.head + 1 + k ≤ c.tail →
      ¬ (carp_classify_token t = TOKEN_ARGUMENT ∧ c.head + 1 + k < c.tail) →
      ∃ c1, carp_parse_long_option search c = .ok c1) := by
  have heq := carp_parse_long_option_plain_eq search c name hname htok
  rw [hspec] at heq
  simp only at heq
  refine ⟨?_, ?_, ?_, ?_⟩
  · intro h0
    have hcond : ¬ (spec.arguments = -1 ∨ spec.arguments > 0) := by omega
    rw [heq, if_neg hcond]
    simp [carp_callback_wrapper]
  · intro harity c1 hok
    have hcond : spec.arguments = -1 ∨ spec.arguments > 0 := by omega
    rw [heq, if_pos hcond] at hok
    generalize hc0 : CarpPrivate.mk c.argv c.callback_args c.command_args c.head c.tail
      c.token (c.trace ++ [Event.search c.head name]) = c0 at hok
    have hc0e : c0.callback_args.size = 0 := by rw [← hc0]; exact hempty
    have hargv : c0.argv = c.argv := by rw [← hc0]
    have hhead : c0.head = c.head := by rw [← hc0]
    have htail : c0.tail = c.tail := by rw [← hc0]
    have hcmd : c0.command_args = c.command_args := by rw [← hc0]
    have htrace : c0.trace = c.trace ++ [Event.search c.head name] := by rw [← hc0]
    obtain ⟨⟨c2, inc⟩, hrun, hout⟩ := Outcome.bind_eq_ok _ _ _ hok
    simp only [Outcome.ok.injEq] at hout
    obtain ⟨m, h1, h2, h3, h4, h5, h6, h7⟩ :=
      carp_option_argument_handler_ok c0 c2 spec.arguments none inc hrun
    simp only [immediate_args, List.nil_append, List.length_nil, Nat.cast_zero,
      Int.sub_zero] at h5 h6
    obtain ⟨d1, d2, d3, d4, d5, d6, d7⟩ := dispatch_after_handler spec c0 c2 _ hc0e h5
    have hlen : ((c.argv.drop (c.head + 1)).take m).length = m := by
      rw [List.length_take]
      rw [hargv, hhead] at h2
      omega
    rw [hargv, hhead] at h3 h7 d1
    rw [htail] at h7
    refine ⟨(c.argv.drop (c.head + 1)).take m, List.take_prefix _ _, h3, ?_, ?_, ?_, ?_, ?_,
      ?_, ?_, ?_⟩
    · have e5 : c2.head = c.head := by rw [h5]; exact hhead
      rw [← hout, hlen]; simp only [e5]; omega
    · rw [← hout]
      simp only [d1, hlen, htrace]
      simp
    · rw [hlen]; exact h6
    · rw [hlen]; exact h7
    · rw [← hout]; exact d2
    · rw [← hout]; simp only [d3, hcmd]
    · rw [← hout]; simp only [d4, hargv]
    · rw [← hout]; simp only [d5, htail]
  · intro n hn h1 h2 h3
    have hcond : spec.arguments = -1 ∨ spec.arguments > 0 := by omega
    have hrun := (carp_option_argument_handler_fixed
      { c with trace := c.trace ++ [Event.search c.head name] } (n + 1) none rfl).1 h1 h2 h3
    have hn2 : spec.arguments = ((n + 1 : Nat) : Int) := by push_cast; exact hn
    rw [heq, if_pos hcond, hn2, hrun]
    exact ⟨_, rfl⟩
  · intro hv k t ht h2 h3 h4
    have hcond : spec.arguments = -1 ∨ spec.arguments > 0 := Or.inl hv
    have hrun := (carp_option_argument_handler_variadic
      { c with trace := c.trace ++ [Event.search c.head name] } none).1 k t ht h2 h3 h4
    rw [heq, if_pos hcond, hv, hrun]
    exact ⟨_, rfl⟩

/-- C14, on the test sections of `test carp_parse_long_option()`: `--long arg1 arg2 arg3`
with arity 3, and with the variadic arity, gives the handler `[arg1, arg2, arg3]` and moves
the cursor from 2 to 6; with arity 0 the handler gets no argument and the cursor moves to
3. -/
theorem carp_parse_long_option_plain_witness :
    '=' ∉ "long".toList ∧
    (test_private argv_long 2).token = some ('-' :: '-' :: "long".toList) ∧
    test_backend_search (g_table_one "long" 3) "long".toList =
      some ⟨3, some carp_callback_override⟩ ∧
    (test_private argv_long 2).callback_args.size = 0 ∧
    carp_parse_long_option (test_backend_search (g_table_one "long" 3))
        (test_private argv_long 2) =
      .ok { test_private argv_long 2 with
            head := 6
            callback_args := ⟨tokens ["arg1", "arg2", "arg3"], 25, 0⟩
            trace := [.search 2 "long".toList,
              .call 2 carp_callback_override (tokens ["arg1", "arg2", "arg3"]) 3] } ∧
    carp_parse_long_option (test_backend_search (g_table_one "long" (-1)))
        (test_private argv_long 2) =
      .ok { test_private argv_long 2 with
            head := 6
            callback_args := ⟨tokens ["arg1", "arg2", "arg3"], 25, 0⟩
            trace := [.search 2 "long".toList,
              .call 2 carp_callback_override (tokens ["arg1", "arg2", "arg3"]) 3] } ∧
    carp_parse_long_option (test_backend_search (g_table_one "long" 0))
        (test_private argv_long 2) =
      .ok { test_private argv_long 2 with
            head := 3
            trace := [.search 2 "long".toList, .call 2 carp_callback_override [] 0] } ∧
    ∃ following : List Token,
      following <+: argv_long.drop (2 + 1) ∧
      (∀ t ∈ following, carp_classify_token t = TOKEN_ARGUMENT) ∧
      6 = 2 + 1 + following.length ∧
      [Event.search 2 "long".toList,
          .call 2 carp_callback_override (tokens ["arg1", "arg2", "arg3"]) 3] =
        [] ++ Event.search 2 "long".toList ::
          callback_events 2 (some carp_callback_override) following following.length ∧
      ((3 : Int) ≠ -1 → following.length = (3 : Int).toNat) ∧
      ((3 : Int) = -1 →
        ∃ t, argv_long[2 + 1 + following.length]? = some t ∧
          ¬ (carp_classify_token t = TOKEN_ARGUMENT ∧
              2 + 1 + following.length < argv_long.length)) ∧
      0 = 0 ∧ carp_vector_init 25 = carp_vector_init 25 ∧
      argv_long = argv_long ∧ argv_long.length = argv_long.length :=
  ⟨by decide, by decide, by decide, by decide, by decide, by decide, by decide,
    (carp_parse_long_option_plain (test_backend_search (g_table_one "long" 3))
      (test_private argv_long 2) "long".toList ⟨3, some carp_callback_override⟩
      (by decide) (by decide) (by decide) (by decide)).2.1 (Or.inr (by decide))
      { test_private argv_long 2 with
        head := 6
        callback_args := ⟨tokens ["arg1", "arg2", "arg3"], 25, 0⟩
        trace := [.search 2 "long".toList,
          .call 2 carp_callback_override (tokens ["arg1", "arg2", "arg3"]) 3] }
      (by decide)⟩

/-- C15: an option of fixed arity without an immediate value whose tokens run out. On
`prog --long arg1` with `long` of arity 2, `carp_option_argument_handler` takes `arg1` and
then classifies `argv[3]`, which is past the last token (`tail = 3`), before it tests
`head < tail`: the run ends in undefined behaviour, not in a call of
`carp_exit_with_error` with `ERROR_NOT_ENOUGH_ARGUMENTS`. So it is on `prog -b` with `b` of
arity 1, the immediate value being the empty string. When the token that is missing is
followed by a token that is not a plain argument, the abort is the one expected; when the
tokens are there, the resolver returns their number plus 1. -/
theorem carp_option_argument_handler_fixed_end :
    carp_option_argument_handler (test_private (tokens ["prog", "--long", "arg1"]) 1) 2
        none =
      .invalid_read 3
        { test_private (tokens ["prog", "--long", "arg1"]) 1 with
          callback_args := ⟨tokens ["arg1"], 25, 1⟩ } ∧
    carp_parse (test_backend_search (g_table_one "long" 2))
        (tokens ["prog", "--long", "arg1"]) =
      .invalid_read 3
        { test_private (tokens ["prog", "--long", "arg1"]) 1 with
          callback_args := ⟨tokens ["arg1"], 25, 1⟩
          trace := [.search 1 "long".toList] } ∧
    carp_parse (test_backend_search (g_table_one "b" 1)) (tokens ["prog", "-b"]) =
      .invalid_read 2
        { test_private (tokens ["prog", "-b"]) 1 with trace := [.search 1 ['b']] } ∧
    carp_parse (test_backend_search (g_table_one "long" 2))
        (tokens ["prog", "--long", "arg1", "--"]) =
      .exit ERROR_NOT_ENOUGH_ARGUMENTS
        { test_private (tokens ["prog", "--long", "arg1", "--"]) 1 with
          callback_args := ⟨tokens ["arg1"], 25, 1⟩
          trace := [.search 1 "long".toList] } ∧
    carp_option_argument_handler (test_private argv_long 2) 3 none =
      .ok ({ test_private argv_long 2 with
              callback_args := ⟨tokens ["arg1", "arg2", "arg3"], 25, 3⟩ }, 4) := by
  refine ⟨?_, ?_, ?_, ?_, ?_⟩ <;> decide

/-- C16: `carp_vector_push` on a vector whose items have all been written, the allocation
succeeding (so that twice the capacity is an `int`). When `size == capacity` the capacity
after the push is twice the capacity before; when `size < capacity` it is unchanged. In both
cases the item is stored at the index `size` had, `size` grows by exactly 1, and the slots
below the old `size` keep their items. -/
theorem carp_vector_push_spec (vec : CarpArgumentVector) (elem : Token) (h : vec.Valid) :
    (vec.size = vec.capacity → (carp_vector_push vec elem).capacity = 2 * vec.capacity) ∧
    (vec.size < vec.capacity → (carp_vector_push vec elem).capacity = vec.capacity) ∧
    (carp_vector_push vec elem).buf[vec.size]? = some elem ∧
    (carp_vector_push vec elem).size = vec.size + 1 ∧
    (∀ i, i < vec.size → (carp_vector_push vec elem).buf[i]? = vec.buf[i]?) ∧
    (carp_vector_push vec elem).items = vec.items ++ [elem] := by
  have hitems := carp_vector_push_items vec elem h
  have hsize := carp_vector_push_size vec elem
  refine ⟨?_, ?_, ?_, hsize, ?_, hitems⟩
  · intro he
    simp [carp_vector_push, he, resize, Nat.mul_comm]
  · intro hlt
    have hne : vec.size ≠ vec.capacity := by omega
    simp [carp_vector_push, hne]
  · have h1 : (carp_vector_push vec elem).items[vec.size]? = some elem := by
      rw [hitems, List.getElem?_append_right (by simp [CarpArgumentVector.items, h])]
      simp [CarpArgumentVector.items, Nat.min_eq_left h]
    rw [CarpArgumentVector.items, List.getElem?_take_of_lt (by omega)] at h1
    exact h1
  · intro i hi
    have h1 : (carp_vector_push vec elem).items[i]? = vec.items[i]? := by
      have hv : vec.size ≤ vec.buf.length := h
      rw [hitems, List.getElem?_append_left (by
        simp only [CarpArgumentVector.items, List.length_take]; omega)]
    rw [CarpArgumentVector.items, CarpArgumentVector.items,
      List.getElem?_take_of_lt (by omega), List.getElem?_take_of_lt hi] at h1
    exact h1

/-- C16, on a full vector of capacity 2: the push doubles the capacity and stores the item
at index 2. -/
theorem carp_vector_push_spec_witness :
    (CarpArgumentVector.mk (tokens ["a", "b"]) 2 2).Valid ∧
    carp_vector_push ⟨tokens ["a", "b"], 2, 2⟩ ['c'] = ⟨tokens ["a", "b", "c"], 4, 3⟩ ∧
    ((2 = 2 → (carp_vector_push ⟨tokens ["a", "b"], 2, 2⟩ ['c']).capacity = 2 * 2) ∧
    (2 < 2 → (carp_vector_push ⟨tokens ["a", "b"], 2, 2⟩ ['c']).capacity = 2) ∧
    (carp_vector_push ⟨tokens ["a", "b"], 2, 2⟩ ['c']).buf[2]? = some ['c'] ∧
    (carp_vector_push ⟨tokens ["a", "b"], 2, 2⟩ ['c']).size = 2 + 1 ∧
    (∀ i, i < 2 →
      (carp_vector_push ⟨tokens ["a", "b"], 2, 2⟩ ['c']).buf[i]? = (tokens ["a", "b"])[i]?) ∧
    (carp_vector_push ⟨tokens ["a", "b"], 2, 2⟩ ['c']).items = tokens ["a", "b"] ++ [['c']]) :=
  ⟨by decide, by decide,
    carp_vector_push_spec ⟨tokens ["a", "b"], 2, 2⟩ ['c'] (by decide)⟩

/-- C17: `carp_vector_pop` on a vector whose items have all been written, the allocation
succeeding. On an empty vector it returns `NULL` and leaves the vector as it is. On a
non-empty vector it returns the item at index `size - 1`, decreases `size` by exactly 1,
keeps the items below, and sets the capacity to `capacity / 2` exactly when the new size is
at most `capacity / 4`, leaving it unchanged otherwise. -/
theorem carp_vector_pop_spec (vec : CarpArgumentVector) (h : vec.Valid) :
    (vec.size = 0 → carp_vector_pop vec = (vec, .null)) ∧
    (0 < vec.size →
      ∃ elem, vec.buf[vec.size - 1]? = some elem ∧
        (carp_vector_pop vec).2 = .item elem ∧
        (carp_vector_pop vec).1.size = vec.size - 1 ∧
        (∀ i, i < vec.size - 1 → (carp_vector_pop vec).1.buf[i]? = vec.buf[i]?) ∧
        (carp_vector_pop vec).1.items = vec.items.take (vec.size - 1) ∧
        (vec.size - 1 ≤ vec.capacity / 4 →
          (carp_vector_pop vec).1.capacity = vec.capacity / 2) ∧
        (¬ vec.size - 1 ≤ vec.capacity / 4 →
          (carp_vector_pop vec).1.capacity = vec.capacity)) := by
  have hv : vec.size ≤ vec.buf.length := h
  refine ⟨fun h0 => by simp [carp_vector_pop, h0], fun hpos => ?_⟩
  have hne : vec.size ≠ 0 := by omega
  have hlt : vec.size - 1 < vec.buf.length := by omega
  refine ⟨vec.buf[vec.size - 1], List.getElem?_eq_getElem hlt, ?_, ?_, ?_, ?_, ?_, ?_⟩
  · have hl : load vec.buf (Int.ofNat (vec.size - 1)) = .item vec.buf[vec.size - 1] := by
      simp [load, List.getElem?_eq_getElem hlt]
    simpa [carp_vector_pop, hne] using hl
  · simp only [carp_vector_pop, hne, if_false]
    split <;> simp [resize]
  · intro i hi
    simp only [carp_vector_pop, hne, if_false]
    split
    · next hq =>
      simp only [resize]
      rw [List.getElem?_take_of_lt (by omega)]
    · rfl
  · simp only [carp_vector_pop, hne, if_false, CarpArgumentVector.items]
    split
    · next hq =>
      simp only [resize, List.take_take]
      rw [Nat.min_eq_left (by omega), Nat.min_eq_left (by omega)]
    · simp only [List.take_take]
      rw [Nat.min_eq_left (by omega)]
  · intro hq
    simp [carp_vector_pop, hne, hq, resize]
  · intro hq
    simp [carp_vector_pop, hne, hq]

/-- C17, on a vector of capacity 8 holding three items: the pop returns the third one and
halves the capacity, the new size 2 being at most 8 / 4. -/
theorem carp_vector_pop_spec_witness :
    (CarpArgumentVector.mk (tokens ["a", "b", "c"]) 8 3).Valid ∧
    carp_vector_pop ⟨tokens ["a", "b", "c"], 8, 3⟩ =
      (⟨tokens ["a", "b", "c"], 4, 2⟩, .item ['c']) ∧
    carp_vector_pop (carp_vector_init 25) = (carp_vector_init 25, .null) ∧
    ((3 = 0 → carp_vector_pop ⟨tokens ["a", "b", "c"], 8, 3⟩ =
        (⟨tokens ["a", "b", "c"], 8, 3⟩, .null)) ∧
    (0 < 3 →
      ∃ elem, (tokens ["a", "b", "c"])[3 - 1]? = some elem ∧
        (carp_vector_pop ⟨tokens ["a", "b", "c"], 8, 3⟩).2 = .item elem ∧
        (carp_vector_pop ⟨tokens ["a", "b", "c"], 8, 3⟩).1.size = 3 - 1 ∧
        (∀ i, i < 3 - 1 → (carp_vector_pop ⟨tokens ["a", "b", "c"], 8, 3⟩).1.buf[i]? =
          (tokens ["a", "b", "c"])[i]?) ∧
        (carp_vector_pop ⟨tokens ["a", "b", "c"], 8, 3⟩).1.items =
          (CarpArgumentVector.mk (tokens ["a", "b", "c"]) 8 3).items.take (3 - 1) ∧
        (3 - 1 ≤ 8 / 4 → (carp_vector_pop ⟨tokens ["a", "b", "c"], 8, 3⟩).1.capacity = 8 / 2) ∧
        (¬ 3 - 1 ≤ 8 / 4 →
          (carp_vector_pop ⟨tokens ["a", "b", "c"], 8, 3⟩).1.capacity = 8))) :=
  ⟨by decide, by decide, by decide,
    carp_vector_pop_spec ⟨tokens ["a", "b", "c"], 8, 3⟩ (by decide)⟩

/-- C18: for a negative index the test `index < vec->size` of `carp_vector_at` holds, so
the function reads `buf[index]`, before the start of the buffer, and returns what it finds
there: it does not return `NULL` without a read. So it is on the vector holding `"a"` at
index -1; at index 0 the item is returned, at index 1 `NULL`. -/
theorem carp_vector_at_negative (vec : CarpArgumentVector) (n : Nat) :
    carp_vector_at vec (Int.negSucc n) = .invalid (Int.negSucc n) ∧
    carp_vector_at (carp_vector_push (carp_vector_init 25) ['a']) (-1) = .invalid (-1) ∧
    carp_vector_at (carp_vector_push (carp_vector_init 25) ['a']) 0 = .item ['a'] ∧
    carp_vector_at (carp_vector_push (carp_vector_init 25) ['a']) 1 = .null := by
  refine ⟨?_, by decide, by decide, by decide⟩
  have hc : Int.negSucc n < (vec.size : Int) :=
    lt_of_lt_of_le (Int.negSucc_lt_zero n) (Int.ofNat_nonneg _)
  simp [carp_vector_at, hc, load]

/-- C19: the callback buffer between two dispatches. When `carp_parse_short_option` or
`carp_parse_long_option` starts on a token with an empty callback buffer and returns, the
buffer is empty (`size == 0`) again, and every handler call it made handed over only
arguments resolved for that option: at most one immediate value taken from the token, then
plain-argument tokens standing right after the token. Hence the buffer is empty in every
state at the top of the loop of `carp_parse`, before and after every dispatch, and in the
state in which the loop returns. -/
theorem callback_buffer_invariant (search : List Char → Option CarpOptionSpec) :
    (∀ (c c1 : CarpPrivate) (tok : List Char), c.callback_args.size = 0 →
      c.token = some tok → carp_parse_short_option search c = .ok c1 →
      c1.callback_args.size = 0 ∧
      ∃ evs, c1.trace = c.trace ++ evs ∧ ∀ e ∈ evs, ResolvedCall c.argv c.head tok e) ∧
    (∀ (c c1 : CarpPrivate) (tok : List Char), c.callback_args.size = 0 →
      c.token = some tok → carp_parse_long_option search c = .ok c1 →
      c1.callback_args.size = 0 ∧
      ∃ evs, c1.trace = c.trace ++ evs ∧ ∀ e ∈ evs, ResolvedCall c.argv c.head tok e) ∧
    (∀ (argv : List Token) (c : CarpPrivate), Reachable search argv c →
      c.callback_args.size = 0) ∧
    (∀ (argv : List Token) (c1 : CarpPrivate),
      carp_parse_loop search argv.length (carp_parse_init argv) = .ok c1 →
      c1.callback_args.size = 0) :=
  ⟨fun c c1 tok h1 h2 h3 => carp_parse_short_option_clean search c c1 tok h1 h2 h3,
    fun c c1 tok h1 h2 h3 => carp_parse_long_option_clean search c c1 tok h1 h2 h3,
    fun argv c hc => reachable_clean search argv c hc,
    fun argv c1 h => reachable_clean search argv c1
      (carp_parse_loop_reachable search argv _ _ c1 Reachable.init h)⟩

/-- C19, on the test section `option with a determinate number of required arguments`
(`-afile1 file2 file3` with `a` of arity 3): the handler gets the three arguments, the
buffer is empty afterwards. -/
theorem callback_buffer_invariant_witness :
    (test_private argv_short 2).callback_args.size = 0 ∧
    (test_private argv_short 2).token = some "-afile1".toList ∧
    carp_parse_short_option (test_backend_search (g_table_one "a" 3))
        (test_private argv_short 2) =
      .ok { test_private argv_short 2 with
            head := 5
            callback_args := ⟨tokens ["file1", "file2", "file3"], 25, 0⟩
            trace := [.search 2 ['a'],
              .call 2 carp_callback_override (tokens ["file1", "file2", "file3"]) 3] } ∧
    ((0 : Nat) = 0 ∧
      ∃ evs, [Event.search 2 ['a'],
          .call 2 carp_callback_override (tokens ["file1", "file2", "file3"]) 3] = [] ++ evs ∧
        ∀ e ∈ evs, ResolvedCall argv_short 2 "-afile1".toList e) :=
  ⟨by decide, by decide, by decide,
    (callback_buffer_invariant (test_backend_search (g_table_one "a" 3))).1
      (test_private argv_short 2)
      { test_private argv_short 2 with
        head := 5
        callback_args := ⟨tokens ["file1", "file2", "file3"], 25, 0⟩
        trace := [.search 2 ['a'],
          .call 2 carp_callback_override (tokens ["file1", "file2", "file3"]) 3] }
      "-afile1".toList (by decide) (by decide) (by decide)⟩

/-- C20: the loop of `carp_parse` on an argument vector of `argc ≥ 1` tokens.
* A round started at a cursor before `tail` returns, aborts or stops at an invalid read; when
  it returns, the cursor is strictly after where it was and at most at `tail`.
* In every state at the top of the loop `tail` is `argc` and the cursor is between 1 and
  `argc`.
* The loop ends within `argc - 1` rounds: with that many or more it is never cut off, and
  its result is the same.
* When it returns, the cursor is `argc` exactly. -/
theorem carp_parse_terminates (search : List Char → Option CarpOptionSpec)
    (argv : List Token) (hargc : 1 ≤ argv.length) :
    (∀ (c : CarpPrivate) (tok : Token), c.head < c.tail →
      carp_parse_step search c tok ≠ .out_of_fuel ∧
      ∀ c1, carp_parse_step search c tok = .ok c1 →
        c.head < c1.head ∧ c1.head ≤ c.tail ∧ c1.tail = c.tail) ∧
    (∀ c : CarpPrivate, Reachable search argv c →
      c.tail = argv.length ∧ 1 ≤ c.head ∧ c.head ≤ argv.length) ∧
    (∀ fuel, argv.length - 1 ≤ fuel →
      carp_parse_loop search fuel (carp_parse_init argv) ≠ .out_of_fuel ∧
      carp_parse_loop search fuel (carp_parse_init argv) =
        carp_parse_loop search argv.length (carp_parse_init argv)) ∧
    (∀ c1 : CarpPrivate,
      carp_parse_loop search argv.length (carp_parse_init argv) = .ok c1 →
      c1.head = argv.length ∧ c1.tail = argv.length) ∧
    carp_parse search argv ≠ .out_of_fuel := by
  have hinit : (carp_parse_init argv).tail - (carp_parse_init argv).head = argv.length - 1 :=
    rfl
  refine ⟨?_, ?_, ?_, ?_, ?_⟩
  · intro c tok hlt
    refine ⟨carp_parse_step_ends search c tok, fun c1 h => ?_⟩
    obtain ⟨-, h2, h3, h4⟩ := carp_parse_step_ok search c c1 tok hlt h
    exact ⟨h3, h4, h2⟩
  · intro c hc
    obtain ⟨-, h2, h3, h4⟩ := reachable_bounds search argv c hargc hc
    exact ⟨h2, h3, by omega⟩
  · intro fuel hfuel
    exact ⟨carp_parse_loop_ends search fuel _ (by rw [hinit]; exact hfuel),
      carp_parse_loop_fuel search fuel argv.length _ (by rw [hinit]; exact hfuel)
        (by rw [hinit]; omega)⟩
  · intro c1 h
    obtain ⟨h1, h2⟩ := carp_parse_loop_final search _ _ c1 hargc h
    exact ⟨h2, h1⟩
  · unfold carp_parse
    exact Outcome.bind_ends _ _
      (carp_parse_loop_ends search _ _ (by rw [hinit]; omega)) (fun a => by simp)

/-- C20, on `prog -a x --` with `a` of arity 0: the loop returns with the cursor at 4, and
two rounds fewer than `argc` would not be enough. -/
theorem carp_parse_terminates_witness :
    1 ≤ (tokens ["prog", "-a", "x", "--"]).length ∧
    carp_parse_loop (test_backend_search (g_table_one "a" 0)) 4
        (carp_parse_init (tokens ["prog", "-a", "x", "--"])) =
      .ok { carp_parse_init (tokens ["prog", "-a", "x", "--"]) with
            head := 4
            token := some ['-', '-']
            command_args := ⟨tokens ["x"], 25, 1⟩
            trace := [.search 1 ['a'], .call 1 carp_callback_override [] 0] } ∧
    carp_parse_loop (test_backend_search (g_table_one "a" 0)) 2
        (carp_parse_init (tokens ["prog", "-a", "x", "--"])) = .out_of_fuel ∧
    ((4 : Nat) = (tokens ["prog", "-a", "x", "--"]).length ∧
      (tokens ["prog", "-a", "x", "--"]).length = (tokens ["prog", "-a", "x", "--"]).length) ∧
    (carp_parse_loop (test_backend_search (g_table_one "a" 0)) 3
        (carp_parse_init (tokens ["prog", "-a", "x", "--"])) ≠ .out_of_fuel ∧
      carp_parse_loop (test_backend_search (g_table_one "a" 0)) 3
          (carp_parse_init (tokens ["prog", "-a", "x", "--"])) =
        carp_parse_loop (test_backend_search (g_table_one "a" 0))
          (tokens ["prog", "-a", "x", "--"]).length
          (carp_parse_init (tokens ["prog", "-a", "x", "--"]))) :=
  ⟨by decide, by decide, by decide,
    (carp_parse_terminates (test_backend_search (g_table_one "a" 0))
      (tokens ["prog", "-a", "x", "--"]) (by decide)).2.2.2.1
      { carp_parse_init (tokens ["prog", "-a", "x", "--"]) with
        head := 4
        token := some ['-', '-']
        command_args := ⟨tokens ["x"], 25, 1⟩
        trace := [.search 1 ['a'], .call 1 carp_callback_override [] 0] } (by decide),
    (carp_parse_terminates (test_backend_search (g_table_one "a" 0))
      (tokens ["prog", "-a", "x", "--"]) (by decide)).2.2.1 3 (by decide)⟩

/-- C21: the residual list as a selection of indices. When `carp_parse` completes on
`argv` with the residual list `carp.argv`, the count `carp.argc` and the calls `trace`,
there are strictly increasing indices `idx`, each at least 1 and below `argc`, such that:
the residual list is the list of the tokens of `argv` at these indices and `carp.argc` is
their number; every handler call of `trace` was made in the round of an option token at
some index `h`, and its arguments are at most one immediate value cut from that token, then
the following tokens `argv[h + 1], .., argv[h + m]`, which are all the tokens the cursor
passes over in that round unless the call has no argument, and none of the indices
`h + 1, .., h + m` of these following-token arguments is in `idx`; no index whose token an
option takes is in `idx`; and every index of a plain argument that stands before the first
separator and is not taken by an option is in `idx`. -/
theorem carp_parse_residual_indices (search : List Char → Option CarpOptionSpec)
    (argv : List Token) (carp : Carp) (trace : List Event)
    (hok : carp_parse search argv = .ok (carp, trace)) :
    ∃ idx : List Nat, idx.Pairwise (· < ·) ∧
      (∀ i ∈ idx, 1 ≤ i ∧ i < argv.length) ∧
      idx.map (fun i => argv[i]?) = carp.argv.map some ∧
      carp.argc = idx.length ∧
      (∀ h cb args argc, Event.call h cb args argc ∈ trace →
        ∃ (a a1 : CarpPrivate) (tok : Token) (imm following : List Token),
          Reachable search argv a ∧ a.head = h ∧ argv[h]? = some tok ∧
          (carp_classify_token tok = TOKEN_SHORT_OPTION ∨
            carp_classify_token tok = TOKEN_LONG_OPTION) ∧
          carp_parse_step search a tok = .ok a1 ∧
          args = imm ++ following ∧ argc = args.length ∧ imm.length ≤ 1 ∧
          (∀ s ∈ imm, s ≠ [] ∧ s <:+ tok) ∧
          following = (argv.drop (h + 1)).take following.length ∧
          (args = [] ∨ h + 1 + following.length = a1.head) ∧
          ∀ j, h < j → j ≤ h + following.length → Taken search argv j ∧ j ∉ idx) ∧
      (∀ j, Taken search argv j → j ∉ idx) ∧
      (∀ j, 1 ≤ j → j < argv.length →
        (∃ t, argv[j]? = some t ∧ carp_classify_token t = TOKEN_ARGUMENT) →
        (∀ s, 1 ≤ s → s < j → argv[s]? ≠ some ['-', '-']) →
        ¬ Taken search argv j → j ∈ idx) := by
  unfold carp_parse at hok
  obtain ⟨c1, hloop, hret⟩ := Outcome.bind_eq_ok _ _ _ hok
  simp only [Outcome.ok.injEq, Prod.mk.injEq] at hret
  obtain ⟨hcarp, htrace⟩ := hret
  subst hcarp
  obtain ⟨idx, h1, h2, h3, h4, h5, h6⟩ :=
    carp_parse_loop_indices search argv argv.length (carp_parse_init argv) c1 rfl rfl rfl
      hloop
  obtain ⟨evs, e1, e2⟩ :=
    carp_parse_loop_handed search argv.length (carp_parse_init argv) c1 rfl hloop
  have hevs : trace = evs := by
    rw [← htrace, e1]
    simp [carp_parse_init]
  have hmap : idx.map (fun i => argv[i]?) = c1.command_args.buf.map some := by
    rw [h3]
    simp [carp_parse_init, carp_vector_init]
  have htaken : ∀ j, Taken search argv j → j ∉ idx := fun j hj =>
    h5 j ((taken_iff_takenFrom search argv j).mp hj)
  refine ⟨idx, h1, h2, hmap, ?_, ?_, htaken, ?_⟩
  · have hlen := congrArg List.length hmap
    simp only [List.length_map] at hlen
    simp only
    omega
  · intro h cb args argc hmem
    rw [hevs] at hmem
    obtain ⟨a, a1, tok, r1, r2, r3, r4, r5, r6⟩ := e2 _ hmem
    have hreach : Reachable search argv a :=
      runFrom_reachable search argv _ a Reachable.init r1
    have hargv : a.argv = argv := (RunFrom.bounds search _ a r1).1
    obtain ⟨k1, k2, imm, following, k3, k4, k5, k6, k7⟩ := r6
    rw [hargv] at k6 r3
    rw [← k1] at r3 k6 k7
    refine ⟨a, a1, tok, imm, following, hreach, k1.symm, r3, r4, r5, k3, k2, k4, k5, k6, k7,
      ?_⟩
    intro j j1 j2
    have ht : Taken search argv j := by
      refine ⟨a, hreach, a1, tok, r2, by rw [hargv, ← k1]; exact r3, r4, r5,
        by rw [← k1]; exact j1, ?_⟩
      rcases k7 with k7 | k7
      · rw [k3] at k7
        have hnil : following = [] := (List.append_eq_nil.mp k7).2
        rw [hnil] at j2
        simp only [List.length_nil, Nat.add_zero] at j2
        omega
      · omega
    exact ⟨ht, htaken j ht⟩
  · intro j j1 j2 j3 j4 j5
    exact h6 j j1 j2 j3 j4 (fun ht => j5 ((taken_iff_takenFrom search argv j).mpr ht))

/-- C21, on `prog f1 --foo v f2 -- -a` with the table of the test `test carp_parse()`
(`foo` of arity 1): the residual list is `f1 f2 -a`, the tokens at the indices 1, 4, 6; the
token `v` at index 3 is handed to the handler of `--foo` and is not in the list. -/
theorem carp_parse_residual_indices_witness :
    carp_parse (test_backend_search g_table_parse)
        (tokens ["prog", "f1", "--foo", "v", "f2", "--", "-a"]) =
      .ok (⟨tokens ["f1", "f2", "-a"], 3⟩,
        [.search 2 ['f', 'o', 'o'], .call 2 carp_callback_override (tokens ["v"]) 1]) ∧
    ∃ idx : List Nat, idx.Pairwise (· < ·) ∧
      (∀ i ∈ idx, 1 ≤ i ∧ i < (tokens ["prog", "f1", "--foo", "v", "f2", "--", "-a"]).length) ∧
      idx.map (fun i => (tokens ["prog", "f1", "--foo", "v", "f2", "--", "-a"])[i]?) =
        (tokens ["f1", "f2", "-a"]).map some ∧
      3 = idx.length ∧
      (∀ h cb args argc, Event.call h cb args argc ∈
          [Event.search 2 ['f', 'o', 'o'],
            Event.call 2 carp_callback_override (tokens ["v"]) 1] →
        ∃ (a a1 : CarpPrivate) (tok : Token) (imm following : List Token),
          Reachable (test_backend_search g_table_parse)
            (tokens ["prog", "f1", "--foo", "v", "f2", "--", "-a"]) a ∧ a.head = h ∧
          (tokens ["prog", "f1", "--foo", "v", "f2", "--", "-a"])[h]? = some tok ∧
          (carp_classify_token tok = TOKEN_SHORT_OPTION ∨
            carp_classify_token tok = TOKEN_LONG_OPTION) ∧
          carp_parse_step (test_backend_search g_table_parse) a tok = .ok a1 ∧
          args = imm ++ following ∧ argc = args.length ∧ imm.length ≤ 1 ∧
          (∀ s ∈ imm, s ≠ [] ∧ s <:+ tok) ∧
          following = ((tokens ["prog", "f1", "--foo", "v", "f2", "--", "-a"]).drop
            (h + 1)).take following.length ∧
          (args = [] ∨ h + 1 + following.length = a1.head) ∧
          ∀ j, h < j → j ≤ h + following.length →
            Taken (test_backend_search g_table_parse)
              (tokens ["prog", "f1", "--foo", "v", "f2", "--", "-a"]) j ∧ j ∉ idx) ∧
      (∀ j, Taken (test_backend_search g_table_parse)
        (tokens ["prog", "f1", "--foo", "v", "f2", "--", "-a"]) j → j ∉ idx) ∧
      (∀ j, 1 ≤ j → j < (tokens ["prog", "f1", "--foo", "v", "f2", "--", "-a"]).length →
        (∃ t, (tokens ["prog", "f1", "--foo", "v", "f2", "--", "-a"])[j]? = some t ∧
          carp_classify_token t = TOKEN_ARGUMENT) →
        (∀ s, 1 ≤ s → s < j →
          (tokens ["prog", "f1", "--foo", "v", "f2", "--", "-a"])[s]? ≠ some ['-', '-']) →
        ¬ Taken (test_backend_search g_table_parse)
          (tokens ["prog", "f1", "--foo", "v", "f2", "--", "-a"]) j → j ∈ idx) :=
  ⟨by decide,
    carp_parse_residual_indices (test_backend_search g_table_parse)
      (tokens ["prog", "f1", "--foo", "v", "f2", "--", "-a"])
      ⟨tokens ["f1", "f2", "-a"], 3⟩
      [.search 2 ['f', 'o', 'o'], .call 2 carp_callback_override (tokens ["v"]) 1]
      (by decide)⟩

/-- C23: `carp_option_argument_handler` reads `argv` at index `tail`. On the test
`test carp_option_argument_handler() with errors` (`./a.out --long=argument`, `head = 1`,
`tail = 2`, arity 2, immediate value `argument`) the resolver classifies `argv[2]` for the
second argument, before it tests `head < tail`. So it does for an option that is the last
token of the input (`prog -o`, variadic) and for an option of fixed arity whose tokens run
out (`prog -b x`, arity 2, `tail = 3`: `argv[3]` is classified). -/
theorem carp_option_argument_handler_reads_tail :
    carp_option_argument_handler (test_private (tokens ["./a.out", "--long=argument"]) 1) 2
        (some "argument".toList) =
      .invalid_read 2
        { test_private (tokens ["./a.out", "--long=argument"]) 1 with
          callback_args := ⟨tokens ["argument"], 25, 1⟩ } ∧
    (test_private (tokens ["./a.out", "--long=argument"]) 1).tail = 2 ∧
    carp_option_argument_handler (test_private (tokens ["prog", "-o"]) 1) (-1) (some []) =
      .invalid_read 2 (test_private (tokens ["prog", "-o"]) 1) ∧
    (test_private (tokens ["prog", "-o"]) 1).tail = 2 ∧
    carp_option_argument_handler (test_private (tokens ["prog", "-b", "x"]) 1) 2 (some []) =
      .invalid_read 3
        { test_private (tokens ["prog", "-b", "x"]) 1 with
          callback_args := ⟨tokens ["x"], 25, 1⟩ } ∧
    (test_private (tokens ["prog", "-b", "x"]) 1).tail = 3 := by
  refine ⟨?_, ?_, ?_, ?_, ?_, ?_⟩ <;> decide

/-- C24: the lone marker `-`. `carp_classify_token` makes it a short option, and
`carp_parse_short_option` scans no character of it: it returns with the cursor moved by
exactly 1 and nothing else changed, so no lookup is made, no handler called, nothing
appended to the residual or to the callback buffer. So `carp_parse` on `[prog, "-", x]` with
`x` a plain argument returns the residual list `[x]`, count 1, without any call. -/
theorem carp_parse_lone_marker (search : List Char → Option CarpOptionSpec) :
    carp_classify_token ['-'] = TOKEN_SHORT_OPTION ∧
    (∀ c : CarpPrivate, c.token = some ['-'] →
      carp_parse_short_option search c = .ok { c with head := c.head + 1 }) ∧
    (∀ prog x : Token, carp_classify_token x = TOKEN_ARGUMENT →
      carp_parse search [prog, ['-'], x] = .ok (⟨[x], 1⟩, [])) := by
  refine ⟨by decide, ?_, ?_⟩
  · intro c htok
    simp [carp_parse_short_option, htok, carp_parse_short_option_loop, Outcome.bind]
  · intro prog x hx
    have hstep : carp_parse_step search (carp_parse_init [prog, ['-'], x]) ['-'] =
        .ok { carp_parse_init [prog, ['-'], x] with token := some ['-'], head := 2 } := by
      have hcls : carp_classify_token ['-'] = TOKEN_SHORT_OPTION := by decide
      simp [carp_parse_step, hcls, carp_parse_short_option, carp_parse_short_option_loop,
        Outcome.bind, carp_parse_init]
    obtain ⟨c1, h1, -, h3, -, h5, h6⟩ := carp_parse_loop_plain search 2
      { carp_parse_init [prog, ['-'], x] with token := some ['-'], head := 2 }
      (by simp [carp_parse_init]) rfl rfl (by simpa [carp_parse_init] using hx)
    have hloop : carp_parse_loop search 3 (carp_parse_init [prog, ['-'], x]) = .ok c1 := by
      have hlt : (carp_parse_init [prog, ['-'], x]).head <
          (carp_parse_init [prog, ['-'], x]).tail := by simp [carp_parse_init]
      have hget : (carp_parse_init [prog, ['-'], x]).argv[
          (carp_parse_init [prog, ['-'], x]).head]? = some ['-'] := by simp [carp_parse_init]
      rw [carp_parse_loop]
      simp only [hlt, if_true, hget, hstep, Outcome.bind]
      exact h1
    have hlen : [prog, ['-'], x].length = 3 := rfl
    simp only [carp_parse, hlen, hloop, Outcome.bind, Outcome.ok.injEq, Prod.mk.injEq,
      Carp.mk.injEq]
    refine ⟨⟨?_, ?_⟩, ?_⟩
    · simpa [carp_parse_init, carp_vector_init] using h5
    · rw [← h6, h5]
      simp [carp_parse_init, carp_vector_init]
    · simpa [carp_parse_init] using h3

/-- C24, on `prog - x`: the residual list is `["x"]`. -/
theorem carp_parse_lone_marker_witness :
    (test_private (tokens ["prog", "-", "x"]) 1).token = some ['-'] ∧
    carp_parse_short_option (fun _ => none) (test_private (tokens ["prog", "-", "x"]) 1) =
      .ok { test_private (tokens ["prog", "-", "x"]) 1 with head := 1 + 1 } ∧
    carp_classify_token ['x'] = TOKEN_ARGUMENT ∧
    carp_parse (fun _ => none) [['p', 'r', 'o', 'g'], ['-'], ['x']] = .ok (⟨[['x']], 1⟩, []) :=
  ⟨by decide,
    (carp_parse_lone_marker (fun _ => none)).2.1 (test_private (tokens ["prog", "-", "x"]) 1)
      (by decide),
    by decide,
    (carp_parse_lone_marker (fun _ => none)).2.2 ['p', 'r', 'o', 'g'] ['x'] (by decide)⟩

end CarpParser
